import Mathlib

/-!
Sudoku solver (`sudoku_solver.cpp`): embedding and verification.

The solving core of the program is embedded function by function:
`import_puzzle` (the part that fills the puzzle arrays), `macro_box_iterate`,
`simplify_puzzle`, `solve_check`, `find_empty_square`, `recursive_solve` and the
solving part of `main`.  A `vector<vector<T>>` is a list of lists, accessed
with `at2` and updated with `set2`; the C++ `int` cell values are `Int`.
Reference parameters become explicit state that is passed and returned.
The two unbounded constructs (the `while` loop of `simplify_puzzle` and the
recursion of `recursive_solve`) take a fuel argument and return `none` when it
runs out; the termination theorems show which fuel is enough.
-/

namespace Sudoku

/-! ## Two-dimensional vectors -/

/-- A puzzle array `vector<vector<int>>`. -/
abbrev Grid := List (List Int)

/-- The array `square_list` of candidate lists, `vector<vector<vector<int>>>`. -/
abbrev Cands := List (List (List Int))

/-- Read `t[r][c]` (with a default outside the bounds, where the C++ is undefined). -/
def at2 {α : Type} (d : α) (t : List (List α)) (r c : Nat) : α :=
  (t.getD r []).getD c d

/-- Write `t[r][c] = v`. -/
def set2 {α : Type} (t : List (List α)) (r c : Nat) (v : α) : List (List α) :=
  t.set r ((t.getD r []).set c v)

/-- Read `g[r][c]` of a puzzle array. -/
def cell (g : Grid) (r c : Nat) : Int := at2 0 g r c

/-- Read `square_list[r][c]`. -/
def cands (sq : Cands) (r c : Nat) : List Int := at2 [] sq r c

/-- A 9 by 9 array: 9 rows of 9 entries. -/
def WF2 {α : Type} (t : List (List α)) : Prop :=
  t.length = 9 ∧ ∀ row ∈ t, row.length = 9

instance {α : Type} (t : List (List α)) : Decidable (WF2 t) := by
  unfold WF2; infer_instance

/-- The values `1, 2, ..., 9` produced by `for (int i=1; i<10; i++)`. -/
def nums : List Int := [1, 2, 3, 4, 5, 6, 7, 8, 9]

/-- The array `vector<vector<int>> (9, vector<int> (9,0))`. -/
def zero_grid : Grid := List.replicate 9 (List.replicate 9 0)

/-- The array `vector<vector<vector<int>>> (9, vector<vector<int>>(9, vector<int>()))`. -/
def empty_lists : Cands := List.replicate 9 (List.replicate 9 [])

/-! ## `import_puzzle` (lines 62-75) -/

/-- The three arrays that `import_puzzle` fills. -/
structure Imported where
  input_puzzle : Grid
  solved_puzzle : Grid
  square_list : Cands
deriving DecidableEq

/-- The body of the double loop of `import_puzzle` at `(row, col)`; `x` is the
array read from the file. -/
def import_cell (x : Grid) (row : Nat) (st : Imported) (col : Nat) : Imported :=
  let fp_value := cell x row col
  if fp_value = 0 then
    let l := nums.foldl (fun l i => l ++ [i]) (cands st.square_list row col)
    { st with square_list := set2 st.square_list row col l }
  else
    { st with solved_puzzle := set2 st.solved_puzzle row col fp_value,
              input_puzzle := set2 st.input_puzzle row col fp_value }

/-- The second half of `import_puzzle`: from the array `x` read from the file,
fill `input_puzzle`, `solved_puzzle` and `square_list`. -/
def import_puzzle (x : Grid) (st : Imported) : Imported :=
  (List.range 9).foldl (fun st row => (List.range 9).foldl (import_cell x row) st) st

/-! ## `macro_box_iterate` (lines 102-207) -/

/-- The index loop
`for (i=0; i<l.size(); i++) if (l[i] == v) l.erase(l.begin()+i);`
started at index `i` on the list `l`.  The list never grows, so at most
`l.size()` iterations run; `fuel` counts them. -/
def erase_from (v : Int) : Nat → Nat → List Int → List Int
  | 0, _, l => l
  | fuel + 1, i, l =>
    if i < l.length then
      if l.getD i 0 = v then erase_from v fuel (i + 1) (l.eraseIdx i)
      else erase_from v fuel (i + 1) l
    else l

/-- The erase loop on a whole list, from index 0. -/
def erase_loop (v : Int) (l : List Int) : List Int := erase_from v l.length 0 l

/-- The erase loop applied to `square_list[r][c]`. -/
def strike (sq : Cands) (r c : Nat) (v : Int) : Cands :=
  set2 sq r c (erase_loop v (cands sq r c))

/-- Lines 117-124: check the puzzle row of the current square. -/
def check_row (g : Grid) (puzzle_row puzzle_col : Nat) (sq : Cands) : Cands :=
  (List.range 9).foldl (fun sq col => strike sq puzzle_row puzzle_col (cell g puzzle_row col)) sq

/-- Lines 126-133: check the puzzle column of the current square. -/
def check_col (g : Grid) (puzzle_row puzzle_col : Nat) (sq : Cands) : Cands :=
  (List.range 9).foldl (fun sq row => strike sq puzzle_row puzzle_col (cell g row puzzle_col)) sq

/-- Lines 135-147: check the current box for the current square. -/
def check_box (g : Grid) (box_y box_x puzzle_row puzzle_col : Nat) (sq : Cands) : Cands :=
  (List.range 3).foldl (fun sq row =>
    (List.range 3).foldl (fun sq col =>
      let abs_puzzle_row := 3 * box_y + row
      let abs_puzzle_col := 3 * box_x + col
      if abs_puzzle_row = puzzle_row ∧ abs_puzzle_col = puzzle_col then sq
      else strike sq puzzle_row puzzle_col (cell g abs_puzzle_row abs_puzzle_col)) sq) sq

/-- Lines 155-166: clean the lists of the box of the square that was just solved. -/
def clean_box (v : Int) (box_y box_x : Nat) (sq : Cands) : Cands :=
  (List.range 3).foldl (fun sq search_sub_y =>
    (List.range 3).foldl (fun sq search_sub_x =>
      strike sq (3 * box_y + search_sub_y) (3 * box_x + search_sub_x) v) sq) sq

/-- The state that `macro_box_iterate` works on: its three reference parameters. -/
structure PState where
  solved_puzzle : Grid
  square_list : Cands
  solution_update : Bool
deriving DecidableEq

/-- Lines 113-168: the body of the loop over the squares of a box. -/
def cell_step (box_y box_x : Nat) (sub_y : Nat) (st : PState) (sub_x : Nat) : PState :=
  let puzzle_row := 3 * box_y + sub_y
  let puzzle_col := 3 * box_x + sub_x
  let sq1 := check_row st.solved_puzzle puzzle_row puzzle_col st.square_list
  let sq2 := check_col st.solved_puzzle puzzle_row puzzle_col sq1
  let sq3 := check_box st.solved_puzzle box_y box_x puzzle_row puzzle_col sq2
  if (cands sq3 puzzle_row puzzle_col).length = 1 then
    let g := set2 st.solved_puzzle puzzle_row puzzle_col ((cands sq3 puzzle_row puzzle_col).getD 0 0)
    let sq4 := set2 sq3 puzzle_row puzzle_col []
    { solved_puzzle := g,
      square_list := clean_box (cell g puzzle_row puzzle_col) box_y box_x sq4,
      solution_update := true }
  else
    { st with square_list := sq3 }

/-- The local variables `count`, `found_puzzle_row`, `found_puzzle_col`. -/
structure Tally where
  count : Nat
  found_puzzle_row : Nat
  found_puzzle_col : Nat
deriving DecidableEq

/-- Lines 185-191: count the occurrences of `num` in one candidate list. -/
def tally_list (num : Int) (puzzle_row puzzle_col : Nat) (l : List Int) (t : Tally) : Tally :=
  l.foldl (fun t e =>
    if num = e then
      { count := t.count + 1, found_puzzle_row := puzzle_row, found_puzzle_col := puzzle_col }
    else t) t

/-- Lines 177-193: count the occurrences of `num` in the lists of a box. -/
def tally_box (num : Int) (box_y box_x : Nat) (sq : Cands) : Tally :=
  (List.range 3).foldl (fun t sub_y =>
    (List.range 3).foldl (fun t sub_x =>
      tally_list num (3 * box_y + sub_y) (3 * box_x + sub_x)
        (cands sq (3 * box_y + sub_y) (3 * box_x + sub_x)) t) t)
    { count := 0, found_puzzle_row := 0, found_puzzle_col := 0 }

/-- Lines 175-201: the body of the loop over `num`. -/
def unique_step (box_y box_x : Nat) (st : PState) (num : Int) : PState :=
  let t := tally_box num box_y box_x st.square_list
  if t.count = 1 then
    { solved_puzzle := set2 st.solved_puzzle t.found_puzzle_row t.found_puzzle_col num,
      square_list := set2 st.square_list t.found_puzzle_row t.found_puzzle_col [],
      solution_update := true }
  else st

/-- Lines 109-202: the body of the loop over the boxes. -/
def box_step (box_y : Nat) (st : PState) (box_x : Nat) : PState :=
  let st1 := (List.range 3).foldl (fun st sub_y =>
    (List.range 3).foldl (cell_step box_y box_x sub_y) st) st
  nums.foldl (unique_step box_y box_x) st1

/-- One pass of propagation, `macro_box_iterate`; the returned state holds the
two arrays and `solution_update`. -/
def macro_box_iterate (g : Grid) (sq : Cands) : PState :=
  (List.range 3).foldl (fun st box_y => (List.range 3).foldl (box_step box_y) st)
    { solved_puzzle := g, square_list := sq, solution_update := false }

/-! ## `simplify_puzzle` (lines 210-221) -/

/-- What `simplify_puzzle` leaves: the two arrays and its local counter
`iteration` (1 + the number of passes made). -/
structure Simplified where
  solved_puzzle : Grid
  square_list : Cands
  iteration : Nat
deriving DecidableEq

/-- The `while ( !done )` loop of `simplify_puzzle`; `none` when the fuel runs out. -/
def simplify_loop : Nat → Grid → Cands → Nat → Option Simplified
  | 0, _, _, _ => none
  | fuel + 1, g, sq, iteration =>
    let st := macro_box_iterate g sq
    if st.solution_update then
      simplify_loop fuel st.solved_puzzle st.square_list (iteration + 1)
    else
      some { solved_puzzle := st.solved_puzzle, square_list := st.square_list,
             iteration := iteration + 1 }

/-- The function `simplify_puzzle`. -/
def simplify_puzzle (fuel : Nat) (g : Grid) (sq : Cands) : Option Simplified :=
  simplify_loop fuel g sq 1

/-! ## `solve_check`, `find_empty_square`, `recursive_solve` (lines 267-362) -/

/-- The function `solve_check`: no entry of the puzzle is 0. -/
def solve_check (g : Grid) : Bool :=
  (List.range 9).all (fun row => (List.range 9).all (fun col => cell g row col != 0))

/-- The inner loop of `find_empty_square`: the first `col` of the row with a 0. -/
def find_in_row (g : Grid) (row : Nat) : Option Nat :=
  (List.range 9).find? (fun col => cell g row col == 0)

/-- The function `find_empty_square`: the first `(row, col)` in row-major order
with a 0; both loops run to the end, `(9, 9)`, when there is none. -/
def find_empty_square (g : Grid) : Nat × Nat :=
  match (List.range 9).find? (fun row => (find_in_row g row).isSome) with
  | some row => (row, (find_in_row g row).getD 9)
  | none => (9, 9)

/-- The double loop `dst[row][col] = src[row][col]` (lines 292-296 and 308-312). -/
def copy_grid (dst src : Grid) : Grid :=
  (List.range 9).foldl (fun d row =>
    (List.range 9).foldl (fun d col => set2 d row col (cell src row col)) d) dst

/-- Lines 319-350: the value of `constraint_pass` for `temp_puzzle` after the
square `(row_start, col_start)` was filled. -/
def constraint_pass (t : Grid) (row_start col_start : Nat) : Bool :=
  let v := cell t row_start col_start
  (List.range 9).all (fun col => col == col_start || v != cell t row_start col)
  && (List.range 9).all (fun row => row == row_start || v != cell t row col_start)
  && (List.range 3).all (fun row => (List.range 3).all (fun col =>
        let abs_puzzle_row := 3 * (row_start / 3) + row
        let abs_puzzle_col := 3 * (col_start / 3) + col
        (abs_puzzle_row == row_start && abs_puzzle_col == col_start)
          || v != cell t abs_puzzle_row abs_puzzle_col))

/-- The state threaded through the search: the reference parameter
`final_puzzle`, and a log of the `solved_puzzle` argument of every call of
`recursive_solve`, in the order the calls are made (the log is not in the
program; the claims about the calls are stated with it). -/
structure Search where
  final_puzzle : Grid
  calls : List Grid
deriving DecidableEq

/-- The function `recursive_solve`; `fuel` bounds the depth of the recursion and
`none` is returned when it runs out. -/
def recursive_solve : Nat → Search → Grid → Cands → Option Search
  | 0, _, _, _ => none
  | fuel + 1, st, solved_puzzle, square_list =>
    let st : Search := { st with calls := st.calls ++ [solved_puzzle] }
    if solve_check solved_puzzle then
      some { st with final_puzzle := copy_grid st.final_puzzle solved_puzzle }
    else
      let start := find_empty_square solved_puzzle
      let temp_puzzle := copy_grid zero_grid solved_puzzle
      ((cands square_list start.1 start.2).foldl
        (fun (acc : Option (Grid × Search)) v =>
          match acc with
          | none => none
          | some (temp_puzzle, st) =>
            let temp_puzzle := set2 temp_puzzle start.1 start.2 v
            if constraint_pass temp_puzzle start.1 start.2 then
              (recursive_solve fuel st temp_puzzle square_list).map (fun st => (temp_puzzle, st))
            else some (temp_puzzle, st))
        (some (temp_puzzle, st))).map (fun p => p.2)

/-! ## `main` (lines 367-387) -/

/-- The solving part of `main`: the arrays are created, the puzzle `x` read from
the file is imported, simplified and searched.  The result is the search state
whose `final_puzzle` is what `main` afterwards prints and saves. -/
def main (fuel : Nat) (x : Grid) : Option Search :=
  let im := import_puzzle x
    { input_puzzle := zero_grid, solved_puzzle := zero_grid, square_list := empty_lists }
  match simplify_puzzle fuel im.solved_puzzle im.square_list with
  | none => none
  | some s =>
    recursive_solve fuel { final_puzzle := zero_grid, calls := [] } s.solved_puzzle s.square_list

/-! ## Definitions used in the statements and proofs -/

/-- The effect of the erase loop, by recursion on the list: after an erase the
element that moves into the freed position is stepped over. -/
def erase_scan (v : Int) : List Int → List Int
  | [] => []
  | [x] => if x = v then [] else [x]
  | x :: y :: ys => if x = v then y :: erase_scan v ys else x :: erase_scan v (y :: ys)

/-- A candidate list as the program keeps it: a sub-list of `1, ..., 9`. -/
def Good (l : List Int) : Prop := l.Sublist nums

instance (l : List Int) : Decidable (Good l) := by unfold Good; infer_instance

/-- Every candidate list of the collection is a sub-list of `1, ..., 9`. -/
def GoodAll (sq : Cands) : Prop := ∀ r < 9, ∀ c < 9, Good (cands sq r c)

instance (sq : Cands) : Decidable (GoodAll sq) := by unfold GoodAll; infer_instance

/-- The squares of the box `(box_y, box_x)`, in the order the program visits them. -/
def box_cells (box_y box_x : Nat) : List (Nat × Nat) :=
  ((List.range 3).product (List.range 3)).map (fun p => (3 * box_y + p.1, 3 * box_x + p.2))

/-- The entries of row `r`. -/
def row_vals (g : Grid) (r : Nat) : List Int := (List.range 9).map (fun c => cell g r c)

/-- The entries of column `c`. -/
def col_vals (g : Grid) (c : Nat) : List Int := (List.range 9).map (fun r => cell g r c)

/-- The entries of the box `(box_y, box_x)` other than the square `(r, c)`. -/
def box_others (g : Grid) (box_y box_x r c : Nat) : List Int :=
  ((box_cells box_y box_x).filter (fun p => decide (¬ (p.1 = r ∧ p.2 = c)))).map
    (fun p => cell g p.1 p.2)

/-- The values that lines 117-147 compare the candidates of the square `(r, c)` with. -/
def seen (g : Grid) (box_y box_x r c : Nat) : List Int :=
  row_vals g r ++ col_vals g c ++ box_others g box_y box_x r c

/-- The candidates that are left after lines 117-147. -/
def pruned (g : Grid) (box_y box_x r c : Nat) (l : List Int) : List Int :=
  l.filter (fun x => decide (x ∉ seen g box_y box_x r c))

/-- The invariant of the propagation state: both arrays are 9 by 9, every
candidate list is a sub-list of `1, ..., 9`, and only a square whose value is 0
has candidates. -/
def Base (g : Grid) (sq : Cands) : Prop :=
  WF2 g ∧ WF2 sq ∧ GoodAll sq ∧ ∀ r < 9, ∀ c < 9, cands sq r c ≠ [] → cell g r c = 0

instance (g : Grid) (sq : Cands) : Decidable (Base g sq) := by unfold Base; infer_instance

/-- The squares of the box `(box_y, box_x)` whose candidate list contains `num`. -/
def holders (num : Int) (box_y box_x : Nat) (sq : Cands) : List (Nat × Nat) :=
  (box_cells box_y box_x).filter (fun p => decide (num ∈ cands sq p.1 p.2))

/-- The 81 squares in row-major order. -/
def cells81 : List (Nat × Nat) := (List.range 9).product (List.range 9)

/-- The number of squares with a non-empty candidate list. -/
def open_count (sq : Cands) : Nat :=
  cells81.countP (fun p => decide (cands sq p.1 p.2 ≠ []))

/-- The number of squares whose value is 0. -/
def zeros (g : Grid) : Nat :=
  cells81.countP (fun p => decide (cell g p.1 p.2 = 0))

/-- What any part of a pass does to the state: squares that are filled keep
their value, candidate lists only lose elements, `solution_update` is only
ever set, and when it is newly set a square that was 0 has been filled and the
number of non-empty candidate lists has gone down. -/
def Evolves (s t : PState) : Prop :=
  (∀ r c, cell s.solved_puzzle r c ≠ 0 → cell t.solved_puzzle r c = cell s.solved_puzzle r c) ∧
  (∀ r c, (cands t.square_list r c).Sublist (cands s.square_list r c)) ∧
  (s.solution_update = true → t.solution_update = true) ∧
  (t.solution_update = true → s.solution_update = true ∨
    (open_count t.square_list < open_count s.square_list ∧
      ∃ r < 9, ∃ c < 9, cell s.solved_puzzle r c = 0 ∧ cell t.solved_puzzle r c ≠ 0))

/-- The index pairs `(0,0), (0,1), ..., (2,2)` of two nested loops over `0..2`. -/
def pairs3 : List (Nat × Nat) := (List.range 3).product (List.range 3)

/-- No candidate of the square `(r, c)` is the value of a square of its row,
its column or its box. -/
def Clean (g : Grid) (sq : Cands) (r c : Nat) : Prop :=
  ∀ x ∈ cands sq r c, x ∉ seen g (r / 3) (c / 3) r c

instance (g : Grid) (sq : Cands) (r c : Nat) : Decidable (Clean g sq r c) := by
  unfold Clean; infer_instance

/-- Neither rule of the pass can act in the box `(box_y, box_x)`: the candidates
of its squares do not conflict with the puzzle, no list has exactly one
element, and no value is a candidate of exactly one square of the box. -/
def StableBox (g : Grid) (sq : Cands) (box_y box_x : Nat) : Prop :=
  (∀ p ∈ box_cells box_y box_x, Clean g sq p.1 p.2 ∧ (cands sq p.1 p.2).length ≠ 1) ∧
  ∀ num ∈ nums, (holders num box_y box_x sq).length ≠ 1

instance (g : Grid) (sq : Cands) (box_y box_x : Nat) : Decidable (StableBox g sq box_y box_x) := by
  unfold StableBox; infer_instance

/-- The fixpoint of propagation: neither rule can act in any box. -/
def Stable (g : Grid) (sq : Cands) : Prop :=
  ∀ box_y < 3, ∀ box_x < 3, StableBox g sq box_y box_x

instance (g : Grid) (sq : Cands) : Decidable (Stable g sq) := by
  unfold Stable; infer_instance

/-- The arrays as `main` creates them, before `import_puzzle` runs. -/
def fresh : Imported :=
  { input_puzzle := zero_grid, solved_puzzle := zero_grid, square_list := empty_lists }

/-- All entries of the array are in `0..9`. -/
def InRange (x : Grid) : Prop := ∀ r < 9, ∀ c < 9, 0 ≤ cell x r c ∧ cell x r c ≤ 9

instance (x : Grid) : Decidable (InRange x) := by unfold InRange; infer_instance

/-- The square `(r', c')` is another square of the row, the column or the box of
the square `(r, c)`. -/
def Peer (r c r' c' : Nat) : Prop :=
  ¬ (r' = r ∧ c' = c) ∧ (r' = r ∨ c' = c ∨ (r' / 3 = r / 3 ∧ c' / 3 = c / 3))

instance (r c r' c' : Nat) : Decidable (Peer r c r' c') := by unfold Peer; infer_instance

/-- The non-zero entries contain no duplicate in any row, column or box: a square
with a non-zero value shares it with no other square of its row, column or box. -/
def Consistent (g : Grid) : Prop :=
  ∀ r < 9, ∀ c < 9, ∀ r' < 9, ∀ c' < 9, Peer r c r' c' →
    cell g r c ≠ 0 → cell g r' c' ≠ cell g r c

/-- The entries of box number `b` (boxes are numbered row by row, 0 to 8). -/
def box_vals (g : Grid) (b : Nat) : List Int :=
  (box_cells (b / 3) (b % 3)).map (fun p => cell g p.1 p.2)

/-- A completed valid grid: 9 by 9, and each row, each column and each box is a
permutation of `1, ..., 9`. -/
def ValidGrid (S : Grid) : Prop :=
  WF2 S ∧ ∀ i < 9, (row_vals S i).Perm nums ∧ (col_vals S i).Perm nums ∧
    (box_vals S i).Perm nums

instance (S : Grid) : Decidable (ValidGrid S) := by unfold ValidGrid; infer_instance

/-- The grid `S` agrees with `x` on every non-zero square of `x`. -/
def Agrees (S x : Grid) : Prop :=
  ∀ r < 9, ∀ c < 9, cell x r c ≠ 0 → cell S r c = cell x r c

instance (S x : Grid) : Decidable (Agrees S x) := by unfold Agrees; infer_instance

/-- The propagation state has not excluded the grid `S`: the filled squares hold
the value of `S`, and the value of `S` is a candidate of every square that is 0. -/
def Sound (S g : Grid) (sq : Cands) : Prop :=
  ∀ r < 9, ∀ c < 9, (cell g r c ≠ 0 → cell g r c = cell S r c) ∧
    (cell g r c = 0 → cell S r c ∈ cands sq r c)

instance (S g : Grid) (sq : Cands) : Decidable (Sound S g sq) := by unfold Sound; infer_instance

/-- One iteration of the loop over the candidates in `recursive_solve` (lines
315-356), for the candidate `v` of the square `start` of `solved_puzzle`: the
candidate is written into the copy, and the recursive call is made when the
constraints pass.  `none` stands for a call that ran out of fuel. -/
def branch_step (fuel : Nat) (square_list : Cands) (solved_puzzle : Grid) (start : Nat × Nat)
    (acc : Option Search) (v : Int) : Option Search :=
  match acc with
  | none => none
  | some st =>
    if constraint_pass (set2 solved_puzzle start.1 start.2 v) start.1 start.2 then
      recursive_solve fuel st (set2 solved_puzzle start.1 start.2 v) square_list
    else some st

/-- What is in `final_puzzle` after the calls on the grids `new`, made in this
order, when it held `old` before: every completed grid among them overwrites it. -/
def last_solution (new : List Grid) (old : Grid) : Grid :=
  new.foldl (fun f t => if solve_check t then t else f) old

/-- The grids of the calls of `recursive_solve` on `g`, in depth-first order: `g`
itself, then, when `g` has a square that is 0, for each candidate of the first
such square in row-major order, in the order of the candidate list, and provided
the candidate occurs nowhere else in the row, column and box of the square, the
calls for `g` with the candidate filled in.  No candidate is skipped once a
completed grid has been reached.  `depth` bounds the depth of the enumeration. -/
def search_tree : Nat → Cands → Grid → List Grid
  | 0, _, _ => []
  | depth + 1, sq, g =>
    g :: (if solve_check g then []
      else
        ((cands sq (find_empty_square g).1 (find_empty_square g).2).filter
          (fun v => constraint_pass (set2 g (find_empty_square g).1 (find_empty_square g).2 v)
            (find_empty_square g).1 (find_empty_square g).2)).flatMap
          (fun v => search_tree depth sq
            (set2 g (find_empty_square g).1 (find_empty_square g).2 v)))

/-- The state after `k` passes of `macro_box_iterate`, started on `(g, sq)`. -/
def iterate_pass : Nat → Grid → Cands → PState
  | 0, g, sq => { solved_puzzle := g, square_list := sq, solution_update := false }
  | k + 1, g, sq =>
    macro_box_iterate (iterate_pass k g sq).solved_puzzle (iterate_pass k g sq).square_list

/-- A valid completed grid, used as a concrete input. -/
def solved_grid : Grid :=
  [[6, 5, 7, 9, 3, 2, 1, 8, 4],
   [9, 8, 3, 6, 4, 1, 5, 2, 7],
   [1, 2, 4, 7, 5, 8, 3, 6, 9],
   [2, 1, 5, 3, 9, 6, 4, 7, 8],
   [3, 4, 8, 1, 2, 7, 6, 9, 5],
   [7, 9, 6, 5, 8, 4, 2, 3, 1],
   [8, 6, 1, 4, 7, 3, 9, 5, 2],
   [4, 7, 9, 2, 6, 5, 8, 1, 3],
   [5, 3, 2, 8, 1, 9, 7, 4, 6]]

/-- The grid `solved_grid` with four squares set to 0; it has two valid
completions (6 and 9 can be exchanged in the four squares). -/
def two_solutions : Grid :=
  [[0, 5, 7, 0, 3, 2, 1, 8, 4],
   [0, 8, 3, 0, 4, 1, 5, 2, 7],
   [1, 2, 4, 7, 5, 8, 3, 6, 9],
   [2, 1, 5, 3, 9, 6, 4, 7, 8],
   [3, 4, 8, 1, 2, 7, 6, 9, 5],
   [7, 9, 6, 5, 8, 4, 2, 3, 1],
   [8, 6, 1, 4, 7, 3, 9, 5, 2],
   [4, 7, 9, 2, 6, 5, 8, 1, 3],
   [5, 3, 2, 8, 1, 9, 7, 4, 6]]

/-- The other valid completion of `two_solutions`. -/
def second_solution : Grid :=
  [[9, 5, 7, 6, 3, 2, 1, 8, 4],
   [6, 8, 3, 9, 4, 1, 5, 2, 7],
   [1, 2, 4, 7, 5, 8, 3, 6, 9],
   [2, 1, 5, 3, 9, 6, 4, 7, 8],
   [3, 4, 8, 1, 2, 7, 6, 9, 5],
   [7, 9, 6, 5, 8, 4, 2, 3, 1],
   [8, 6, 1, 4, 7, 3, 9, 5, 2],
   [4, 7, 9, 2, 6, 5, 8, 1, 3],
   [5, 3, 2, 8, 1, 9, 7, 4, 6]]

/-- The grid `solved_grid` with the value 5 twice in row 0 (columns 0 and 1) and
the last square set to 0. -/
def double_five : Grid :=
  [[5, 5, 7, 9, 3, 2, 1, 8, 4],
   [9, 8, 3, 6, 4, 1, 5, 2, 7],
   [1, 2, 4, 7, 5, 8, 3, 6, 9],
   [2, 1, 5, 3, 9, 6, 4, 7, 8],
   [3, 4, 8, 1, 2, 7, 6, 9, 5],
   [7, 9, 6, 5, 8, 4, 2, 3, 1],
   [8, 6, 1, 4, 7, 3, 9, 5, 2],
   [4, 7, 9, 2, 6, 5, 8, 1, 3],
   [5, 3, 2, 8, 1, 9, 7, 4, 0]]

/-- What the program produces for `double_five`. -/
def double_five_out : Grid :=
  [[5, 5, 7, 9, 3, 2, 1, 8, 4],
   [9, 8, 3, 6, 4, 1, 5, 2, 7],
   [1, 2, 4, 7, 5, 8, 3, 6, 9],
   [2, 1, 5, 3, 9, 6, 4, 7, 8],
   [3, 4, 8, 1, 2, 7, 6, 9, 5],
   [7, 9, 6, 5, 8, 4, 2, 3, 1],
   [8, 6, 1, 4, 7, 3, 9, 5, 2],
   [4, 7, 9, 2, 6, 5, 8, 1, 3],
   [5, 3, 2, 8, 1, 9, 7, 4, 6]]

/-- A puzzle without duplicates and without solution: the squares (0,0) and (2,7)
are 0, and the value 6, the only one missing from row 0, stands in column 0. -/
def no_solution : Grid :=
  [[0, 5, 7, 9, 3, 2, 1, 8, 4],
   [9, 8, 3, 6, 4, 1, 5, 2, 7],
   [6, 2, 4, 7, 5, 8, 3, 0, 9],
   [2, 1, 5, 3, 9, 6, 4, 7, 8],
   [3, 4, 8, 1, 2, 7, 6, 9, 5],
   [7, 9, 6, 5, 8, 4, 2, 3, 1],
   [8, 6, 1, 4, 7, 3, 9, 5, 2],
   [4, 7, 9, 2, 6, 5, 8, 1, 3],
   [5, 3, 2, 8, 1, 9, 7, 4, 6]]

/-- The grid `solved_grid` with the square (4,4) set to 0. -/
def one_blank : Grid :=
  [[6, 5, 7, 9, 3, 2, 1, 8, 4],
   [9, 8, 3, 6, 4, 1, 5, 2, 7],
   [1, 2, 4, 7, 5, 8, 3, 6, 9],
   [2, 1, 5, 3, 9, 6, 4, 7, 8],
   [3, 4, 8, 1, 0, 7, 6, 9, 5],
   [7, 9, 6, 5, 8, 4, 2, 3, 1],
   [8, 6, 1, 4, 7, 3, 9, 5, 2],
   [4, 7, 9, 2, 6, 5, 8, 1, 3],
   [5, 3, 2, 8, 1, 9, 7, 4, 6]]

/-- The candidate lists that `simplify_puzzle` leaves for `two_solutions`: 6 and 9
for each of the four squares that are 0. -/
def two_solutions_lists : Cands :=
  set2 (set2 (set2 (set2 empty_lists 0 0 [6, 9]) 0 3 [6, 9]) 1 0 [6, 9]) 1 3 [6, 9]

/-- The grid `solved_grid` with the squares (4,4) and (8,8) set to 0. -/
def two_blanks : Grid :=
  [[6, 5, 7, 9, 3, 2, 1, 8, 4],
   [9, 8, 3, 6, 4, 1, 5, 2, 7],
   [1, 2, 4, 7, 5, 8, 3, 6, 9],
   [2, 1, 5, 3, 9, 6, 4, 7, 8],
   [3, 4, 8, 1, 0, 7, 6, 9, 5],
   [7, 9, 6, 5, 8, 4, 2, 3, 1],
   [8, 6, 1, 4, 7, 3, 9, 5, 2],
   [4, 7, 9, 2, 6, 5, 8, 1, 3],
   [5, 3, 2, 8, 1, 9, 7, 4, 0]]

/-- Candidate lists that are all empty, except that the list of the square (4,4)
holds the value 0. -/
def zero_candidate : Cands :=
  set2 empty_lists 4 4 [0]

/-- The candidate lists contain only values in 1..9. -/
def OnlyDigits (sq : Cands) : Prop :=
  ∀ r < 9, ∀ c < 9, ∀ v ∈ cands sq r c, 1 ≤ v ∧ v ≤ 9

instance (sq : Cands) : Decidable (OnlyDigits sq) := by unfold OnlyDigits; infer_instance

/-- The grids of the recursive calls that `recursive_solve` makes directly on a
grid `g` that has a zero square, as the claim about the search step describes
them: for each candidate `v` of the first zero square of `g`, in the order of
the candidate list, such that no other square of the row, the column and the
box of that square holds `v` in `g`, the grid `g` with `v` in that square. -/
def direct_calls (sq : Cands) (g : Grid) : List Grid :=
  ((cands sq (find_empty_square g).1 (find_empty_square g).2).filter
    (fun v => decide (∀ r : Nat, r < 9 → ∀ c : Nat, c < 9 →
      Peer (find_empty_square g).1 (find_empty_square g).2 r c → cell g r c ≠ v))).map
    (fun v => set2 g (find_empty_square g).1 (find_empty_square g).2 v)

/-- The lexicographic order of the 81 squares read row-major: `S` and `T` are
equal on all squares, or `S` is smaller than `T` at the first square where they
differ. -/
def LexLe (S T : Grid) : Prop :=
  (∀ r : Nat, r < 9 → ∀ c : Nat, c < 9 → cell S r c = cell T r c) ∨
  ∃ r : Nat, r < 9 ∧ ∃ c : Nat, c < 9 ∧ cell S r c < cell T r c ∧
    ∀ r' : Nat, r' < 9 → ∀ c' : Nat, c' < 9 →
      (r' < r ∨ (r' = r ∧ c' < c)) → cell S r' c' = cell T r' c'

instance (S T : Grid) : Decidable (LexLe S T) := by unfold LexLe; infer_instance

/-! ## Two-dimensional vectors: reading after writing -/

theorem getD_set_list {α : Type} (l : List α) (i j : Nat) (v d : α) :
    (l.set i v).getD j d = if i = j ∧ j < l.length then v else l.getD j d := by
  simp only [List.getD_eq_getElem?_getD, List.getElem?_set]
  by_cases h : i = j
  · subst h
    by_cases h2 : i < l.length
    · simp [h2]
    · simp [h2, List.getElem?_eq_none (by omega : l.length ≤ i)]
  · simp [h]

theorem at2_set2 {α : Type} (d : α) (t : List (List α)) (r c r' c' : Nat) (v : α) :
    at2 d (set2 t r c v) r' c' =
      if r' = r ∧ c' = c ∧ r < t.length ∧ c < (t.getD r []).length then v else at2 d t r' c' := by
  unfold at2 set2
  rw [getD_set_list]
  by_cases h : r = r' ∧ r' < t.length
  · obtain ⟨h1, h2⟩ := h
    subst h1
    simp only [h2, and_self, if_true, true_and]
    rw [getD_set_list]
    by_cases h3 : c = c'
    · subst h3; simp
    · have : ¬ c' = c := fun h => h3 h.symm
      simp [h3, this]
  · rw [if_neg h]
    have : ¬ (r' = r ∧ c' = c ∧ r < t.length ∧ c < (t.getD r []).length) := by
      rintro ⟨h1, -, h3, -⟩
      exact h ⟨h1.symm, h1 ▸ h3⟩
    rw [if_neg this]

theorem WF2_row_length {α : Type} {t : List (List α)} (h : WF2 t) {r : Nat} (hr : r < 9) :
    (t.getD r []).length = 9 := by
  obtain ⟨h1, h2⟩ := h
  have hr' : r < t.length := by omega
  rw [List.getD_eq_getElem _ _ hr']
  exact h2 _ (List.getElem_mem _)

theorem WF2_set2 {α : Type} {t : List (List α)} (h : WF2 t) (r c : Nat) (v : α) :
    WF2 (set2 t r c v) := by
  obtain ⟨h1, h2⟩ := h
  refine ⟨by simp [set2, h1], ?_⟩
  intro row hrow
  unfold set2 at hrow
  by_cases hr : r < t.length
  · rcases List.mem_or_eq_of_mem_set hrow with h | h
    · exact h2 _ h
    · subst h
      rw [List.length_set, List.getD_eq_getElem _ _ hr]
      exact h2 _ (List.getElem_mem _)
  · rw [List.set_eq_of_length_le (by omega)] at hrow
    exact h2 _ hrow

theorem at2_set2_self {α : Type} (d : α) {t : List (List α)} (h : WF2 t) {r c : Nat}
    (hr : r < 9) (hc : c < 9) (v : α) : at2 d (set2 t r c v) r c = v := by
  rw [at2_set2, if_pos]
  exact ⟨rfl, rfl, by rw [h.1]; exact hr, by rw [WF2_row_length h hr]; exact hc⟩

theorem at2_set2_ne {α : Type} (d : α) (t : List (List α)) {r c r' c' : Nat} (v : α)
    (hne : ¬ (r' = r ∧ c' = c)) : at2 d (set2 t r c v) r' c' = at2 d t r' c' := by
  rw [at2_set2, if_neg]
  rintro ⟨h1, h2, -⟩
  exact hne ⟨h1, h2⟩

theorem ext2 {α : Type} (d : α) {a b : List (List α)} (ha : WF2 a) (hb : WF2 b)
    (h : ∀ r c, r < 9 → c < 9 → at2 d a r c = at2 d b r c) : a = b := by
  apply List.ext_getElem (by rw [ha.1, hb.1])
  intro r hr1 hr2
  have hr : r < 9 := by rw [ha.1] at hr1; exact hr1
  have la : (a[r]).length = 9 := ha.2 _ (List.getElem_mem _)
  have lb : (b[r]).length = 9 := hb.2 _ (List.getElem_mem _)
  apply List.ext_getElem (by rw [la, lb])
  intro c hc1 hc2
  have hc : c < 9 := by rw [la] at hc1; exact hc1
  have := h r c hr hc
  unfold at2 at this
  rw [List.getD_eq_getElem _ _ hr1, List.getD_eq_getElem _ _ hr2,
    List.getD_eq_getElem _ _ hc1, List.getD_eq_getElem _ _ hc2] at this
  exact this

/-! ## The erase loop -/

theorem erase_scan_nil (v : Int) : erase_scan v [] = [] := by
  rw [erase_scan]

theorem erase_scan_cons_ne (v : Int) {x : Int} (xs : List Int) (h : x ≠ v) :
    erase_scan v (x :: xs) = x :: erase_scan v xs := by
  cases xs with
  | nil => simp [erase_scan, h]
  | cons y ys => rw [erase_scan, if_neg h]

theorem erase_scan_single (v : Int) : erase_scan v [v] = [] := by
  rw [erase_scan, if_pos rfl]

theorem erase_scan_cons_eq (v y : Int) (ys : List Int) :
    erase_scan v (v :: y :: ys) = y :: erase_scan v ys := by
  rw [erase_scan, if_pos rfl]

theorem erase_from_append (v : Int) :
    ∀ (fuel : Nat) (pre l : List Int), l.length ≤ fuel →
      erase_from v fuel pre.length (pre ++ l) = pre ++ erase_scan v l := by
  intro fuel
  induction fuel with
  | zero =>
    intro pre l hl
    have : l = [] := List.length_eq_zero.mp (by omega)
    subst this
    simp [erase_from, erase_scan_nil]
  | succ n ih =>
    intro pre l hl
    cases l with
    | nil => simp [erase_from, erase_scan_nil]
    | cons x xs =>
      have hlt : pre.length < (pre ++ x :: xs).length := by simp
      have hget : (pre ++ x :: xs).getD pre.length 0 = x := by
        rw [List.getD_eq_getElem?_getD, List.getElem?_append_right (le_refl _)]
        simp
      rw [erase_from, if_pos hlt, hget]
      by_cases hx : x = v
      · rw [if_pos hx]
        subst hx
        have herase : (pre ++ x :: xs).eraseIdx pre.length = pre ++ xs := by
          rw [List.eraseIdx_append_of_length_le (le_refl _)]
          simp
        rw [herase]
        cases xs with
        | nil =>
          rw [erase_scan_single]
          cases n with
          | zero => simp [erase_from]
          | succ m => simp [erase_from]
        | cons y ys =>
          have h := ih (pre ++ [y]) ys (by simp at hl; omega)
          simp only [List.length_append, List.length_singleton, List.append_assoc,
            List.singleton_append] at h
          rw [h, erase_scan_cons_eq]
      · rw [if_neg hx]
        have h := ih (pre ++ [x]) xs (by simp at hl; omega)
        simp only [List.length_append, List.length_singleton, List.append_assoc,
          List.singleton_append] at h
        rw [h, erase_scan_cons_ne _ _ hx]

theorem erase_loop_eq_scan (v : Int) (l : List Int) : erase_loop v l = erase_scan v l := by
  have := erase_from_append v l.length [] l (le_refl _)
  simpa [erase_loop] using this

theorem erase_scan_not_mem (v : Int) : ∀ l : List Int, v ∉ l → erase_scan v l = l := by
  intro l
  induction l with
  | nil => intro _; exact erase_scan_nil v
  | cons x xs ih =>
    intro h
    have hx : x ≠ v := fun e => h (e ▸ List.mem_cons_self _ _)
    rw [erase_scan_cons_ne _ _ hx, ih (fun hm => h (List.mem_cons_of_mem _ hm))]

theorem filter_ne_not_mem (v : Int) (l : List Int) (h : v ∉ l) :
    l.filter (fun x => decide (x ≠ v)) = l := by
  rw [List.filter_eq_self]
  intro a ha
  simp only [ne_eq, decide_eq_true_eq]
  rintro rfl
  exact h ha

theorem erase_scan_nodup (v : Int) : ∀ l : List Int, l.Nodup →
    erase_scan v l = l.filter (fun x => decide (x ≠ v)) := by
  intro l
  induction l with
  | nil => intro _; simp [erase_scan_nil]
  | cons x xs ih =>
    intro hnd
    have hx : x ∉ xs := (List.nodup_cons.mp hnd).1
    have hxs : xs.Nodup := (List.nodup_cons.mp hnd).2
    by_cases h : x = v
    · subst h
      rw [List.filter_cons_of_neg (by simp), filter_ne_not_mem x xs hx]
      cases xs with
      | nil => exact erase_scan_single x
      | cons y ys =>
        rw [erase_scan_cons_eq, erase_scan_not_mem x ys (fun hm => hx (List.mem_cons_of_mem _ hm))]
    · rw [erase_scan_cons_ne _ _ h, ih hxs, List.filter_cons_of_pos (by simpa using h)]

theorem erase_loop_nodup (v : Int) (l : List Int) (h : l.Nodup) :
    erase_loop v l = l.filter (fun x => decide (x ≠ v)) := by
  rw [erase_loop_eq_scan, erase_scan_nodup v l h]

/-! ## Lines 117-147: pruning the candidates of a square -/
theorem Good.nodup {l : List Int} (h : Good l) : l.Nodup :=
  List.Nodup.sublist h (by decide)

theorem Good.filter {l : List Int} (h : Good l) (p : Int → Bool) : Good (l.filter p) :=
  List.Sublist.trans (List.filter_sublist l) h

theorem Good.range {l : List Int} (h : Good l) {x : Int} (hx : x ∈ l) : 1 ≤ x ∧ x ≤ 9 := by
  have : x ∈ nums := h.subset hx
  simp [nums] at this
  omega

theorem Good.ne_zero {l : List Int} (h : Good l) {x : Int} (hx : x ∈ l) : x ≠ 0 := by
  have := h.range hx
  omega

theorem good_nil : Good [] := List.nil_sublist _

theorem good_nums : Good nums := List.Sublist.refl _

theorem erase_loop_good (v : Int) {l : List Int} (h : Good l) :
    erase_loop v l = l.filter (fun x => decide (x ≠ v)) :=
  erase_loop_nodup v l h.nodup

theorem foldl_erase_good (vs : List Int) : ∀ {l : List Int}, Good l →
    vs.foldl (fun l v => erase_loop v l) l = l.filter (fun x => decide (x ∉ vs)) := by
  induction vs with
  | nil => intro l _; simp
  | cons v vs ih =>
    intro l h
    rw [List.foldl_cons, erase_loop_good v h, ih (h.filter _), List.filter_filter]
    apply List.filter_congr
    intro x _
    simp only [List.mem_cons, not_or, ne_eq]
    by_cases h1 : x = v <;> by_cases h2 : x ∈ vs <;> simp [h1, h2]

theorem set2_set2 {α : Type} (t : List (List α)) (r c : Nat) (v w : α) :
    set2 (set2 t r c v) r c w = set2 t r c w := by
  unfold set2
  by_cases hr : r < t.length
  · rw [List.set_set, List.getD_eq_getElem _ _ (by simpa using hr), List.getElem_set_self,
      List.set_set]
  · have e : ∀ X : List α, t.set r X = t := fun X => List.set_eq_of_length_le (by omega)
    simp only [e]

theorem set2_at2 {α : Type} (d : α) {t : List (List α)} (h : WF2 t) {r c : Nat}
    (hr : r < 9) (hc : c < 9) : set2 t r c (at2 d t r c) = t := by
  apply ext2 d (WF2_set2 h _ _ _) h
  intro r' c' _ _
  by_cases hp : r' = r ∧ c' = c
  · obtain ⟨h1, h2⟩ := hp
    subst h1; subst h2
    rw [at2_set2_self d h hr hc]
  · rw [at2_set2_ne d t _ hp]

theorem WF2_strike {sq : Cands} (h : WF2 sq) (r c : Nat) (v : Int) : WF2 (strike sq r c v) :=
  WF2_set2 h _ _ _

theorem foldl_strike {r c : Nat} (hr : r < 9) (hc : c < 9) (vs : List Int) :
    ∀ {sq : Cands}, WF2 sq →
      vs.foldl (fun sq v => strike sq r c v) sq =
        set2 sq r c (vs.foldl (fun l v => erase_loop v l) (cands sq r c)) := by
  induction vs with
  | nil =>
    intro sq h
    simp only [List.foldl_nil]
    exact (set2_at2 [] h hr hc).symm
  | cons v vs ih =>
    intro sq h
    rw [List.foldl_cons, ih (WF2_strike h r c v)]
    unfold strike cands
    rw [at2_set2_self [] h hr hc, set2_set2]
    rfl

theorem foldl_foldl_product {σ α β : Type} (f : σ → α → β → σ) (la : List α) (lb : List β) :
    ∀ s : σ, la.foldl (fun s a => lb.foldl (fun s b => f s a b) s) s =
      (la.product lb).foldl (fun s p => f s p.1 p.2) s := by
  induction la with
  | nil => intro s; rfl
  | cons a la ih =>
    intro s
    have e : (a :: la).product lb = lb.map (fun b => (a, b)) ++ la.product lb :=
      List.product_cons a la lb
    rw [List.foldl_cons, ih, e, List.foldl_append, List.foldl_map]

theorem check_row_eq {g : Grid} {sq : Cands} (h : WF2 sq) {r c : Nat} (hr : r < 9) (hc : c < 9) :
    check_row g r c sq =
      set2 sq r c ((row_vals g r).foldl (fun l v => erase_loop v l) (cands sq r c)) := by
  unfold check_row
  rw [← foldl_strike hr hc _ h, row_vals, List.foldl_map]

theorem check_col_eq {g : Grid} {sq : Cands} (h : WF2 sq) {r c : Nat} (hr : r < 9) (hc : c < 9) :
    check_col g r c sq =
      set2 sq r c ((col_vals g c).foldl (fun l v => erase_loop v l) (cands sq r c)) := by
  unfold check_col
  rw [← foldl_strike hr hc _ h, col_vals, List.foldl_map]

theorem foldl_ite_filter {σ α : Type} (p : α → Bool) (f : σ → α → σ) (l : List α) :
    ∀ s : σ, l.foldl (fun s a => if p a then f s a else s) s = (l.filter p).foldl f s := by
  induction l with
  | nil => intro s; rfl
  | cons a l ih =>
    intro s
    by_cases h : p a
    · rw [List.foldl_cons, if_pos h, List.filter_cons_of_pos h, List.foldl_cons, ih]
    · rw [List.foldl_cons, if_neg h, List.filter_cons_of_neg h, ih]

theorem check_box_eq {g : Grid} {sq : Cands} (h : WF2 sq) (box_y box_x : Nat) {r c : Nat}
    (hr : r < 9) (hc : c < 9) :
    check_box g box_y box_x r c sq =
      set2 sq r c ((box_others g box_y box_x r c).foldl (fun l v => erase_loop v l)
        (cands sq r c)) := by
  unfold check_box
  rw [← foldl_strike hr hc _ h, box_others, List.foldl_map, ← foldl_ite_filter, box_cells,
    List.foldl_map, foldl_foldl_product]
  congr 1
  funext sq p
  by_cases hp : 3 * box_y + p.1 = r ∧ 3 * box_x + p.2 = c
  · simp [hp]
  · simp [hp]

theorem cands_set2_self {sq : Cands} (h : WF2 sq) {r c : Nat} (hr : r < 9) (hc : c < 9)
    (l : List Int) : cands (set2 sq r c l) r c = l := at2_set2_self [] h hr hc l

theorem cands_set2_ne (sq : Cands) {r c r' c' : Nat} (l : List Int)
    (hne : ¬ (r' = r ∧ c' = c)) : cands (set2 sq r c l) r' c' = cands sq r' c' :=
  at2_set2_ne [] sq l hne

theorem cell_set2_self {g : Grid} (h : WF2 g) {r c : Nat} (hr : r < 9) (hc : c < 9)
    (v : Int) : cell (set2 g r c v) r c = v := at2_set2_self 0 h hr hc v

theorem cell_set2_ne (g : Grid) {r c r' c' : Nat} (v : Int)
    (hne : ¬ (r' = r ∧ c' = c)) : cell (set2 g r c v) r' c' = cell g r' c' :=
  at2_set2_ne 0 g v hne

theorem pruned_good {g : Grid} {box_y box_x r c : Nat} {l : List Int} (h : Good l) :
    Good (pruned g box_y box_x r c l) := h.filter _

theorem prune_eq {g : Grid} {sq : Cands} (h : WF2 sq) (hg : GoodAll sq) (box_y box_x : Nat)
    {r c : Nat} (hr : r < 9) (hc : c < 9) :
    check_box g box_y box_x r c (check_col g r c (check_row g r c sq)) =
      set2 sq r c (pruned g box_y box_x r c (cands sq r c)) := by
  have h0 : Good (cands sq r c) := hg r hr c hc
  rw [check_row_eq h hr hc, foldl_erase_good _ h0,
    check_col_eq (WF2_set2 h _ _ _) hr hc, cands_set2_self h hr hc, set2_set2,
    foldl_erase_good _ (h0.filter _),
    check_box_eq (WF2_set2 h _ _ _) box_y box_x hr hc, cands_set2_self h hr hc, set2_set2,
    foldl_erase_good _ ((h0.filter _).filter _),
    List.filter_filter, List.filter_filter]
  congr 1
  unfold pruned seen
  apply List.filter_congr
  intro x _
  simp only [List.mem_append, not_or]
  by_cases h1 : x ∈ row_vals g r <;> by_cases h2 : x ∈ col_vals g c <;>
    by_cases h3 : x ∈ box_others g box_y box_x r c <;> simp [h1, h2, h3]

theorem at2_foldl_update {α : Type} (d : α) (f : α → α) (r c : Nat) (cells : List (Nat × Nat)) :
    cells.Nodup → (∀ p ∈ cells, p.1 < 9 ∧ p.2 < 9) → ∀ t : List (List α), WF2 t →
      WF2 (cells.foldl (fun t p => set2 t p.1 p.2 (f (at2 d t p.1 p.2))) t) ∧
      at2 d (cells.foldl (fun t p => set2 t p.1 p.2 (f (at2 d t p.1 p.2))) t) r c =
        if (r, c) ∈ cells then f (at2 d t r c) else at2 d t r c := by
  induction cells with
  | nil => intro _ _ t h; exact ⟨h, by simp⟩
  | cons p ps ih =>
    intro hnd hin t h
    have hp : p ∉ ps := (List.nodup_cons.mp hnd).1
    have hps : ps.Nodup := (List.nodup_cons.mp hnd).2
    have hb := hin p (List.mem_cons_self _ _)
    have := ih hps (fun q hq => hin q (List.mem_cons_of_mem _ hq))
      (set2 t p.1 p.2 (f (at2 d t p.1 p.2))) (WF2_set2 h _ _ _)
    rw [List.foldl_cons]
    refine ⟨this.1, ?_⟩
    rw [this.2]
    by_cases e : (r, c) = p
    · subst e
      simp only [List.mem_cons, true_or, if_true, if_neg hp]
      exact at2_set2_self d h hb.1 hb.2 _
    · have hne : ¬ (r = p.1 ∧ c = p.2) := fun hh => e (Prod.ext hh.1 hh.2)
      rw [at2_set2_ne d t _ hne]
      simp only [List.mem_cons, e, false_or]

theorem mem_box_cells {box_y box_x r c : Nat} :
    (r, c) ∈ box_cells box_y box_x ↔
      ∃ a < 3, ∃ b < 3, r = 3 * box_y + a ∧ c = 3 * box_x + b := by
  unfold box_cells
  simp only [List.mem_map, Prod.mk.injEq, Prod.exists]
  constructor
  · rintro ⟨a, b, hab, h1, h2⟩
    have := List.mem_product.mp hab
    simp only [List.mem_range] at this
    exact ⟨a, this.1, b, this.2, h1.symm, h2.symm⟩
  · rintro ⟨a, ha, b, hb, h1, h2⟩
    exact ⟨a, b, List.mem_product.mpr ⟨List.mem_range.mpr ha, List.mem_range.mpr hb⟩,
      h1.symm, h2.symm⟩

theorem mem_box_cells_iff {box_y box_x r c : Nat} :
    (r, c) ∈ box_cells box_y box_x ↔ r / 3 = box_y ∧ c / 3 = box_x := by
  rw [mem_box_cells]
  constructor
  · rintro ⟨a, ha, b, hb, h1, h2⟩
    omega
  · rintro ⟨h1, h2⟩
    exact ⟨r % 3, Nat.mod_lt _ (by omega), c % 3, Nat.mod_lt _ (by omega), by omega, by omega⟩

theorem box_cells_nodup (box_y box_x : Nat) : (box_cells box_y box_x).Nodup := by
  unfold box_cells
  apply List.Nodup.map
  · intro p q h
    simp only [Prod.mk.injEq] at h
    exact Prod.ext (by omega) (by omega)
  · exact List.Nodup.product (List.nodup_range 3) (List.nodup_range 3)

theorem box_cells_lt {box_y box_x : Nat} (hy : box_y < 3) (hx : box_x < 3) :
    ∀ p ∈ box_cells box_y box_x, p.1 < 9 ∧ p.2 < 9 := by
  rintro ⟨r, c⟩ hp
  have := mem_box_cells_iff.mp hp
  simp only
  omega

theorem clean_box_eq (v : Int) (box_y box_x : Nat) (sq : Cands) :
    clean_box v box_y box_x sq =
      (box_cells box_y box_x).foldl
        (fun t p => set2 t p.1 p.2 (erase_loop v (at2 [] t p.1 p.2))) sq := by
  unfold clean_box box_cells
  rw [List.foldl_map, foldl_foldl_product]
  rfl

theorem clean_box_spec (v : Int) {box_y box_x : Nat} (hy : box_y < 3) (hx : box_x < 3)
    {sq : Cands} (h : WF2 sq) :
    WF2 (clean_box v box_y box_x sq) ∧
    ∀ r c, cands (clean_box v box_y box_x sq) r c =
      if r / 3 = box_y ∧ c / 3 = box_x then erase_loop v (cands sq r c) else cands sq r c := by
  rw [clean_box_eq]
  refine ⟨(at2_foldl_update [] (erase_loop v) 0 0 _ (box_cells_nodup _ _)
    (box_cells_lt hy hx) sq h).1, ?_⟩
  intro r c
  have := (at2_foldl_update [] (erase_loop v) r c _ (box_cells_nodup _ _)
    (box_cells_lt hy hx) sq h).2
  unfold cands
  rw [this]
  by_cases hm : (r, c) ∈ box_cells box_y box_x
  · rw [if_pos hm, if_pos (mem_box_cells_iff.mp hm)]
  · rw [if_neg hm, if_neg (fun hh => hm (mem_box_cells_iff.mpr hh))]

/-! ## The two kinds of step of a pass -/

theorem cell_step_keep {st : PState} (hb : Base st.solved_puzzle st.square_list)
    {box_y box_x sub_y sub_x : Nat} (hy : box_y < 3) (hx : box_x < 3)
    (hsy : sub_y < 3) (hsx : sub_x < 3)
    (hlen : (pruned st.solved_puzzle box_y box_x (3 * box_y + sub_y) (3 * box_x + sub_x)
      (cands st.square_list (3 * box_y + sub_y) (3 * box_x + sub_x))).length ≠ 1) :
    cell_step box_y box_x sub_y st sub_x =
      { st with square_list := (set2 st.square_list (3 * box_y + sub_y) (3 * box_x + sub_x)
          (pruned st.solved_puzzle box_y box_x (3 * box_y + sub_y) (3 * box_x + sub_x)
            (cands st.square_list (3 * box_y + sub_y) (3 * box_x + sub_x)))) } := by
  obtain ⟨hg, hsq, hgood, -⟩ := hb
  have hr : 3 * box_y + sub_y < 9 := by omega
  have hc : 3 * box_x + sub_x < 9 := by omega
  unfold cell_step
  simp only [prune_eq hsq hgood box_y box_x hr hc, cands_set2_self hsq hr hc, if_neg hlen]

theorem cell_step_assign {st : PState} (hb : Base st.solved_puzzle st.square_list)
    {box_y box_x sub_y sub_x : Nat} (hy : box_y < 3) (hx : box_x < 3)
    (hsy : sub_y < 3) (hsx : sub_x < 3) {v : Int}
    (hl : pruned st.solved_puzzle box_y box_x (3 * box_y + sub_y) (3 * box_x + sub_x)
      (cands st.square_list (3 * box_y + sub_y) (3 * box_x + sub_x)) = [v]) :
    (cell_step box_y box_x sub_y st sub_x).solved_puzzle =
        set2 st.solved_puzzle (3 * box_y + sub_y) (3 * box_x + sub_x) v ∧
    (cell_step box_y box_x sub_y st sub_x).solution_update = true ∧
    WF2 (cell_step box_y box_x sub_y st sub_x).square_list ∧
    ∀ r c, cands (cell_step box_y box_x sub_y st sub_x).square_list r c =
      if r / 3 = box_y ∧ c / 3 = box_x then
        (if r = 3 * box_y + sub_y ∧ c = 3 * box_x + sub_x then []
         else (cands st.square_list r c).filter (fun x => decide (x ≠ v)))
      else cands st.square_list r c := by
  obtain ⟨hg, hsq, hgood, -⟩ := hb
  have hr : 3 * box_y + sub_y < 9 := by omega
  have hc : 3 * box_x + sub_x < 9 := by omega
  have hlen : (pruned st.solved_puzzle box_y box_x (3 * box_y + sub_y) (3 * box_x + sub_x)
      (cands st.square_list (3 * box_y + sub_y) (3 * box_x + sub_x))).length = 1 := by
    rw [hl]; rfl
  unfold cell_step
  simp only [prune_eq hsq hgood box_y box_x hr hc, cands_set2_self hsq hr hc,
    set2_set2, hl, List.getD_cons_zero, cell_set2_self hg hr hc, List.length_singleton,
    ↓reduceIte, true_and]
  have hcb := clean_box_spec v hy hx
    (WF2_set2 hsq (3 * box_y + sub_y) (3 * box_x + sub_x) ([] : List Int))
  refine ⟨hcb.1, ?_⟩
  intro r c
  rw [hcb.2]
  by_cases hbox : r / 3 = box_y ∧ c / 3 = box_x
  · rw [if_pos hbox, if_pos hbox]
    by_cases hp : r = 3 * box_y + sub_y ∧ c = 3 * box_x + sub_x
    · rw [if_pos hp, hp.1, hp.2, cands_set2_self hsq hr hc]
      rfl
    · rw [if_neg hp, cands_set2_ne _ _ hp]
      exact erase_loop_good v (hgood r (by omega) c (by omega))
  · rw [if_neg hbox, if_neg hbox]
    have hp : ¬ (r = 3 * box_y + sub_y ∧ c = 3 * box_x + sub_x) := by
      intro hh
      apply hbox
      omega
    rw [cands_set2_ne _ _ hp]

theorem tally_list_eq (num : Int) (r c : Nat) (l : List Int) (hl : l.Nodup) (t : Tally) :
    tally_list num r c l t =
      if num ∈ l then { count := t.count + 1, found_puzzle_row := r, found_puzzle_col := c }
      else t := by
  unfold tally_list
  induction l generalizing t with
  | nil => simp
  | cons x xs ih =>
    have hx : x ∉ xs := (List.nodup_cons.mp hl).1
    have hxs : xs.Nodup := (List.nodup_cons.mp hl).2
    rw [List.foldl_cons, ih hxs]
    by_cases h : num = x
    · subst h
      simp [hx]
    · have h' : ¬ num ∈ x :: xs ↔ ¬ num ∈ xs := by simp [h]
      by_cases h2 : num ∈ xs
      · simp [h, h2]
      · simp [h, h2]

theorem tally_fold (num : Int) (sq : Cands) (ps : List (Nat × Nat))
    (hnd : ∀ p ∈ ps, (cands sq p.1 p.2).Nodup) (t : Tally) :
    (ps.foldl (fun t p => tally_list num p.1 p.2 (cands sq p.1 p.2) t) t).count =
        t.count + (ps.filter (fun p => decide (num ∈ cands sq p.1 p.2))).length ∧
    ∀ X, ps.filter (fun p => decide (num ∈ cands sq p.1 p.2)) = [X] →
      ((ps.foldl (fun t p => tally_list num p.1 p.2 (cands sq p.1 p.2) t) t).found_puzzle_row,
       (ps.foldl (fun t p => tally_list num p.1 p.2 (cands sq p.1 p.2) t) t).found_puzzle_col)
        = X := by
  induction ps using List.reverseRecOn with
  | nil => simp
  | append_singleton ps p ih =>
    have ih' := ih (fun q hq => hnd q (List.mem_append_left _ hq))
    have hp := hnd p (List.mem_append_right _ (List.mem_singleton_self _))
    rw [List.foldl_append, List.foldl_cons, List.foldl_nil, tally_list_eq _ _ _ _ hp,
      List.filter_append]
    by_cases hm : num ∈ cands sq p.1 p.2
    · rw [if_pos hm, List.filter_cons_of_pos (by simpa using hm)]
      simp only [List.filter_nil, List.length_append, List.length_singleton]
      refine ⟨by rw [ih'.1]; omega, ?_⟩
      intro X hX
      have hlen := congrArg List.length hX
      simp only [List.length_append, List.length_singleton] at hlen
      have : ps.filter (fun p => decide (num ∈ cands sq p.1 p.2)) = [] :=
        List.length_eq_zero.mp (by omega)
      rw [this] at hX
      simp only [List.nil_append, List.cons.injEq, and_true] at hX
      exact hX
    · rw [if_neg hm, List.filter_cons_of_neg (by simpa using hm)]
      simp only [List.filter_nil, List.append_nil]
      exact ih'

theorem tally_box_eq (num : Int) (box_y box_x : Nat) (sq : Cands) :
    tally_box num box_y box_x sq =
      (box_cells box_y box_x).foldl
        (fun t p => tally_list num p.1 p.2 (cands sq p.1 p.2) t)
        { count := 0, found_puzzle_row := 0, found_puzzle_col := 0 } := by
  unfold tally_box box_cells
  rw [List.foldl_map, foldl_foldl_product]

theorem tally_box_spec (num : Int) {box_y box_x : Nat} (hy : box_y < 3) (hx : box_x < 3)
    {sq : Cands} (hgood : GoodAll sq) :
    (tally_box num box_y box_x sq).count = (holders num box_y box_x sq).length ∧
    ∀ X, holders num box_y box_x sq = [X] →
      ((tally_box num box_y box_x sq).found_puzzle_row,
        (tally_box num box_y box_x sq).found_puzzle_col) = X := by
  rw [tally_box_eq]
  have hnd : ∀ p ∈ box_cells box_y box_x, (cands sq p.1 p.2).Nodup := by
    intro p hp
    have := box_cells_lt hy hx p hp
    exact (hgood p.1 this.1 p.2 this.2).nodup
  have := tally_fold num sq (box_cells box_y box_x) hnd
    { count := 0, found_puzzle_row := 0, found_puzzle_col := 0 }
  simp only [Nat.zero_add] at this
  exact this

theorem unique_step_keep {st : PState} (hgood : GoodAll st.square_list)
    {box_y box_x : Nat} (hy : box_y < 3) (hx : box_x < 3) {num : Int}
    (hne : (holders num box_y box_x st.square_list).length ≠ 1) :
    unique_step box_y box_x st num = st := by
  unfold unique_step
  simp only [(tally_box_spec num hy hx hgood).1, if_neg hne]

theorem unique_step_assign {st : PState} (hgood : GoodAll st.square_list)
    {box_y box_x : Nat} (hy : box_y < 3) (hx : box_x < 3) {num : Int} {X : Nat × Nat}
    (hX : holders num box_y box_x st.square_list = [X]) :
    unique_step box_y box_x st num =
      { solved_puzzle := set2 st.solved_puzzle X.1 X.2 num,
        square_list := set2 st.square_list X.1 X.2 [],
        solution_update := true } := by
  have hs := tally_box_spec num hy hx hgood
  have h1 : (tally_box num box_y box_x st.square_list).count = 1 := by
    rw [hs.1, hX]; rfl
  have h2 := hs.2 X hX
  unfold unique_step
  simp only [h1, if_true]
  rw [← h2]

/-! ## Loop invariants and the relation `Evolves` -/

theorem foldl_inv {σ α : Type} (f : σ → α → σ) (I : σ → Prop) (l : List α) :
    ∀ s : σ, I s → (∀ s x, x ∈ l → I s → I (f s x)) → I (l.foldl f s) := by
  induction l with
  | nil => intro s h _; exact h
  | cons a l ih =>
    intro s h hstep
    rw [List.foldl_cons]
    exact ih _ (hstep s a (List.mem_cons_self _ _) h)
      (fun s x hx => hstep s x (List.mem_cons_of_mem _ hx))

theorem foldl_inv_indexed {σ α : Type} (f : σ → α → σ) (P : List α → σ → Prop) (l : List α)
    (s0 : σ) (h0 : P [] s0)
    (hstep : ∀ pre x suf s, l = pre ++ x :: suf → P pre s → P (pre ++ [x]) (f s x)) :
    P l (l.foldl f s0) := by
  have key : ∀ (suf pre : List α) (s : σ), l = pre ++ suf → P pre s → P l (suf.foldl f s) := by
    intro suf
    induction suf with
    | nil =>
      intro pre s hl h
      rw [List.append_nil] at hl
      rw [hl]
      exact h
    | cons a suf ih =>
      intro pre s hl h
      rw [List.foldl_cons]
      exact ih (pre ++ [a]) (f s a) (by rw [hl]; simp) (hstep pre a suf s hl h)
  exact key l [] s0 rfl h0

theorem mem_cells81 {r c : Nat} : (r, c) ∈ cells81 ↔ r < 9 ∧ c < 9 := by
  unfold cells81
  rw [show ((r, c) ∈ (List.range 9).product (List.range 9)) ↔
    (r ∈ List.range 9 ∧ c ∈ List.range 9) from List.mem_product]
  simp only [List.mem_range]

theorem countP_lt_of {α : Type} (p q : α → Bool) (l : List α)
    (hle : ∀ x ∈ l, q x = true → p x = true) {a : α} (ha : a ∈ l) (hp : p a = true)
    (hq : q a = false) : l.countP q < l.countP p := by
  induction l with
  | nil => simp at ha
  | cons x xs ih =>
    have hle' : ∀ y ∈ xs, q y = true → p y = true :=
      fun y hy => hle y (List.mem_cons_of_mem _ hy)
    have hmono : xs.countP q ≤ xs.countP p := List.countP_mono_left hle'
    rcases List.mem_cons.mp ha with rfl | hm
    · rw [List.countP_cons_of_pos _ _ hp, List.countP_cons_of_neg _ _ (by simp [hq])]
      omega
    · have := ih hle' hm
      by_cases hqx : q x = true
      · rw [List.countP_cons_of_pos _ _ hqx,
          List.countP_cons_of_pos _ _ (hle x (List.mem_cons_self _ _) hqx)]
        omega
      · by_cases hpx : p x = true
        · rw [List.countP_cons_of_neg _ _ hqx, List.countP_cons_of_pos _ _ hpx]
          omega
        · rw [List.countP_cons_of_neg _ _ hqx, List.countP_cons_of_neg _ _ hpx]
          exact this

theorem open_count_le {sq sq' : Cands}
    (h : ∀ r c, (cands sq' r c).Sublist (cands sq r c)) : open_count sq' ≤ open_count sq := by
  unfold open_count
  apply List.countP_mono_left
  intro p _ hp
  simp only [ne_eq, decide_not, Bool.not_eq_true', decide_eq_false_iff_not] at hp ⊢
  intro he
  apply hp
  have := h p.1 p.2
  rw [he] at this
  exact List.sublist_nil.mp this

theorem open_count_lt {sq sq' : Cands}
    (h : ∀ r c, (cands sq' r c).Sublist (cands sq r c)) {r c : Nat} (hr : r < 9) (hc : c < 9)
    (h1 : cands sq r c ≠ []) (h2 : cands sq' r c = []) : open_count sq' < open_count sq := by
  unfold open_count
  apply countP_lt_of _ _ _ _ (mem_cells81.mpr ⟨hr, hc⟩)
  · simpa using h1
  · simpa using h2
  · intro p _ hp
    simp only [ne_eq, decide_not, Bool.not_eq_true', decide_eq_false_iff_not] at hp ⊢
    intro he
    apply hp
    have := h p.1 p.2
    rw [he] at this
    exact List.sublist_nil.mp this

theorem Evolves.refl (s : PState) : Evolves s s :=
  ⟨fun _ _ _ => rfl, fun _ _ => List.Sublist.refl _, fun h => h, fun h => Or.inl h⟩

theorem Evolves.trans {s t u : PState} (h1 : Evolves s t) (h2 : Evolves t u) : Evolves s u := by
  obtain ⟨a1, b1, c1, d1⟩ := h1
  obtain ⟨a2, b2, c2, d2⟩ := h2
  have hb : ∀ r c, (cands u.square_list r c).Sublist (cands s.square_list r c) :=
    fun r c => (b2 r c).trans (b1 r c)
  refine ⟨?_, hb, fun h => c2 (c1 h), ?_⟩
  · intro r c h
    rw [a2 r c (by rw [a1 r c h]; exact h), a1 r c h]
  · intro h
    rcases d2 h with ht | ⟨hlt, r, hr, c, hc, hz, hnz⟩
    · rcases d1 ht with hs | ⟨hlt, r, hr, c, hc, hz, hnz⟩
      · exact Or.inl hs
      · refine Or.inr ⟨lt_of_le_of_lt (open_count_le b2) hlt, r, hr, c, hc, hz, ?_⟩
        rw [a2 r c hnz]
        exact hnz
    · refine Or.inr ⟨lt_of_lt_of_le hlt (open_count_le b1), r, hr, c, hc, ?_, hnz⟩
      by_contra hne
      have := a1 r c hne
      rw [hz] at this
      exact hne this.symm

theorem keep_evolves {s t : PState} (hb : Base s.solved_puzzle s.square_list)
    (hg : t.solved_puzzle = s.solved_puzzle) (hwf : WF2 t.square_list)
    (hsub : ∀ r c, (cands t.square_list r c).Sublist (cands s.square_list r c))
    (hflag : t.solution_update = s.solution_update) :
    Base t.solved_puzzle t.square_list ∧ Evolves s t := by
  obtain ⟨h1, h2, h3, h4⟩ := hb
  refine ⟨⟨hg ▸ h1, hwf, fun r hr c hc => (hsub r c).trans (h3 r hr c hc), ?_⟩,
    ⟨fun r c _ => by rw [hg], hsub, fun h => by rw [hflag]; exact h,
      fun h => Or.inl (by rw [← hflag]; exact h)⟩⟩
  intro r hr c hc hne
  rw [hg]
  apply h4 r hr c hc
  intro he
  apply hne
  have := hsub r c
  rw [he] at this
  exact List.sublist_nil.mp this

theorem assign_evolves {s t : PState} (hb : Base s.solved_puzzle s.square_list)
    {r c : Nat} (hr : r < 9) (hc : c < 9) {v : Int} (hv : v ≠ 0)
    (hopen : cands s.square_list r c ≠ [])
    (hg : t.solved_puzzle = set2 s.solved_puzzle r c v) (hwf : WF2 t.square_list)
    (hp : cands t.square_list r c = [])
    (hsub : ∀ r c, (cands t.square_list r c).Sublist (cands s.square_list r c))
    (hflag : t.solution_update = true) :
    Base t.solved_puzzle t.square_list ∧ Evolves s t := by
  obtain ⟨h1, h2, h3, h4⟩ := hb
  have hz : cell s.solved_puzzle r c = 0 := h4 r hr c hc hopen
  refine ⟨⟨hg ▸ WF2_set2 h1 _ _ _, hwf, fun r hr c hc => (hsub r c).trans (h3 r hr c hc), ?_⟩,
    ⟨?_, hsub, fun _ => hflag, fun _ => Or.inr ⟨open_count_lt hsub hr hc hopen hp,
      r, hr, c, hc, hz, by rw [hg, cell_set2_self h1 hr hc]; exact hv⟩⟩⟩
  · intro r' hr' c' hc' hne
    have hne' : ¬ (r' = r ∧ c' = c) := by
      rintro ⟨e1, e2⟩
      subst e1; subst e2
      exact hne hp
    rw [hg, cell_set2_ne _ _ hne']
    apply h4 r' hr' c' hc'
    intro he
    apply hne
    have := hsub r' c'
    rw [he] at this
    exact List.sublist_nil.mp this
  · intro r' c' hne
    have hne' : ¬ (r' = r ∧ c' = c) := by
      rintro ⟨e1, e2⟩
      subst e1; subst e2
      exact hne hz
    rw [hg, cell_set2_ne _ _ hne']

theorem sublist_set2 {sq : Cands} (h : WF2 sq) {r c : Nat} (hr : r < 9) (hc : c < 9)
    {l : List Int} (hl : l.Sublist (cands sq r c)) (r' c' : Nat) :
    (cands (set2 sq r c l) r' c').Sublist (cands sq r' c') := by
  by_cases hp : r' = r ∧ c' = c
  · rw [hp.1, hp.2, cands_set2_self h hr hc]
    exact hl
  · rw [cands_set2_ne _ _ hp]

theorem cell_step_evolves {st : PState} (hb : Base st.solved_puzzle st.square_list)
    {box_y box_x sub_y sub_x : Nat} (hy : box_y < 3) (hx : box_x < 3)
    (hsy : sub_y < 3) (hsx : sub_x < 3) :
    Base (cell_step box_y box_x sub_y st sub_x).solved_puzzle
      (cell_step box_y box_x sub_y st sub_x).square_list ∧
    Evolves st (cell_step box_y box_x sub_y st sub_x) := by
  have hr : 3 * box_y + sub_y < 9 := by omega
  have hc : 3 * box_x + sub_x < 9 := by omega
  have hb' := hb
  obtain ⟨h1, h2, h3, h4⟩ := hb'
  by_cases hlen : (pruned st.solved_puzzle box_y box_x (3 * box_y + sub_y) (3 * box_x + sub_x)
      (cands st.square_list (3 * box_y + sub_y) (3 * box_x + sub_x))).length = 1
  · obtain ⟨v, hv⟩ := List.length_eq_one.mp hlen
    obtain ⟨e1, e2, e3, e4⟩ := cell_step_assign hb hy hx hsy hsx hv
    have hvm : v ∈ cands st.square_list (3 * box_y + sub_y) (3 * box_x + sub_x) := by
      have : v ∈ pruned st.solved_puzzle box_y box_x (3 * box_y + sub_y) (3 * box_x + sub_x)
          (cands st.square_list (3 * box_y + sub_y) (3 * box_x + sub_x)) := by
        rw [hv]; exact List.mem_singleton_self _
      exact (List.mem_filter.mp this).1
    apply assign_evolves hb hr hc ((h3 _ hr _ hc).ne_zero hvm) (List.ne_nil_of_mem hvm) e1 e3
      _ _ e2
    · rw [e4, if_pos ⟨by omega, by omega⟩, if_pos ⟨rfl, rfl⟩]
    · intro r c
      rw [e4]
      by_cases hbox : r / 3 = box_y ∧ c / 3 = box_x
      · rw [if_pos hbox]
        by_cases hp : r = 3 * box_y + sub_y ∧ c = 3 * box_x + sub_x
        · rw [if_pos hp]; exact List.nil_sublist _
        · rw [if_neg hp]; exact List.filter_sublist _
      · rw [if_neg hbox]
  · rw [cell_step_keep hb hy hx hsy hsx hlen]
    exact keep_evolves hb rfl (WF2_set2 h2 _ _ _)
      (sublist_set2 h2 hr hc (List.filter_sublist _)) rfl

theorem holders_single {num : Int} {box_y box_x : Nat} {sq : Cands} {X : Nat × Nat}
    (h : holders num box_y box_x sq = [X]) :
    X ∈ box_cells box_y box_x ∧ num ∈ cands sq X.1 X.2 := by
  have : X ∈ holders num box_y box_x sq := by rw [h]; exact List.mem_singleton_self _
  unfold holders at this
  have := List.mem_filter.mp this
  exact ⟨this.1, by simpa using this.2⟩

theorem unique_step_evolves {st : PState} (hb : Base st.solved_puzzle st.square_list)
    {box_y box_x : Nat} (hy : box_y < 3) (hx : box_x < 3) (num : Int) :
    Base (unique_step box_y box_x st num).solved_puzzle
      (unique_step box_y box_x st num).square_list ∧
    Evolves st (unique_step box_y box_x st num) := by
  have hb' := hb
  obtain ⟨h1, h2, h3, h4⟩ := hb'
  by_cases hlen : (holders num box_y box_x st.square_list).length = 1
  · obtain ⟨X, hX⟩ := List.length_eq_one.mp hlen
    obtain ⟨hXb, hXm⟩ := holders_single hX
    have hlt := box_cells_lt hy hx X hXb
    rw [unique_step_assign h3 hy hx hX]
    exact assign_evolves hb hlt.1 hlt.2 ((h3 _ hlt.1 _ hlt.2).ne_zero hXm)
      (List.ne_nil_of_mem hXm) rfl (WF2_set2 h2 _ _ _) (cands_set2_self h2 hlt.1 hlt.2 _)
      (sublist_set2 h2 hlt.1 hlt.2 (List.nil_sublist _)) rfl
  · rw [unique_step_keep h3 hy hx hlen]
    exact ⟨hb, Evolves.refl _⟩

/-! ## The structure of a pass -/

theorem mem_pairs3 {p : Nat × Nat} : p ∈ pairs3 ↔ p.1 < 3 ∧ p.2 < 3 := by
  unfold pairs3
  rw [show (p ∈ (List.range 3).product (List.range 3)) ↔
    (p.1 ∈ List.range 3 ∧ p.2 ∈ List.range 3) from List.mem_product]
  simp only [List.mem_range]

theorem pairs3_nodup : pairs3.Nodup :=
  List.Nodup.product (List.nodup_range 3) (List.nodup_range 3)

theorem box_step_eq (box_y box_x : Nat) (st : PState) :
    box_step box_y st box_x =
      nums.foldl (unique_step box_y box_x)
        (pairs3.foldl (fun st p => cell_step box_y box_x p.1 st p.2) st) := by
  unfold box_step pairs3
  rw [foldl_foldl_product]

theorem macro_box_iterate_eq (g : Grid) (sq : Cands) :
    macro_box_iterate g sq =
      pairs3.foldl (fun st p => box_step p.1 st p.2)
        { solved_puzzle := g, square_list := sq, solution_update := false } := by
  unfold macro_box_iterate pairs3
  rw [foldl_foldl_product]

/-- The squares whose value lines 117-147 compare with the candidates of `(r, c)`. -/
theorem mem_seen {g : Grid} {box_y box_x r c : Nat} {x : Int} :
    x ∈ seen g box_y box_x r c ↔
      ∃ r' c', ((r' = r ∧ c' < 9) ∨ (c' = c ∧ r' < 9) ∨
        ((r', c') ∈ box_cells box_y box_x ∧ ¬ (r' = r ∧ c' = c))) ∧ cell g r' c' = x := by
  unfold seen row_vals col_vals box_others
  simp only [List.mem_append, List.mem_map, List.mem_range, List.mem_filter, Prod.exists,
    decide_eq_true_eq]
  constructor
  · rintro ((⟨c', hc', h⟩ | ⟨r', hr', h⟩) | ⟨r', c', ⟨hm, hne⟩, h⟩)
    · exact ⟨r, c', Or.inl ⟨rfl, hc'⟩, h⟩
    · exact ⟨r', c, Or.inr (Or.inl ⟨rfl, hr'⟩), h⟩
    · exact ⟨r', c', Or.inr (Or.inr ⟨hm, hne⟩), h⟩
  · rintro ⟨r', c', (⟨h1, h2⟩ | ⟨h1, h2⟩ | ⟨hm, hne⟩), h⟩
    · subst h1; exact Or.inl (Or.inl ⟨c', h2, h⟩)
    · subst h1; exact Or.inl (Or.inr ⟨r', h2, h⟩)
    · exact Or.inr ⟨r', c', ⟨hm, hne⟩, h⟩

theorem cell_set2_cases (g : Grid) (r c r' c' : Nat) (v : Int) :
    cell (set2 g r c v) r' c' = v ∨ cell (set2 g r c v) r' c' = cell g r' c' := by
  unfold cell
  rw [at2_set2]
  by_cases h : r' = r ∧ c' = c ∧ r < g.length ∧ c < (g.getD r []).length
  · rw [if_pos h]; exact Or.inl rfl
  · rw [if_neg h]; exact Or.inr rfl

theorem seen_set2 {g : Grid} {box_y box_x r c pr pc : Nat} {v x : Int}
    (h : x ∈ seen (set2 g pr pc v) box_y box_x r c) : x = v ∨ x ∈ seen g box_y box_x r c := by
  obtain ⟨r', c', hs, hx⟩ := mem_seen.mp h
  rcases cell_set2_cases g pr pc r' c' v with e | e
  · exact Or.inl (by rw [← hx, e])
  · exact Or.inr (mem_seen.mpr ⟨r', c', hs, by rw [← e]; exact hx⟩)

/-- After the loop over the squares of a box, no candidate of a square of the box
conflicts with the puzzle; an invariant `I` of the steps is carried along. -/
theorem cell_loop_clean (I : PState → Prop) {box_y box_x : Nat} (hy : box_y < 3) (hx : box_x < 3)
    (hcell : ∀ st sub_y sub_x, sub_y < 3 → sub_x < 3 →
      Base st.solved_puzzle st.square_list → I st → I (cell_step box_y box_x sub_y st sub_x))
    (st : PState) (hb : Base st.solved_puzzle st.square_list) (hI : I st) :
    Base (pairs3.foldl (fun st p => cell_step box_y box_x p.1 st p.2) st).solved_puzzle
      (pairs3.foldl (fun st p => cell_step box_y box_x p.1 st p.2) st).square_list ∧
    I (pairs3.foldl (fun st p => cell_step box_y box_x p.1 st p.2) st) ∧
    ∀ p ∈ box_cells box_y box_x,
      Clean (pairs3.foldl (fun st p => cell_step box_y box_x p.1 st p.2) st).solved_puzzle
        (pairs3.foldl (fun st p => cell_step box_y box_x p.1 st p.2) st).square_list p.1 p.2 := by
  have key := foldl_inv_indexed (fun st p => cell_step box_y box_x p.1 st p.2)
    (fun pre s => Base s.solved_puzzle s.square_list ∧ I s ∧
      ∀ p ∈ pre, Clean s.solved_puzzle s.square_list (3 * box_y + p.1) (3 * box_x + p.2))
    pairs3 st ⟨hb, hI, fun p hp => by simp at hp⟩ ?_
  · refine ⟨key.1, key.2.1, ?_⟩
    rintro ⟨r, c⟩ hp
    obtain ⟨a, ha, b, hb', h1, h2⟩ := mem_box_cells.mp hp
    have := key.2.2 (a, b) (mem_pairs3.mpr ⟨ha, hb'⟩)
    simp only at this ⊢
    rw [h1, h2]
    exact this
  · rintro pre ⟨sy, sx⟩ suf s hl ⟨hbs, hIs, hcl⟩
    have hmem : (sy, sx) ∈ pairs3 := by rw [hl]; simp
    obtain ⟨hsy, hsx⟩ := mem_pairs3.mp hmem
    simp only at hsy hsx
    have hnot : (sy, sx) ∉ pre := by
      have hnd := pairs3_nodup
      rw [hl] at hnd
      have := (List.nodup_append.mp hnd).2.2
      intro hin
      exact this hin (List.mem_cons_self _ _) 
    have hr : 3 * box_y + sy < 9 := by omega
    have hc : 3 * box_x + sx < 9 := by omega
    have hev := cell_step_evolves hbs hy hx hsy hsx
    refine ⟨hev.1, hcell s sy sx hsy hsx hbs hIs, ?_⟩
    obtain ⟨h1, h2, h3, h4⟩ := hbs
    have hbs : Base s.solved_puzzle s.square_list := ⟨h1, h2, h3, h4⟩
    simp only
    by_cases hlen : (pruned s.solved_puzzle box_y box_x (3 * box_y + sy) (3 * box_x + sx)
      (cands s.square_list (3 * box_y + sy) (3 * box_x + sx))).length = 1
    · obtain ⟨v, hv⟩ := List.length_eq_one.mp hlen
      obtain ⟨e1, e2, e3, e4⟩ := cell_step_assign hbs hy hx hsy hsx hv
      intro p hp
      rcases List.mem_append.mp hp with hp | hp
      · have hne : ¬ (3 * box_y + p.1 = 3 * box_y + sy ∧ 3 * box_x + p.2 = 3 * box_x + sx) := by
          rintro ⟨a1, a2⟩
          apply hnot
          have : p = (sy, sx) := Prod.ext (by simp only; omega) (by simp only; omega)
          rw [← this]; exact hp
        have hp3 := mem_pairs3.mp (by rw [hl]; exact List.mem_append_left _ hp : p ∈ pairs3)
        intro x hx'
        rw [e4, if_pos ⟨by omega, by omega⟩, if_neg hne] at hx'
        have hx2 := List.mem_filter.mp hx'
        rw [e1]
        intro hseen
        rcases seen_set2 hseen with e | e
        · simp at hx2
          exact hx2.2 e
        · exact hcl p hp x hx2.1 e
      · simp only [List.mem_singleton] at hp
        subst hp
        intro x hx'
        rw [e4, if_pos ⟨by omega, by omega⟩, if_pos ⟨rfl, rfl⟩] at hx'
        simp at hx'
    · rw [cell_step_keep hbs hy hx hsy hsx hlen]
      intro p hp
      rcases List.mem_append.mp hp with hp | hp
      · have hne : ¬ (3 * box_y + p.1 = 3 * box_y + sy ∧ 3 * box_x + p.2 = 3 * box_x + sx) := by
          rintro ⟨a1, a2⟩
          apply hnot
          have : p = (sy, sx) := Prod.ext (by simp only; omega) (by simp only; omega)
          rw [← this]; exact hp
        intro x hx'
        simp only at hx' ⊢
        rw [cands_set2_ne _ _ hne] at hx'
        exact hcl p hp x hx'
      · simp only [List.mem_singleton] at hp
        subst hp
        intro x hx'
        simp only at hx' ⊢
        rw [cands_set2_self h2 hr hc] at hx'
        have := (List.mem_filter.mp hx').2
        have e1 : (3 * box_y + sy) / 3 = box_y := by omega
        have e2 : (3 * box_x + sx) / 3 = box_x := by omega
        rw [e1, e2]
        simpa using this

theorem unique_step_clean {st : PState} (hb : Base st.solved_puzzle st.square_list)
    {box_y box_x : Nat} (hy : box_y < 3) (hx : box_x < 3) (num : Int)
    (hcl : ∀ p ∈ box_cells box_y box_x, Clean st.solved_puzzle st.square_list p.1 p.2) :
    ∀ p ∈ box_cells box_y box_x,
      Clean (unique_step box_y box_x st num).solved_puzzle
        (unique_step box_y box_x st num).square_list p.1 p.2 := by
  obtain ⟨h1, h2, h3, h4⟩ := hb
  by_cases hlen : (holders num box_y box_x st.square_list).length = 1
  · obtain ⟨X, hX⟩ := List.length_eq_one.mp hlen
    obtain ⟨hXb, hXm⟩ := holders_single hX
    have hlt := box_cells_lt hy hx X hXb
    rw [unique_step_assign h3 hy hx hX]
    intro p hp x hx'
    simp only at hx' ⊢
    by_cases e : p = X
    · subst e
      rw [cands_set2_self h2 hlt.1 hlt.2] at hx'
      simp at hx'
    · have hne : ¬ (p.1 = X.1 ∧ p.2 = X.2) := fun hh => e (Prod.ext hh.1 hh.2)
      rw [cands_set2_ne _ _ hne] at hx'
      intro hseen
      rcases seen_set2 hseen with e' | e'
      · subst e'
        have : p ∈ holders x box_y box_x st.square_list := by
          unfold holders
          exact List.mem_filter.mpr ⟨hp, by simpa using hx'⟩
        rw [hX] at this
        exact e (List.mem_singleton.mp this)
      · exact hcl p hp x hx' e'
  · rw [unique_step_keep h3 hy hx hlen]
    exact hcl

/-- An invariant of the two kinds of step is an invariant of the work on one box;
at the steps of the second kind it may use that no candidate in the box
conflicts with the puzzle. -/
theorem box_step_inv (I : PState → Prop) {box_y box_x : Nat} (hy : box_y < 3) (hx : box_x < 3)
    (hcell : ∀ st sub_y sub_x, sub_y < 3 → sub_x < 3 →
      Base st.solved_puzzle st.square_list → I st → I (cell_step box_y box_x sub_y st sub_x))
    (huniq : ∀ st num, num ∈ nums → Base st.solved_puzzle st.square_list →
      (∀ p ∈ box_cells box_y box_x, Clean st.solved_puzzle st.square_list p.1 p.2) →
      I st → I (unique_step box_y box_x st num))
    (st : PState) (hb : Base st.solved_puzzle st.square_list) (hI : I st) :
    Base (box_step box_y st box_x).solved_puzzle (box_step box_y st box_x).square_list ∧
    I (box_step box_y st box_x) ∧
    ∀ p ∈ box_cells box_y box_x,
      Clean (box_step box_y st box_x).solved_puzzle (box_step box_y st box_x).square_list
        p.1 p.2 := by
  rw [box_step_eq]
  obtain ⟨c1, c2, c3⟩ := cell_loop_clean I hy hx hcell st hb hI
  have := foldl_inv (unique_step box_y box_x)
    (fun s => Base s.solved_puzzle s.square_list ∧ I s ∧
      ∀ p ∈ box_cells box_y box_x, Clean s.solved_puzzle s.square_list p.1 p.2)
    nums _ ⟨c1, c2, c3⟩
    (fun s num hnum ⟨d1, d2, d3⟩ =>
      ⟨(unique_step_evolves d1 hy hx num).1, huniq s num hnum d1 d3 d2,
        unique_step_clean d1 hy hx num d3⟩)
  exact this

/-- An invariant of the two kinds of step is an invariant of `macro_box_iterate`. -/
theorem pass_inv (I : PState → Prop)
    (hcell : ∀ st box_y box_x sub_y sub_x, box_y < 3 → box_x < 3 → sub_y < 3 → sub_x < 3 →
      Base st.solved_puzzle st.square_list → I st → I (cell_step box_y box_x sub_y st sub_x))
    (huniq : ∀ st box_y box_x num, box_y < 3 → box_x < 3 → num ∈ nums →
      Base st.solved_puzzle st.square_list →
      (∀ p ∈ box_cells box_y box_x, Clean st.solved_puzzle st.square_list p.1 p.2) →
      I st → I (unique_step box_y box_x st num))
    (g : Grid) (sq : Cands) (hb : Base g sq)
    (hI : I { solved_puzzle := g, square_list := sq, solution_update := false }) :
    Base (macro_box_iterate g sq).solved_puzzle (macro_box_iterate g sq).square_list ∧
    I (macro_box_iterate g sq) := by
  rw [macro_box_iterate_eq]
  apply foldl_inv (fun st p => box_step p.1 st p.2)
    (fun s => Base s.solved_puzzle s.square_list ∧ I s) pairs3 _ ⟨hb, hI⟩
  rintro s ⟨box_y, box_x⟩ hp ⟨d1, d2⟩
  obtain ⟨hy, hx⟩ := mem_pairs3.mp hp
  simp only at hy hx ⊢
  have := box_step_inv I hy hx
    (fun st sy sx hsy hsx => hcell st box_y box_x sy sx hy hx hsy hsx)
    (fun st num hnum => huniq st box_y box_x num hy hx hnum) s d1 d2
  exact ⟨this.1, this.2.1⟩

theorem pass_evolves {g : Grid} {sq : Cands} (hb : Base g sq) :
    Base (macro_box_iterate g sq).solved_puzzle (macro_box_iterate g sq).square_list ∧
    Evolves { solved_puzzle := g, square_list := sq, solution_update := false }
      (macro_box_iterate g sq) :=
  pass_inv (fun s => Evolves { solved_puzzle := g, square_list := sq, solution_update := false } s)
    (fun _ _ _ _ _ hy hx hsy hsx hbs hI => hI.trans (cell_step_evolves hbs hy hx hsy hsx).2)
    (fun _ _ _ num hy hx _ hbs _ hI => hI.trans (unique_step_evolves hbs hy hx num).2)
    g sq hb (Evolves.refl _)

/-! ## Passes that report no update -/

theorem pruned_eq_self {g : Grid} {sq : Cands} {r c : Nat} (h : Clean g sq r c) :
    pruned g (r / 3) (c / 3) r c (cands sq r c) = cands sq r c := by
  unfold pruned
  rw [List.filter_eq_self]
  intro x hx
  simpa using h x hx

theorem mem_box_cells_of_lt {box_y box_x sub_y sub_x : Nat} (hsy : sub_y < 3) (hsx : sub_x < 3) :
    (3 * box_y + sub_y, 3 * box_x + sub_x) ∈ box_cells box_y box_x :=
  mem_box_cells.mpr ⟨sub_y, hsy, sub_x, hsx, rfl, rfl⟩

/-- On a state at the fixpoint, a pass changes nothing and reports no update. -/
theorem pass_of_stable {g : Grid} {sq : Cands} (hb : Base g sq) (hs : Stable g sq) :
    macro_box_iterate g sq =
      { solved_puzzle := g, square_list := sq, solution_update := false } := by
  refine (pass_inv
    (fun s => s = { solved_puzzle := g, square_list := sq, solution_update := false })
    ?_ ?_ g sq hb rfl).2
  · intro st box_y box_x sub_y sub_x hy hx hsy hsx hbs hI
    subst hI
    have hcl := (hs box_y hy box_x hx).1 _ (mem_box_cells_of_lt hsy hsx)
    have e1 : (3 * box_y + sub_y) / 3 = box_y := by omega
    have e2 : (3 * box_x + sub_x) / 3 = box_x := by omega
    have hp := pruned_eq_self hcl.1
    simp only [e1, e2] at hp
    have hlen : (pruned g box_y box_x (3 * box_y + sub_y) (3 * box_x + sub_x)
        (cands sq (3 * box_y + sub_y) (3 * box_x + sub_x))).length ≠ 1 := by
      rw [hp]; exact hcl.2
    rw [cell_step_keep hbs hy hx hsy hsx hlen]
    simp only [hp]
    have : set2 sq (3 * box_y + sub_y) (3 * box_x + sub_x)
        (cands sq (3 * box_y + sub_y) (3 * box_x + sub_x)) = sq :=
      set2_at2 [] hb.2.1 (by omega) (by omega)
    rw [this]
  · intro st box_y box_x num hy hx hnum hbs _ hI
    subst hI
    exact unique_step_keep hb.2.2.1 hy hx ((hs box_y hy box_x hx).2 num hnum)

theorem holders_congr {num : Int} {box_y box_x : Nat} {sq sq' : Cands}
    (h : ∀ p ∈ box_cells box_y box_x, cands sq' p.1 p.2 = cands sq p.1 p.2) :
    holders num box_y box_x sq' = holders num box_y box_x sq := by
  unfold holders
  apply List.filter_congr
  intro p hp
  rw [h p hp]

theorem StableBox_congr {g : Grid} {sq sq' : Cands} {box_y box_x : Nat}
    (h : ∀ p ∈ box_cells box_y box_x, cands sq' p.1 p.2 = cands sq p.1 p.2)
    (hs : StableBox g sq box_y box_x) : StableBox g sq' box_y box_x := by
  refine ⟨fun p hp => ?_, fun num hnum => ?_⟩
  · have := hs.1 p hp
    unfold Clean at this ⊢
    rw [h p hp]
    exact this
  · rw [holders_congr h]
    exact hs.2 num hnum

/-- The loop over the squares of a box, when it ends with `solution_update` false:
the puzzle is unchanged, the lists outside the box are unchanged and no list of
the box has exactly one element. -/
theorem cell_loop_quiet {box_y box_x : Nat} (hy : box_y < 3) (hx : box_x < 3)
    (st : PState) (hb : Base st.solved_puzzle st.square_list)
    (hq : (pairs3.foldl (fun st p => cell_step box_y box_x p.1 st p.2) st).solution_update
      = false) :
    (pairs3.foldl (fun st p => cell_step box_y box_x p.1 st p.2) st).solved_puzzle
      = st.solved_puzzle ∧
    (∀ r c, ¬ (r / 3 = box_y ∧ c / 3 = box_x) →
      cands (pairs3.foldl (fun st p => cell_step box_y box_x p.1 st p.2) st).square_list r c
        = cands st.square_list r c) ∧
    ∀ p ∈ box_cells box_y box_x,
      (cands (pairs3.foldl (fun st p => cell_step box_y box_x p.1 st p.2) st).square_list
        p.1 p.2).length ≠ 1 := by
  have key := foldl_inv_indexed (fun st p => cell_step box_y box_x p.1 st p.2)
    (fun pre s => Base s.solved_puzzle s.square_list ∧ (s.solution_update = false →
      s.solved_puzzle = st.solved_puzzle ∧
      (∀ r c, ¬ (r / 3 = box_y ∧ c / 3 = box_x) →
        cands s.square_list r c = cands st.square_list r c) ∧
      ∀ p ∈ pre, (cands s.square_list (3 * box_y + p.1) (3 * box_x + p.2)).length ≠ 1))
    pairs3 st ⟨hb, fun _ => ⟨rfl, fun _ _ _ => rfl, fun p hp => by simp at hp⟩⟩ ?_
  · obtain ⟨k1, k2, k3⟩ := key.2 hq
    refine ⟨k1, k2, ?_⟩
    rintro ⟨r, c⟩ hp
    obtain ⟨a, ha, b, hb', h1, h2⟩ := mem_box_cells.mp hp
    have := k3 (a, b) (mem_pairs3.mpr ⟨ha, hb'⟩)
    simp only at this ⊢
    rw [h1, h2]
    exact this
  · rintro pre ⟨sy, sx⟩ suf s hl ⟨hbs, hIs⟩
    have hmem : (sy, sx) ∈ pairs3 := by rw [hl]; simp
    obtain ⟨hsy, hsx⟩ := mem_pairs3.mp hmem
    simp only at hsy hsx
    have hnot : (sy, sx) ∉ pre := by
      have hnd := pairs3_nodup
      rw [hl] at hnd
      have := (List.nodup_append.mp hnd).2.2
      intro hin
      exact this hin (List.mem_cons_self _ _)
    have hr : 3 * box_y + sy < 9 := by omega
    have hc : 3 * box_x + sx < 9 := by omega
    refine ⟨(cell_step_evolves hbs hy hx hsy hsx).1, ?_⟩
    simp only
    by_cases hlen : (pruned s.solved_puzzle box_y box_x (3 * box_y + sy) (3 * box_x + sx)
      (cands s.square_list (3 * box_y + sy) (3 * box_x + sx))).length = 1
    · obtain ⟨v, hv⟩ := List.length_eq_one.mp hlen
      obtain ⟨-, e2, -, -⟩ := cell_step_assign hbs hy hx hsy hsx hv
      intro hf
      rw [e2] at hf
      exact absurd hf (by simp)
    · rw [cell_step_keep hbs hy hx hsy hsx hlen]
      intro hf
      obtain ⟨k1, k2, k3⟩ := hIs hf
      refine ⟨k1, ?_, ?_⟩
      · intro r c hout
        have hne : ¬ (r = 3 * box_y + sy ∧ c = 3 * box_x + sx) := by
          rintro ⟨a1, a2⟩
          apply hout
          omega
        simp only
        rw [cands_set2_ne _ _ hne]
        exact k2 r c hout
      · intro p hp
        simp only
        rcases List.mem_append.mp hp with hp | hp
        · have hne : ¬ (3 * box_y + p.1 = 3 * box_y + sy ∧
              3 * box_x + p.2 = 3 * box_x + sx) := by
            rintro ⟨a1, a2⟩
            apply hnot
            have : p = (sy, sx) := Prod.ext (by simp only; omega) (by simp only; omega)
            rw [← this]; exact hp
          rw [cands_set2_ne _ _ hne]
          exact k3 p hp
        · simp only [List.mem_singleton] at hp
          subst hp
          simp only
          rw [cands_set2_self hbs.2.1 hr hc]
          exact hlen

/-- The loop over `num` in a box, when it ends with `solution_update` false:
nothing was changed and no value is a candidate of exactly one square. -/
theorem unique_loop_quiet {box_y box_x : Nat} (hy : box_y < 3) (hx : box_x < 3)
    (st : PState) (hb : Base st.solved_puzzle st.square_list)
    (hq : (nums.foldl (unique_step box_y box_x) st).solution_update = false) :
    nums.foldl (unique_step box_y box_x) st = st ∧
    ∀ num ∈ nums, (holders num box_y box_x st.square_list).length ≠ 1 := by
  have key := foldl_inv_indexed (unique_step box_y box_x)
    (fun pre s => Base s.solved_puzzle s.square_list ∧ (s.solution_update = false →
      s = st ∧ ∀ num ∈ pre, (holders num box_y box_x st.square_list).length ≠ 1))
    nums st ⟨hb, fun _ => ⟨rfl, fun p hp => by simp at hp⟩⟩ ?_
  · exact key.2 hq
  · rintro pre num suf s hl ⟨hbs, hIs⟩
    refine ⟨(unique_step_evolves hbs hy hx num).1, ?_⟩
    by_cases hlen : (holders num box_y box_x s.square_list).length = 1
    · obtain ⟨X, hX⟩ := List.length_eq_one.mp hlen
      rw [unique_step_assign hbs.2.2.1 hy hx hX]
      intro hf
      exact absurd hf (by simp)
    · rw [unique_step_keep hbs.2.2.1 hy hx hlen]
      intro hf
      obtain ⟨k1, k2⟩ := hIs hf
      refine ⟨k1, ?_⟩
      intro n hn
      rcases List.mem_append.mp hn with hn | hn
      · exact k2 n hn
      · simp only [List.mem_singleton] at hn
        subst hn
        rw [← k1]
        exact hlen

/-- The work on one box, when it ends with `solution_update` false. -/
theorem box_step_quiet {box_y box_x : Nat} (hy : box_y < 3) (hx : box_x < 3)
    (st : PState) (hb : Base st.solved_puzzle st.square_list)
    (hq : (box_step box_y st box_x).solution_update = false) :
    (box_step box_y st box_x).solved_puzzle = st.solved_puzzle ∧
    (∀ r c, ¬ (r / 3 = box_y ∧ c / 3 = box_x) →
      cands (box_step box_y st box_x).square_list r c = cands st.square_list r c) ∧
    StableBox (box_step box_y st box_x).solved_puzzle (box_step box_y st box_x).square_list
      box_y box_x := by
  have hclean := (box_step_inv (fun _ => True) hy hx (fun _ _ _ _ _ _ _ => trivial)
    (fun _ _ _ _ _ _ => trivial) st hb trivial).2.2
  have hb1 := (cell_loop_clean (fun _ => True) hy hx (fun _ _ _ _ _ _ _ => trivial)
    st hb trivial).1
  rw [box_step_eq] at hq hclean ⊢
  obtain ⟨u1, u2⟩ := unique_loop_quiet hy hx _ hb1 hq
  rw [u1] at hq hclean ⊢
  obtain ⟨c1, c2, c3⟩ := cell_loop_quiet hy hx st hb hq
  exact ⟨c1, c2, fun p hp => ⟨hclean p hp, c3 p hp⟩, u2⟩

theorem box_step_evolves {box_y box_x : Nat} (hy : box_y < 3) (hx : box_x < 3)
    (st : PState) (hb : Base st.solved_puzzle st.square_list) :
    Base (box_step box_y st box_x).solved_puzzle (box_step box_y st box_x).square_list ∧
    Evolves st (box_step box_y st box_x) := by
  have := box_step_inv (fun s => Evolves st s) hy hx
    (fun _ _ _ hsy hsx hbs hI => hI.trans (cell_step_evolves hbs hy hx hsy hsx).2)
    (fun _ num _ hbs _ hI => hI.trans (unique_step_evolves hbs hy hx num).2)
    st hb (Evolves.refl _)
  exact ⟨this.1, this.2.1⟩

/-- A pass that reports no update leaves the puzzle unchanged and ends at the
fixpoint. -/
theorem pass_quiet {g : Grid} {sq : Cands} (hb : Base g sq)
    (hq : (macro_box_iterate g sq).solution_update = false) :
    (macro_box_iterate g sq).solved_puzzle = g ∧
    Stable (macro_box_iterate g sq).solved_puzzle (macro_box_iterate g sq).square_list := by
  rw [macro_box_iterate_eq] at hq ⊢
  have key := foldl_inv_indexed (fun st p => box_step p.1 st p.2)
    (fun pre s => Base s.solved_puzzle s.square_list ∧ (s.solution_update = false →
      s.solved_puzzle = g ∧
      ∀ B ∈ pre, StableBox s.solved_puzzle s.square_list B.1 B.2))
    pairs3 { solved_puzzle := g, square_list := sq, solution_update := false }
    ⟨hb, fun _ => ⟨rfl, fun p hp => by simp at hp⟩⟩ ?_
  · obtain ⟨k1, k2⟩ := key.2 hq
    refine ⟨k1, ?_⟩
    intro box_y hy box_x hx
    exact k2 (box_y, box_x) (mem_pairs3.mpr ⟨hy, hx⟩)
  · rintro pre ⟨box_y, box_x⟩ suf s hl ⟨hbs, hIs⟩
    have hmem : (box_y, box_x) ∈ pairs3 := by rw [hl]; simp
    obtain ⟨hy, hx⟩ := mem_pairs3.mp hmem
    simp only at hy hx
    have hnot : (box_y, box_x) ∉ pre := by
      have hnd := pairs3_nodup
      rw [hl] at hnd
      have := (List.nodup_append.mp hnd).2.2
      intro hin
      exact this hin (List.mem_cons_self _ _)
    obtain ⟨hb2, hev⟩ := box_step_evolves hy hx s hbs
    refine ⟨hb2, ?_⟩
    simp only
    intro hf
    have hsf : s.solution_update = false := by
      by_contra hne
      have := hev.2.2.1 (by simpa using hne)
      rw [hf] at this
      exact absurd this (by simp)
    obtain ⟨k1, k2⟩ := hIs hsf
    obtain ⟨q1, q2, q3⟩ := box_step_quiet hy hx s hbs hf
    refine ⟨by rw [q1, k1], ?_⟩
    intro B hB
    rcases List.mem_append.mp hB with hB | hB
    · have hne : B ≠ (box_y, box_x) := fun e => hnot (e ▸ hB)
      rw [q1]
      apply StableBox_congr _ (k2 B hB)
      rintro ⟨r, c⟩ hp
      have := mem_box_cells_iff.mp hp
      apply q2
      rintro ⟨a1, a2⟩
      apply hne
      exact Prod.ext (by rw [← this.1]; exact a1) (by rw [← this.2]; exact a2)
    · simp only [List.mem_singleton] at hB
      subst hB
      exact q3

/-! ## `import_puzzle` -/

theorem cells81_nodup : cells81.Nodup :=
  List.Nodup.product (List.nodup_range 9) (List.nodup_range 9)

theorem import_puzzle_eq (x : Grid) (st : Imported) :
    import_puzzle x st = cells81.foldl (fun st p => import_cell x p.1 st p.2) st := by
  unfold import_puzzle cells81
  rw [foldl_foldl_product]

theorem WF2_zero_grid : WF2 zero_grid := by decide

theorem WF2_empty_lists : WF2 empty_lists := by decide

theorem getD_replicate {α : Type} (d v : α) (n i : Nat) :
    (List.replicate n v).getD i d = v ∨ (List.replicate n v).getD i d = d := by
  rw [List.getD_eq_getElem?_getD, List.getElem?_replicate]
  by_cases h : i < n
  · rw [if_pos h]; exact Or.inl rfl
  · rw [if_neg h]; exact Or.inr rfl

theorem at2_replicate {α : Type} (d v : α) (n m r c : Nat) :
    at2 d (List.replicate n (List.replicate m v)) r c = v ∨
    at2 d (List.replicate n (List.replicate m v)) r c = d := by
  unfold at2
  rcases getD_replicate [] (List.replicate m v) n r with h | h
  · rw [h]; exact getD_replicate d v m c
  · rw [h]; exact Or.inr rfl

theorem cell_zero_grid (r c : Nat) : cell zero_grid r c = 0 := by
  rcases at2_replicate (0 : Int) 0 9 9 r c with h | h <;> exact h

theorem cands_empty_lists (r c : Nat) : cands empty_lists r c = [] := by
  rcases at2_replicate ([] : List Int) [] 9 9 r c with h | h <;> exact h

/-- What `import_puzzle` leaves in the three arrays. -/
theorem import_puzzle_spec (x : Grid) :
    WF2 (import_puzzle x fresh).input_puzzle ∧ WF2 (import_puzzle x fresh).solved_puzzle ∧
    WF2 (import_puzzle x fresh).square_list ∧
    ∀ r < 9, ∀ c < 9,
      cell (import_puzzle x fresh).input_puzzle r c = cell x r c ∧
      cell (import_puzzle x fresh).solved_puzzle r c = cell x r c ∧
      cands (import_puzzle x fresh).square_list r c = if cell x r c = 0 then nums else [] := by
  rw [import_puzzle_eq]
  have key := foldl_inv_indexed (fun st p => import_cell x p.1 st p.2)
    (fun pre s => WF2 s.input_puzzle ∧ WF2 s.solved_puzzle ∧ WF2 s.square_list ∧
      ∀ r c, ((r, c) ∈ pre →
          cell s.input_puzzle r c = cell x r c ∧ cell s.solved_puzzle r c = cell x r c ∧
          cands s.square_list r c = if cell x r c = 0 then nums else []) ∧
        ((r, c) ∉ pre →
          cell s.input_puzzle r c = 0 ∧ cell s.solved_puzzle r c = 0 ∧
          cands s.square_list r c = []))
    cells81 fresh
    ⟨WF2_zero_grid, WF2_zero_grid, WF2_empty_lists, fun r c =>
      ⟨fun h => by simp at h, fun _ => ⟨cell_zero_grid r c, cell_zero_grid r c,
        cands_empty_lists r c⟩⟩⟩ ?_
  · obtain ⟨k1, k2, k3, k4⟩ := key
    exact ⟨k1, k2, k3, fun r hr c hc => (k4 r c).1 (mem_cells81.mpr ⟨hr, hc⟩)⟩
  · rintro pre ⟨pr, pc⟩ suf s hl ⟨w1, w2, w3, hI⟩
    have hmem : (pr, pc) ∈ cells81 := by rw [hl]; simp
    obtain ⟨hr, hc⟩ := mem_cells81.mp hmem
    have hnot : (pr, pc) ∉ pre := by
      have hnd := cells81_nodup
      rw [hl] at hnd
      have := (List.nodup_append.mp hnd).2.2
      intro hin
      exact this hin (List.mem_cons_self _ _)
    obtain ⟨i1, i2, i3⟩ := (hI pr pc).2 hnot
    unfold import_cell
    simp only
    by_cases hz : cell x pr pc = 0
    · simp only [hz, if_true]
      refine ⟨w1, w2, WF2_set2 w3 _ _ _, ?_⟩
      intro r c
      by_cases e : r = pr ∧ c = pc
      · obtain ⟨e1, e2⟩ := e
        subst e1; subst e2
        refine ⟨fun _ => ⟨by rw [i1, hz], by rw [i2, hz], ?_⟩, fun h => absurd (by simp) h⟩
        rw [cands_set2_self w3 hr hc, i3, if_pos hz]
        rfl
      · have e' : (r, c) ≠ (pr, pc) := fun h => e ⟨congrArg Prod.fst h, congrArg Prod.snd h⟩
        rw [cands_set2_ne _ _ e]
        simp only [List.mem_append, List.mem_singleton, e', or_false]
        exact hI r c
    · simp only [hz, if_false]
      refine ⟨WF2_set2 w1 _ _ _, WF2_set2 w2 _ _ _, w3, ?_⟩
      intro r c
      by_cases e : r = pr ∧ c = pc
      · obtain ⟨e1, e2⟩ := e
        subst e1; subst e2
        refine ⟨fun _ => ⟨cell_set2_self w1 hr hc _, cell_set2_self w2 hr hc _, ?_⟩,
          fun h => absurd (by simp) h⟩
        rw [i3, if_neg hz]
      · have e' : (r, c) ≠ (pr, pc) := fun h => e ⟨congrArg Prod.fst h, congrArg Prod.snd h⟩
        rw [cell_set2_ne _ _ e, cell_set2_ne _ _ e]
        simp only [List.mem_append, List.mem_singleton, e', or_false]
        exact hI r c

theorem import_solved {x : Grid} (hx : WF2 x) : (import_puzzle x fresh).solved_puzzle = x := by
  obtain ⟨-, w2, -, h⟩ := import_puzzle_spec x
  exact ext2 0 w2 hx (fun r c hr hc => (h r hr c hc).2.1)

theorem import_base (x : Grid) :
    Base (import_puzzle x fresh).solved_puzzle (import_puzzle x fresh).square_list := by
  obtain ⟨-, w2, w3, h⟩ := import_puzzle_spec x
  refine ⟨w2, w3, ?_, ?_⟩
  · intro r hr c hc
    rw [(h r hr c hc).2.2]
    by_cases hz : cell x r c = 0
    · rw [if_pos hz]; exact good_nums
    · rw [if_neg hz]; exact good_nil
  · intro r hr c hc hne
    rw [(h r hr c hc).2.1]
    by_contra hz
    rw [(h r hr c hc).2.2, if_neg hz] at hne
    exact hne rfl

theorem import_open_count (x : Grid) :
    open_count (import_puzzle x fresh).square_list = zeros x := by
  obtain ⟨-, -, -, h⟩ := import_puzzle_spec x
  unfold open_count zeros
  apply List.countP_congr
  rintro ⟨r, c⟩ hp
  obtain ⟨hr, hc⟩ := mem_cells81.mp hp
  simp only [(h r hr c hc).2.2]
  by_cases hz : cell x r c = 0
  · simp [hz, nums]
  · simp [hz]

/-! ## Propagation keeps the puzzle free of duplicates -/

theorem Peer.symm {r c r' c' : Nat} (h : Peer r c r' c') : Peer r' c' r c := by
  obtain ⟨h1, h2⟩ := h
  refine ⟨fun hh => h1 ⟨hh.1.symm, hh.2.symm⟩, ?_⟩
  rcases h2 with e | e | e
  · exact Or.inl e.symm
  · exact Or.inr (Or.inl e.symm)
  · exact Or.inr (Or.inr ⟨e.1.symm, e.2.symm⟩)

theorem peer_seen (g : Grid) {r c r' c' : Nat} (h : Peer r c r' c') (hr' : r' < 9)
    (hc' : c' < 9) : cell g r' c' ∈ seen g (r / 3) (c / 3) r c := by
  obtain ⟨h1, h2⟩ := h
  apply mem_seen.mpr
  refine ⟨r', c', ?_, rfl⟩
  rcases h2 with e | e | e
  · exact Or.inl ⟨e, hc'⟩
  · exact Or.inr (Or.inl ⟨e, hr'⟩)
  · exact Or.inr (Or.inr ⟨mem_box_cells_iff.mpr e, h1⟩)

theorem seen_sight {g : Grid} {r c : Nat} (hr : r < 9) (hc : c < 9) {x : Int}
    (h : x ∈ seen g (r / 3) (c / 3) r c) :
    x = cell g r c ∨ ∃ r' < 9, ∃ c' < 9, Peer r c r' c' ∧ cell g r' c' = x := by
  obtain ⟨r', c', hs, hx⟩ := mem_seen.mp h
  by_cases e : r' = r ∧ c' = c
  · left
    rw [← hx, e.1, e.2]
  · right
    rcases hs with ⟨h1, h2⟩ | ⟨h1, h2⟩ | ⟨h1, _⟩
    · exact ⟨r', by omega, c', h2, ⟨e, Or.inl h1⟩, hx⟩
    · exact ⟨r', h2, c', by omega, ⟨e, Or.inr (Or.inl h1)⟩, hx⟩
    · have := mem_box_cells_iff.mp h1
      exact ⟨r', by omega, c', by omega, ⟨e, Or.inr (Or.inr this)⟩, hx⟩

/-- Filling a square that is 0 with a value that no square of its row, column or
box holds keeps the puzzle free of duplicates. -/
theorem consistent_assign {g : Grid} (hg : WF2 g) (hc : Consistent g) {r c : Nat}
    (hr : r < 9) (hcc : c < 9) {v : Int}
    (hv : v ∉ seen g (r / 3) (c / 3) r c) :
    Consistent (set2 g r c v) := by
  intro a ha b hb a' ha' b' hb' hp hne
  by_cases e : a = r ∧ b = c
  · obtain ⟨e1, e2⟩ := e
    subst e1; subst e2
    have e' : ¬ (a' = a ∧ b' = b) := hp.1
    rw [cell_set2_self hg hr hcc, cell_set2_ne _ _ e']
    intro h
    exact hv (h ▸ peer_seen g hp ha' hb')
  · rw [cell_set2_ne _ _ e] at hne ⊢
    by_cases e' : a' = r ∧ b' = c
    · obtain ⟨e1, e2⟩ := e'
      subst e1; subst e2
      rw [cell_set2_self hg hr hcc]
      intro h
      exact hv (h ▸ peer_seen g hp.symm ha hb)
    · rw [cell_set2_ne _ _ e']
      exact hc a ha b hb a' ha' b' hb' hp hne

/-- A pass keeps the puzzle free of duplicates. -/
theorem pass_consistent {g : Grid} {sq : Cands} (hb : Base g sq) (hc : Consistent g) :
    Consistent (macro_box_iterate g sq).solved_puzzle := by
  refine (pass_inv (fun s => Consistent s.solved_puzzle) ?_ ?_ g sq hb hc).2
  · intro st box_y box_x sub_y sub_x hy hx hsy hsx hbs hI
    have hr : 3 * box_y + sub_y < 9 := by omega
    have hcc : 3 * box_x + sub_x < 9 := by omega
    by_cases hlen : (pruned st.solved_puzzle box_y box_x (3 * box_y + sub_y)
        (3 * box_x + sub_x)
        (cands st.square_list (3 * box_y + sub_y) (3 * box_x + sub_x))).length = 1
    · obtain ⟨v, hv⟩ := List.length_eq_one.mp hlen
      obtain ⟨e1, -, -, -⟩ := cell_step_assign hbs hy hx hsy hsx hv
      have hvm : v ∈ pruned st.solved_puzzle box_y box_x (3 * box_y + sub_y)
          (3 * box_x + sub_x)
          (cands st.square_list (3 * box_y + sub_y) (3 * box_x + sub_x)) := by
        rw [hv]; exact List.mem_singleton_self _
      obtain ⟨m1, m2⟩ := List.mem_filter.mp hvm
      simp only [decide_eq_true_eq] at m2
      rw [e1]
      apply consistent_assign hbs.1 hI hr hcc
      have a1 : (3 * box_y + sub_y) / 3 = box_y := by omega
      have a2 : (3 * box_x + sub_x) / 3 = box_x := by omega
      rw [a1, a2]; exact m2
    · rw [cell_step_keep hbs hy hx hsy hsx hlen]
      exact hI
  · intro st box_y box_x num hy hx _ hbs hcl hI
    by_cases hlen : (holders num box_y box_x st.square_list).length = 1
    · obtain ⟨X, hX⟩ := List.length_eq_one.mp hlen
      obtain ⟨hXb, hXm⟩ := holders_single hX
      have hlt := box_cells_lt hy hx X hXb
      rw [unique_step_assign hbs.2.2.1 hy hx hX]
      exact consistent_assign hbs.1 hI hlt.1 hlt.2 (hcl X hXb num hXm)
    · rw [unique_step_keep hbs.2.2.1 hy hx hlen]
      exact hI

/-! ## Propagation does not exclude a solution -/

theorem nums_nodup : nums.Nodup := by decide

theorem valid_range {S : Grid} (h : ValidGrid S) {r c : Nat} (hr : r < 9) (hc : c < 9) :
    1 ≤ cell S r c ∧ cell S r c ≤ 9 := by
  have hp := (h.2 r hr).1
  have : cell S r c ∈ row_vals S r := by
    unfold row_vals
    exact List.mem_map.mpr ⟨c, List.mem_range.mpr hc, rfl⟩
  have := (hp.mem_iff).mp this
  simp [nums] at this
  omega

theorem valid_box_inj {S : Grid} (h : ValidGrid S) {r c r' c' : Nat} (hr : r < 9) (hc : c < 9)
    (hb : r' / 3 = r / 3 ∧ c' / 3 = c / 3) (he : cell S r' c' = cell S r c) :
    r' = r ∧ c' = c := by
  have hi : 3 * (r / 3) + c / 3 < 9 := by omega
  have hp := (h.2 _ hi).2.2
  have hnd : (box_vals S (3 * (r / 3) + c / 3)).Nodup := hp.nodup_iff.mpr nums_nodup
  unfold box_vals at hnd
  have e1 : (3 * (r / 3) + c / 3) / 3 = r / 3 := by omega
  have e2 : (3 * (r / 3) + c / 3) % 3 = c / 3 := by omega
  rw [e1, e2] at hnd
  have := List.inj_on_of_nodup_map hnd (mem_box_cells_iff.mpr hb)
    (mem_box_cells_iff.mpr ⟨rfl, rfl⟩) he
  exact ⟨congrArg Prod.fst this, congrArg Prod.snd this⟩

theorem valid_peer {S : Grid} (h : ValidGrid S) {r c r' c' : Nat} (hr : r < 9) (hc : c < 9)
    (hr' : r' < 9) (hc' : c' < 9) (hp : Peer r c r' c') : cell S r' c' ≠ cell S r c := by
  intro he
  obtain ⟨h1, h2⟩ := hp
  rcases h2 with e | e | e
  · subst e
    have hnd : (row_vals S r').Nodup := ((h.2 r' hr').1).nodup_iff.mpr nums_nodup
    unfold row_vals at hnd
    have := List.inj_on_of_nodup_map hnd (List.mem_range.mpr hc') (List.mem_range.mpr hc) he
    exact h1 ⟨rfl, this⟩
  · subst e
    have hnd : (col_vals S c').Nodup := ((h.2 c' hc').2.1).nodup_iff.mpr nums_nodup
    unfold col_vals at hnd
    have := List.inj_on_of_nodup_map hnd (List.mem_range.mpr hr') (List.mem_range.mpr hr) he
    exact h1 ⟨this, rfl⟩
  · exact h1 (valid_box_inj h hr hc e he)

theorem valid_box_has {S : Grid} (h : ValidGrid S) {box_y box_x : Nat} (hy : box_y < 3)
    (hx : box_x < 3) {num : Int} (hn : num ∈ nums) :
    ∃ p ∈ box_cells box_y box_x, cell S p.1 p.2 = num := by
  have hi : 3 * box_y + box_x < 9 := by omega
  have hp := (h.2 _ hi).2.2
  have := hp.mem_iff.mpr hn
  unfold box_vals at this
  have e1 : (3 * box_y + box_x) / 3 = box_y := by omega
  have e2 : (3 * box_y + box_x) % 3 = box_x := by omega
  rw [e1, e2] at this
  obtain ⟨p, hp1, hp2⟩ := List.mem_map.mp this
  exact ⟨p, hp1, hp2⟩

theorem valid_consistent {S : Grid} (h : ValidGrid S) : Consistent S :=
  fun _ hr _ hc _ hr' _ hc' hp _ => valid_peer h hr hc hr' hc' hp

/-- The value of `S` at a square that is still 0 is not among the values the
program compares its candidates with. -/
theorem sound_not_seen {S g : Grid} {sq : Cands} (hv : ValidGrid S) (hs : Sound S g sq)
    {r c : Nat} (hr : r < 9) (hc : c < 9) (hz : cell g r c = 0) :
    cell S r c ∉ seen g (r / 3) (c / 3) r c := by
  intro hin
  have hrange := valid_range hv hr hc
  rcases seen_sight hr hc hin with e | ⟨r', hr', c', hc', hp, e⟩
  · rw [hz] at e; omega
  · by_cases hz' : cell g r' c' = 0
    · rw [hz'] at e; omega
    · have := (hs r' hr' c' hc').1 hz'
      rw [this] at e
      exact valid_peer hv hr hc hr' hc' hp e

/-- A pass does not exclude a valid grid that the state has not excluded. -/
theorem pass_sound {S g : Grid} {sq : Cands} (hv : ValidGrid S) (hb : Base g sq)
    (hs : Sound S g sq) :
    Sound S (macro_box_iterate g sq).solved_puzzle (macro_box_iterate g sq).square_list := by
  refine (pass_inv (fun s => Sound S s.solved_puzzle s.square_list) ?_ ?_ g sq hb hs).2
  · intro st box_y box_x sub_y sub_x hy hx hsy hsx hbs hI
    have hr : 3 * box_y + sub_y < 9 := by omega
    have hcc : 3 * box_x + sub_x < 9 := by omega
    have a1 : (3 * box_y + sub_y) / 3 = box_y := by omega
    have a2 : (3 * box_x + sub_x) / 3 = box_x := by omega
    have hkeepS : cell st.solved_puzzle (3 * box_y + sub_y) (3 * box_x + sub_x) = 0 →
        cell S (3 * box_y + sub_y) (3 * box_x + sub_x) ∈
          pruned st.solved_puzzle box_y box_x (3 * box_y + sub_y) (3 * box_x + sub_x)
            (cands st.square_list (3 * box_y + sub_y) (3 * box_x + sub_x)) := by
      intro hz
      apply List.mem_filter.mpr
      refine ⟨(hI _ hr _ hcc).2 hz, ?_⟩
      have := sound_not_seen hv hI hr hcc hz
      rw [a1, a2] at this
      simpa using this
    by_cases hlen : (pruned st.solved_puzzle box_y box_x (3 * box_y + sub_y)
        (3 * box_x + sub_x)
        (cands st.square_list (3 * box_y + sub_y) (3 * box_x + sub_x))).length = 1
    · obtain ⟨v, hv'⟩ := List.length_eq_one.mp hlen
      obtain ⟨e1, -, -, e4⟩ := cell_step_assign hbs hy hx hsy hsx hv'
      have hvm : v ∈ cands st.square_list (3 * box_y + sub_y) (3 * box_x + sub_x) := by
        have : v ∈ pruned st.solved_puzzle box_y box_x (3 * box_y + sub_y) (3 * box_x + sub_x)
            (cands st.square_list (3 * box_y + sub_y) (3 * box_x + sub_x)) := by
          rw [hv']; exact List.mem_singleton_self _
        exact (List.mem_filter.mp this).1
      have hz : cell st.solved_puzzle (3 * box_y + sub_y) (3 * box_x + sub_x) = 0 :=
        hbs.2.2.2 _ hr _ hcc (List.ne_nil_of_mem hvm)
      have hvS : cell S (3 * box_y + sub_y) (3 * box_x + sub_x) = v := by
        have := hkeepS hz
        rw [hv'] at this
        exact List.mem_singleton.mp this
      have hv0 : v ≠ 0 := (hbs.2.2.1 _ hr _ hcc).ne_zero hvm
      intro r hr' c hc'
      rw [e1, e4]
      by_cases e : r = 3 * box_y + sub_y ∧ c = 3 * box_x + sub_x
      · obtain ⟨e1', e2'⟩ := e
        subst e1'; subst e2'
        rw [cell_set2_self hbs.1 hr hcc]
        exact ⟨fun _ => hvS.symm, fun h => absurd h hv0⟩
      · rw [cell_set2_ne _ _ e]
        refine ⟨(hI r hr' c hc').1, ?_⟩
        intro hz'
        have hm := (hI r hr' c hc').2 hz'
        by_cases hbox : r / 3 = box_y ∧ c / 3 = box_x
        · rw [if_pos hbox, if_neg e]
          apply List.mem_filter.mpr
          refine ⟨hm, ?_⟩
          have hp : Peer (3 * box_y + sub_y) (3 * box_x + sub_x) r c :=
            ⟨e, Or.inr (Or.inr ⟨by omega, by omega⟩)⟩
          have := valid_peer hv hr hcc hr' hc' hp
          rw [hvS] at this
          simpa using this
        · rw [if_neg hbox]
          exact hm
    · rw [cell_step_keep hbs hy hx hsy hsx hlen]
      intro r hr' c hc'
      simp only
      refine ⟨(hI r hr' c hc').1, ?_⟩
      intro hz'
      by_cases e : r = 3 * box_y + sub_y ∧ c = 3 * box_x + sub_x
      · obtain ⟨e1', e2'⟩ := e
        subst e1'; subst e2'
        rw [cands_set2_self hbs.2.1 hr hcc]
        exact hkeepS hz'
      · rw [cands_set2_ne _ _ e]
        exact (hI r hr' c hc').2 hz'
  · intro st box_y box_x num hy hx hnum hbs hcl hI
    by_cases hlen : (holders num box_y box_x st.square_list).length = 1
    · obtain ⟨X, hX⟩ := List.length_eq_one.mp hlen
      obtain ⟨hXb, hXm⟩ := holders_single hX
      have hlt := box_cells_lt hy hx X hXb
      have hXz : cell st.solved_puzzle X.1 X.2 = 0 :=
        hbs.2.2.2 _ hlt.1 _ hlt.2 (List.ne_nil_of_mem hXm)
      have hXbox := mem_box_cells_iff.mp hXb
      have hSX : cell S X.1 X.2 = num := by
        obtain ⟨Z, hZb, hZ⟩ := valid_box_has hv hy hx hnum
        have hZlt := box_cells_lt hy hx Z hZb
        have hZbox := mem_box_cells_iff.mp hZb
        by_cases hZz : cell st.solved_puzzle Z.1 Z.2 = 0
        · have hm := (hI _ hZlt.1 _ hZlt.2).2 hZz
          rw [hZ] at hm
          have : Z ∈ holders num box_y box_x st.square_list := by
            unfold holders
            exact List.mem_filter.mpr ⟨hZb, by simpa using hm⟩
          rw [hX] at this
          rw [← List.mem_singleton.mp this]
          exact hZ
        · exfalso
          have hgZ := (hI _ hZlt.1 _ hZlt.2).1 hZz
          have hne : ¬ (Z.1 = X.1 ∧ Z.2 = X.2) := by
            rintro ⟨a1, a2⟩
            rw [a1, a2] at hZz
            exact hZz hXz
          have hp : Peer X.1 X.2 Z.1 Z.2 :=
            ⟨hne, Or.inr (Or.inr ⟨by rw [hZbox.1, hXbox.1], by rw [hZbox.2, hXbox.2]⟩)⟩
          have := peer_seen st.solved_puzzle hp hZlt.1 hZlt.2
          rw [hgZ, hZ] at this
          exact hcl X hXb num hXm this
      have hn0 : num ≠ 0 := (hbs.2.2.1 _ hlt.1 _ hlt.2).ne_zero hXm
      rw [unique_step_assign hbs.2.2.1 hy hx hX]
      intro r hr' c hc'
      simp only
      by_cases e : r = X.1 ∧ c = X.2
      · obtain ⟨e1', e2'⟩ := e
        subst e1'; subst e2'
        rw [cell_set2_self hbs.1 hlt.1 hlt.2]
        exact ⟨fun _ => hSX.symm, fun h => absurd h hn0⟩
      · rw [cell_set2_ne _ _ e, cands_set2_ne _ _ e]
        exact hI r hr' c hc'
    · rw [unique_step_keep hbs.2.2.1 hy hx hlen]
      exact hI

/-! ## The loop of `simplify_puzzle` -/

/-- Whatever a pass preserves, the loop of `simplify_puzzle` preserves; and the
loop ends at the fixpoint. -/
theorem simplify_loop_inv (J : Grid → Cands → Prop)
    (hJ : ∀ g sq, Base g sq → J g sq →
      J (macro_box_iterate g sq).solved_puzzle (macro_box_iterate g sq).square_list) :
    ∀ (fuel : Nat) (g : Grid) (sq : Cands) (it : Nat) (s : Simplified),
      Base g sq → J g sq → simplify_loop fuel g sq it = some s →
      Base s.solved_puzzle s.square_list ∧ J s.solved_puzzle s.square_list ∧
      Stable s.solved_puzzle s.square_list := by
  intro fuel
  induction fuel with
  | zero => intro g sq it s _ _ h; simp [simplify_loop] at h
  | succ n ih =>
    intro g sq it s hb hj h
    rw [simplify_loop] at h
    by_cases hu : (macro_box_iterate g sq).solution_update = true
    · rw [if_pos hu] at h
      exact ih _ _ _ s (pass_evolves hb).1 (hJ g sq hb hj) h
    · rw [if_neg hu] at h
      simp only [Option.some.injEq] at h
      have hq : (macro_box_iterate g sq).solution_update = false := by
        cases hh : (macro_box_iterate g sq).solution_update
        · rfl
        · exact absurd hh hu
      have e1 : s.solved_puzzle = (macro_box_iterate g sq).solved_puzzle := by rw [← h]
      have e2 : s.square_list = (macro_box_iterate g sq).square_list := by rw [← h]
      rw [e1, e2]
      exact ⟨(pass_evolves hb).1, hJ g sq hb hj, (pass_quiet hb hq).2⟩

/-- The loop of `simplify_puzzle` ends as soon as the fuel exceeds the number of
non-empty candidate lists, after at most that many passes plus one. -/
theorem simplify_loop_total :
    ∀ (fuel : Nat) (g : Grid) (sq : Cands) (it : Nat), Base g sq → open_count sq < fuel →
      ∃ s, simplify_loop fuel g sq it = some s ∧ s.iteration ≤ it + open_count sq + 1 := by
  intro fuel
  induction fuel with
  | zero => intro g sq it _ h; omega
  | succ n ih =>
    intro g sq it hb hlt
    rw [simplify_loop]
    by_cases hu : (macro_box_iterate g sq).solution_update = true
    · rw [if_pos hu]
      obtain ⟨hb', hev⟩ := pass_evolves hb
      have hdec : open_count (macro_box_iterate g sq).square_list < open_count sq := by
        rcases hev.2.2.2 hu with h | h
        · simp at h
        · exact h.1
      obtain ⟨s, hs, hit⟩ := ih _ _ (it + 1) hb' (by omega)
      exact ⟨s, hs, by omega⟩
    · rw [if_neg hu]
      exact ⟨_, rfl, by simp only; omega⟩

/-- The result of the loop does not depend on the fuel, once it is enough. -/
theorem simplify_loop_mono :
    ∀ (fuel : Nat) (g : Grid) (sq : Cands) (it : Nat) (s : Simplified),
      simplify_loop fuel g sq it = some s → ∀ fuel', fuel ≤ fuel' →
      simplify_loop fuel' g sq it = some s := by
  intro fuel
  induction fuel with
  | zero => intro g sq it s h; simp [simplify_loop] at h
  | succ n ih =>
    intro g sq it s h fuel' hle
    obtain ⟨m, rfl⟩ : ∃ m, fuel' = m + 1 := ⟨fuel' - 1, by omega⟩
    rw [simplify_loop] at h ⊢
    by_cases hu : (macro_box_iterate g sq).solution_update = true
    · rw [if_pos hu] at h ⊢
      exact ih _ _ _ s h m (by omega)
    · rw [if_neg hu] at h ⊢
      exact h

/-! ## `solve_check`, `find_empty_square`, `constraint_pass` -/

theorem at2_foldl_put {α : Type} (d : α) (v : Nat × Nat → α) (r c : Nat)
    (cells : List (Nat × Nat)) :
    (∀ p ∈ cells, p.1 < 9 ∧ p.2 < 9) → ∀ t : List (List α), WF2 t →
      WF2 (cells.foldl (fun t p => set2 t p.1 p.2 (v p)) t) ∧
      at2 d (cells.foldl (fun t p => set2 t p.1 p.2 (v p)) t) r c =
        if (r, c) ∈ cells then v (r, c) else at2 d t r c := by
  induction cells using List.reverseRecOn with
  | nil => intro _ t h; exact ⟨h, by simp⟩
  | append_singleton ps p ih =>
    intro hin t h
    have hb := hin p (List.mem_append_right _ (List.mem_singleton_self _))
    have := ih (fun q hq => hin q (List.mem_append_left _ hq)) t h
    rw [List.foldl_append, List.foldl_cons, List.foldl_nil]
    refine ⟨WF2_set2 this.1 _ _ _, ?_⟩
    by_cases e : (r, c) = p
    · subst e
      rw [at2_set2_self d this.1 hb.1 hb.2]
      simp
    · have hne : ¬ (r = p.1 ∧ c = p.2) := fun hh => e (Prod.ext hh.1 hh.2)
      rw [at2_set2_ne d _ _ hne, this.2]
      simp only [List.mem_append, List.mem_singleton, e, or_false]

theorem copy_grid_eq {dst src : Grid} (hd : WF2 dst) (hs : WF2 src) :
    copy_grid dst src = src := by
  have e : copy_grid dst src =
      cells81.foldl (fun t p => set2 t p.1 p.2 (cell src p.1 p.2)) dst := by
    unfold copy_grid cells81
    rw [foldl_foldl_product]
  have hin : ∀ p ∈ cells81, p.1 < 9 ∧ p.2 < 9 := fun p hp => mem_cells81.mp hp
  rw [e]
  apply ext2 0 (at2_foldl_put 0 _ 0 0 cells81 hin dst hd).1 hs
  intro r c hr hc
  rw [(at2_foldl_put 0 (fun p => cell src p.1 p.2) r c cells81 hin dst hd).2,
    if_pos (mem_cells81.mpr ⟨hr, hc⟩)]
  rfl

theorem solve_check_iff (g : Grid) :
    solve_check g = true ↔ ∀ r < 9, ∀ c < 9, cell g r c ≠ 0 := by
  unfold solve_check
  simp only [List.all_eq_true, List.mem_range, bne_iff_ne, ne_eq]

theorem find_range_first (p : Nat → Bool) (n i : Nat) (h : (List.range n).find? p = some i) :
    i < n ∧ p i = true ∧ ∀ j < i, p j = false := by
  induction n with
  | zero => simp at h
  | succ n ih =>
    rw [List.range_succ, List.find?_append] at h
    cases hf : (List.range n).find? p with
    | some j =>
      rw [hf] at h
      simp at h
      subst h
      have := ih hf
      exact ⟨by omega, this.2⟩
    | none =>
      rw [hf] at h
      simp only [Option.none_or] at h
      have hnone := List.find?_eq_none.mp hf
      by_cases hp : p n = true
      · rw [List.find?_cons_of_pos _ hp] at h
        simp only [Option.some.injEq] at h
        subst h
        refine ⟨by omega, hp, ?_⟩
        intro j hj
        have := hnone j (List.mem_range.mpr hj)
        simpa using this
      · rw [List.find?_cons_of_neg _ hp] at h
        simp at h

theorem isSome_false {α : Type} {o : Option α} (h : o.isSome = false) : o = none := by
  cases o with
  | none => rfl
  | some a => simp at h

theorem find_range_none (p : Nat → Bool) (n : Nat) (h : (List.range n).find? p = none) :
    ∀ j < n, p j = false := by
  intro j hj
  have := List.find?_eq_none.mp h j (List.mem_range.mpr hj)
  simpa using this

/-- The function `find_empty_square` returns the first square in row-major order
whose value is 0, when there is one. -/
theorem find_empty_square_spec {g : Grid} (h : solve_check g = false) :
    (find_empty_square g).1 < 9 ∧ (find_empty_square g).2 < 9 ∧
    cell g (find_empty_square g).1 (find_empty_square g).2 = 0 ∧
    ∀ r < 9, ∀ c < 9, (r < (find_empty_square g).1 ∨
      (r = (find_empty_square g).1 ∧ c < (find_empty_square g).2)) → cell g r c ≠ 0 := by
  unfold find_empty_square
  cases hf : (List.range 9).find? (fun row => (find_in_row g row).isSome) with
  | none =>
    exfalso
    have hnone := find_range_none _ _ hf
    have : solve_check g = true := by
      rw [solve_check_iff]
      intro r hr c hc hz
      have h1 := isSome_false (hnone r hr)
      unfold find_in_row at h1
      have := find_range_none _ _ h1 c hc
      simp [hz] at this
    rw [this] at h
    exact absurd h (by simp)
  | some row =>
    obtain ⟨h1, h2, h3⟩ := find_range_first _ _ _ hf
    simp only
    obtain ⟨col, hcol⟩ := Option.isSome_iff_exists.mp h2
    rw [hcol]
    simp only [Option.getD_some]
    unfold find_in_row at hcol
    obtain ⟨c1, c2, c3⟩ := find_range_first _ _ _ hcol
    refine ⟨h1, c1, by simpa using c2, ?_⟩
    intro r hr c hc hlt
    rcases hlt with hlt | ⟨e, hlt⟩
    · have := isSome_false (h3 r hlt)
      unfold find_in_row at this
      have := find_range_none _ _ this c hc
      simpa using this
    · subst e
      have := c3 c hlt
      simpa using this

/-- The value of `constraint_pass`: the value of the square differs from the
value of every other square of its row, its column and its box. -/
theorem constraint_pass_iff (t : Grid) {rs cs : Nat} (hr : rs < 9) (hc : cs < 9) :
    constraint_pass t rs cs = true ↔
      ∀ r < 9, ∀ c < 9, Peer rs cs r c → cell t r c ≠ cell t rs cs := by
  unfold constraint_pass
  simp only [Bool.and_eq_true, List.all_eq_true, List.mem_range, Bool.or_eq_true, beq_iff_eq,
    bne_iff_ne, ne_eq]
  constructor
  · rintro ⟨⟨h1, h2⟩, h3⟩ r hr' c hc' ⟨hne, hp⟩ he
    rcases hp with e | e | e
    · subst e
      rcases h1 c hc' with a | a
      · exact hne ⟨rfl, a⟩
      · exact a he.symm
    · subst e
      rcases h2 r hr' with a | a
      · exact hne ⟨a, rfl⟩
      · exact a he.symm
    · have e1 : r = 3 * (rs / 3) + r % 3 := by omega
      have e2 : c = 3 * (cs / 3) + c % 3 := by omega
      rcases h3 (r % 3) (Nat.mod_lt _ (by omega)) (c % 3) (Nat.mod_lt _ (by omega)) with a | a
      · exact hne ⟨by omega, by omega⟩
      · rw [← e1, ← e2] at a
        exact a he.symm
  · intro h
    refine ⟨⟨?_, ?_⟩, ?_⟩
    · intro c hc'
      by_cases e : c = cs
      · exact Or.inl e
      · exact Or.inr (fun he => h rs hr c hc' ⟨fun hh => e hh.2, Or.inl rfl⟩ he.symm)
    · intro r hr'
      by_cases e : r = rs
      · exact Or.inl e
      · exact Or.inr (fun he => h r hr' cs hc ⟨fun hh => e hh.1, Or.inr (Or.inl rfl)⟩ he.symm)
    · intro a ha b hb
      by_cases e : 3 * (rs / 3) + a = rs ∧ 3 * (cs / 3) + b = cs
      · exact Or.inl e
      · exact Or.inr (fun he => h _ (by omega) _ (by omega)
          ⟨e, Or.inr (Or.inr ⟨by omega, by omega⟩)⟩ he.symm)

/-! ## One call of `recursive_solve` -/

theorem foldl_none {α β : Type} (F : Option α → β → Option α) (hF : ∀ v, F none v = none)
    (l : List β) : l.foldl F none = none := by
  induction l with
  | nil => rfl
  | cons a l ih => rw [List.foldl_cons, hF, ih]

theorem branch_step_none (fuel : Nat) (sq : Cands) (g : Grid) (start : Nat × Nat) (v : Int) :
    branch_step fuel sq g start none v = none := rfl

theorem branch_step_some (fuel : Nat) (sq : Cands) (g : Grid) (start : Nat × Nat) (st : Search)
    (v : Int) :
    branch_step fuel sq g start (some st) v =
      if constraint_pass (set2 g start.1 start.2 v) start.1 start.2 then
        recursive_solve fuel st (set2 g start.1 start.2 v) sq
      else some st := rfl

theorem pair_fold (fuel : Nat) (sq : Cands) (solved : Grid) (start : Nat × Nat)
    (F : Option (Grid × Search) → Int → Option (Grid × Search))
    (hF0 : ∀ v, F none v = none)
    (hF1 : ∀ temp st v, F (some (temp, st)) v =
      if constraint_pass (set2 temp start.1 start.2 v) start.1 start.2 then
        (recursive_solve fuel st (set2 temp start.1 start.2 v) sq).map
          (fun st => (set2 temp start.1 start.2 v, st))
      else some (set2 temp start.1 start.2 v, st)) :
    ∀ (l : List Int) (temp : Grid) (st : Search),
      (∀ v, set2 temp start.1 start.2 v = set2 solved start.1 start.2 v) →
      (l.foldl F (some (temp, st))).map (fun p => p.2) =
        l.foldl (branch_step fuel sq solved start) (some st) := by
  intro l
  induction l with
  | nil => intro temp st _; rfl
  | cons v l ih =>
    intro temp st ht
    rw [List.foldl_cons, List.foldl_cons, hF1, ht v, branch_step_some]
    by_cases hp : constraint_pass (set2 solved start.1 start.2 v) start.1 start.2 = true
    · rw [if_pos hp, if_pos hp]
      cases hrec : recursive_solve fuel st (set2 solved start.1 start.2 v) sq with
      | none =>
        simp only [Option.map_none']
        rw [foldl_none F hF0, foldl_none _ (branch_step_none fuel sq solved start)]
        rfl
      | some st1 =>
        simp only [Option.map_some']
        exact ih _ st1 (fun w => set2_set2 _ _ _ _ _)
    · rw [if_neg hp, if_neg hp]
      exact ih _ st (fun w => set2_set2 _ _ _ _ _)

/-- One call of `recursive_solve`, with the copies of the puzzle resolved. -/
theorem recursive_solve_succ (fuel : Nat) (st : Search) (solved : Grid) (sq : Cands)
    (hf : WF2 st.final_puzzle) (hs : WF2 solved) :
    recursive_solve (fuel + 1) st solved sq =
      if solve_check solved then
        some { final_puzzle := solved, calls := st.calls ++ [solved] }
      else
        (cands sq (find_empty_square solved).1 (find_empty_square solved).2).foldl
          (branch_step fuel sq solved (find_empty_square solved))
          (some { final_puzzle := st.final_puzzle, calls := st.calls ++ [solved] }) := by
  rw [recursive_solve]
  simp only [copy_grid_eq hf hs, copy_grid_eq WF2_zero_grid hs]
  by_cases hc : solve_check solved = true
  · rw [if_pos hc, if_pos hc]
  · rw [if_neg hc, if_neg hc]
    exact pair_fold fuel sq solved (find_empty_square solved) _ (fun _ => rfl)
      (fun _ _ _ => rfl) _ solved _ (fun _ => rfl)

/-! ## The calls of `recursive_solve` and the final puzzle -/

theorem last_solution_nil (old : Grid) : last_solution [] old = old := rfl

theorem last_solution_append (a b : List Grid) (old : Grid) :
    last_solution (a ++ b) old = last_solution b (last_solution a old) := by
  unfold last_solution
  rw [List.foldl_append]

theorem last_solution_cons (t : Grid) (b : List Grid) (old : Grid) :
    last_solution (t :: b) old = last_solution b (if solve_check t then t else old) := rfl

/-- The grid `last_solution new old` is the last completed grid of `new`, and `old`
when `new` has no completed grid. -/
theorem last_solution_eq (new : List Grid) (old : Grid) :
    last_solution new old = ((new.filter solve_check).getLast?).getD old := by
  induction new using List.reverseRecOn with
  | nil => rfl
  | append_singleton l t ih =>
    rw [last_solution_append, ih, List.filter_append]
    by_cases h : solve_check t = true
    · rw [last_solution_cons, if_pos h, last_solution_nil, List.filter_cons_of_pos h,
        List.filter_nil, List.getLast?_concat]
      rfl
    · rw [last_solution_cons, if_neg h, last_solution_nil, List.filter_cons_of_neg h,
        List.filter_nil, List.append_nil]

theorem last_solution_cases (new : List Grid) (old : Grid) :
    last_solution new old = old ∨
      (last_solution new old ∈ new ∧ solve_check (last_solution new old) = true) := by
  induction new using List.reverseRecOn with
  | nil => exact Or.inl rfl
  | append_singleton l t ih =>
    rw [last_solution_append, last_solution_cons, last_solution_nil]
    by_cases h : solve_check t = true
    · rw [if_pos h]
      exact Or.inr ⟨List.mem_append_right _ (List.mem_singleton_self _), h⟩
    · rw [if_neg h]
      rcases ih with e | ⟨e1, e2⟩
      · exact Or.inl e
      · exact Or.inr ⟨List.mem_append_left _ e1, e2⟩

/-- The calls made by `recursive_solve` and the final puzzle it leaves: a property
of the puzzle that every fill-in step of the search keeps holds for the grid of
every call, and `final_puzzle` holds the last completed grid among them. -/
theorem search_inv (sq : Cands) (P : Grid → Prop)
    (hstep : ∀ (g : Grid) (v : Int), WF2 g → P g → solve_check g = false →
      v ∈ cands sq (find_empty_square g).1 (find_empty_square g).2 →
      constraint_pass (set2 g (find_empty_square g).1 (find_empty_square g).2 v)
        (find_empty_square g).1 (find_empty_square g).2 = true →
      P (set2 g (find_empty_square g).1 (find_empty_square g).2 v)) :
    ∀ (fuel : Nat) (st : Search) (solved : Grid) (st' : Search),
      WF2 st.final_puzzle → WF2 solved → P solved →
      recursive_solve fuel st solved sq = some st' →
      ∃ new, st'.calls = st.calls ++ solved :: new ∧ (∀ t ∈ new, WF2 t ∧ P t) ∧
        st'.final_puzzle = last_solution (solved :: new) st.final_puzzle ∧
        WF2 st'.final_puzzle := by
  intro fuel
  induction fuel with
  | zero => intro st solved st' _ _ _ h; simp [recursive_solve] at h
  | succ n ih =>
    intro st solved st' hf hs hP h
    rw [recursive_solve_succ n st solved sq hf hs] at h
    by_cases hc : solve_check solved = true
    · rw [if_pos hc] at h
      simp only [Option.some.injEq] at h
      subst h
      refine ⟨[], rfl, fun t ht => by simp at ht, ?_, hs⟩
      rw [last_solution_cons, if_pos hc, last_solution_nil]
    · rw [if_neg hc] at h
      have hc' : solve_check solved = false := by simpa using hc
      have key := foldl_inv (branch_step n sq solved (find_empty_square solved))
        (fun acc => ∀ st1, acc = some st1 →
          ∃ new, st1.calls = st.calls ++ solved :: new ∧ (∀ t ∈ new, WF2 t ∧ P t) ∧
            st1.final_puzzle = last_solution new st.final_puzzle ∧ WF2 st1.final_puzzle)
        (cands sq (find_empty_square solved).1 (find_empty_square solved).2)
        (some { final_puzzle := st.final_puzzle, calls := st.calls ++ [solved] })
        (by
          intro st1 h1
          simp only [Option.some.injEq] at h1
          subst h1
          exact ⟨[], by simp, fun t ht => by simp at ht, rfl, hf⟩)
        (by
          intro acc v hv hacc st2 h2
          cases acc with
          | none => simp [branch_step_none] at h2
          | some st1 =>
            obtain ⟨new, n1, n2, n3, n4⟩ := hacc st1 rfl
            rw [branch_step_some] at h2
            by_cases hp : constraint_pass (set2 solved (find_empty_square solved).1
                (find_empty_square solved).2 v) (find_empty_square solved).1
                (find_empty_square solved).2 = true
            · rw [if_pos hp] at h2
              have hPt := hstep solved v hs hP hc' hv hp
              obtain ⟨new2, m1, m2, m3, m4⟩ := ih st1 _ st2 n4 (WF2_set2 hs _ _ _) hPt h2
              refine ⟨new ++ set2 solved (find_empty_square solved).1
                (find_empty_square solved).2 v :: new2, ?_, ?_, ?_, m4⟩
              · rw [m1, n1]; simp
              · intro t ht
                rcases List.mem_append.mp ht with ht | ht
                · exact n2 t ht
                · rcases List.mem_cons.mp ht with ht | ht
                  · subst ht; exact ⟨WF2_set2 hs _ _ _, hPt⟩
                  · exact m2 t ht
              · rw [m3, n3, last_solution_append]
            · rw [if_neg hp] at h2
              simp only [Option.some.injEq] at h2
              subst h2
              exact ⟨new, n1, n2, n3, n4⟩)
      obtain ⟨new, n1, n2, n3, n4⟩ := key st' h
      refine ⟨new, n1, n2, ?_, n4⟩
      rw [last_solution_cons, if_neg hc, n3]

/-! ## Termination and completeness of the search -/

theorem zeros_set2_lt {g : Grid} (hg : WF2 g) {r c : Nat} (hr : r < 9) (hc : c < 9)
    (hz : cell g r c = 0) {v : Int} (hv : v ≠ 0) : zeros (set2 g r c v) < zeros g := by
  unfold zeros
  apply countP_lt_of _ _ _ _ (mem_cells81.mpr ⟨hr, hc⟩)
  · simpa using hz
  · simp only [decide_eq_false_iff_not]
    rw [cell_set2_self hg hr hc]
    exact hv
  · intro p _ hp
    simp only [decide_eq_true_eq] at hp ⊢
    by_cases e : p.1 = r ∧ p.2 = c
    · rw [e.1, e.2]; exact hz
    · rw [cell_set2_ne _ _ e] at hp
      exact hp

/-- The search keeps a completed final puzzle completed, and keeps it 9 by 9. -/
theorem search_final (sq : Cands) (fuel : Nat) (st : Search) (solved : Grid) (st' : Search)
    (hf : WF2 st.final_puzzle) (hs : WF2 solved)
    (h : recursive_solve fuel st solved sq = some st') :
    WF2 st'.final_puzzle ∧
    (solve_check st.final_puzzle = true → solve_check st'.final_puzzle = true) := by
  obtain ⟨new, -, -, n3, n4⟩ := search_inv sq (fun _ => True)
    (fun _ _ _ _ _ _ _ => trivial) fuel st solved st' hf hs trivial h
  refine ⟨n4, fun hc => ?_⟩
  rw [n3]
  rcases last_solution_cases (solved :: new) st.final_puzzle with e | ⟨-, e⟩
  · rw [e]; exact hc
  · exact e

/-- Termination of the search: the recursion is never deeper than the number of
squares that are 0, plus one. -/
theorem search_total (sq : Cands) (hgood : GoodAll sq) :
    ∀ (fuel : Nat) (st : Search) (solved : Grid),
      WF2 st.final_puzzle → WF2 solved → zeros solved < fuel →
      ∃ st', recursive_solve fuel st solved sq = some st' := by
  intro fuel
  induction fuel with
  | zero => intro st solved _ _ h; omega
  | succ n ih =>
    intro st solved hf hs hz
    rw [recursive_solve_succ n st solved sq hf hs]
    by_cases hc : solve_check solved = true
    · rw [if_pos hc]; exact ⟨_, rfl⟩
    · rw [if_neg hc]
      have hc' : solve_check solved = false := by simpa using hc
      obtain ⟨f1, f2, f3, -⟩ := find_empty_square_spec hc'
      have key := foldl_inv (branch_step n sq solved (find_empty_square solved))
        (fun acc => ∃ st1, acc = some st1 ∧ WF2 st1.final_puzzle)
        (cands sq (find_empty_square solved).1 (find_empty_square solved).2)
        (some { final_puzzle := st.final_puzzle, calls := st.calls ++ [solved] })
        ⟨_, rfl, hf⟩
        (by
          rintro acc v hv ⟨st1, rfl, hw⟩
          rw [branch_step_some]
          by_cases hp : constraint_pass (set2 solved (find_empty_square solved).1
              (find_empty_square solved).2 v) (find_empty_square solved).1
              (find_empty_square solved).2 = true
          · rw [if_pos hp]
            have hv0 : v ≠ 0 := (hgood _ f1 _ f2).ne_zero hv
            have hlt := zeros_set2_lt hs f1 f2 f3 hv0
            obtain ⟨st2, h2⟩ := ih st1 (set2 solved (find_empty_square solved).1 (find_empty_square solved).2 v) hw
              (WF2_set2 hs _ _ _) (by omega)
            exact ⟨st2, h2, (search_final sq n st1 _ st2 hw (WF2_set2 hs _ _ _) h2).1⟩
          · rw [if_neg hp]
            exact ⟨st1, rfl, hw⟩)
      obtain ⟨st1, h1, -⟩ := key
      exact ⟨st1, h1⟩

/-- Completeness of the search: when a valid grid agrees with the puzzle and its
values are among the candidates, the search ends with a completed final puzzle. -/
theorem search_complete (sq : Cands) (hgood : GoodAll sq) {S : Grid} (hv : ValidGrid S) :
    ∀ (fuel : Nat) (st : Search) (solved : Grid),
      WF2 st.final_puzzle → WF2 solved → Sound S solved sq → zeros solved < fuel →
      ∃ st', recursive_solve fuel st solved sq = some st' ∧
        solve_check st'.final_puzzle = true := by
  intro fuel
  induction fuel with
  | zero => intro st solved _ _ _ h; omega
  | succ n ih =>
    intro st solved hf hs hsound hz
    rw [recursive_solve_succ n st solved sq hf hs]
    by_cases hc : solve_check solved = true
    · rw [if_pos hc]; exact ⟨_, rfl, hc⟩
    · rw [if_neg hc]
      have hc' : solve_check solved = false := by simpa using hc
      obtain ⟨f1, f2, f3, -⟩ := find_empty_square_spec hc'
      have hSm := (hsound _ f1 _ f2).2 f3
      have key := foldl_inv_indexed (branch_step n sq solved (find_empty_square solved))
        (fun pre acc => ∃ st1, acc = some st1 ∧ WF2 st1.final_puzzle ∧
          (cell S (find_empty_square solved).1 (find_empty_square solved).2 ∈ pre →
            solve_check st1.final_puzzle = true))
        (cands sq (find_empty_square solved).1 (find_empty_square solved).2)
        (some { final_puzzle := st.final_puzzle, calls := st.calls ++ [solved] })
        ⟨_, rfl, hf, fun h => by simp at h⟩
        (by
          rintro pre v suf acc hl ⟨st1, rfl, hw, hdone⟩
          have hvm : v ∈ cands sq (find_empty_square solved).1 (find_empty_square solved).2 := by
            rw [hl]; simp
          have hv0 : v ≠ 0 := (hgood _ f1 _ f2).ne_zero hvm
          have hlt := zeros_set2_lt hs f1 f2 f3 hv0
          rw [branch_step_some]
          by_cases hp : constraint_pass (set2 solved (find_empty_square solved).1
              (find_empty_square solved).2 v) (find_empty_square solved).1
              (find_empty_square solved).2 = true
          · rw [if_pos hp]
            by_cases hvS : cell S (find_empty_square solved).1 (find_empty_square solved).2 = v
            · have hsound' : Sound S (set2 solved (find_empty_square solved).1
                  (find_empty_square solved).2 v) sq := by
                intro r hr c hc''
                by_cases e : r = (find_empty_square solved).1 ∧ c = (find_empty_square solved).2
                · rw [e.1, e.2, cell_set2_self hs f1 f2]
                  exact ⟨fun _ => hvS.symm, fun h => absurd h hv0⟩
                · rw [cell_set2_ne _ _ e]
                  exact hsound r hr c hc''
              obtain ⟨st2, h2, h3⟩ := ih st1 (set2 solved (find_empty_square solved).1 (find_empty_square solved).2 v)
                hw (WF2_set2 hs _ _ _) hsound' (by omega)
              exact ⟨st2, h2, (search_final sq n st1 _ st2 hw (WF2_set2 hs _ _ _) h2).1,
                fun _ => h3⟩
            · obtain ⟨st2, h2⟩ := search_total sq hgood n st1
                (set2 solved (find_empty_square solved).1 (find_empty_square solved).2 v) hw
                (WF2_set2 hs _ _ _) (by omega)
              have hfin := search_final sq n st1 _ st2 hw (WF2_set2 hs _ _ _) h2
              refine ⟨st2, h2, hfin.1, fun hin => hfin.2 (hdone ?_)⟩
              rcases List.mem_append.mp hin with h | h
              · exact h
              · exact absurd (List.mem_singleton.mp h) hvS
          · rw [if_neg hp]
            refine ⟨st1, rfl, hw, fun hin => hdone ?_⟩
            rcases List.mem_append.mp hin with h | h
            · exact h
            · exfalso
              have hvS := List.mem_singleton.mp h
              apply hp
              rw [constraint_pass_iff _ f1 f2]
              intro r hr c hc'' hpeer
              rw [cell_set2_self hs f1 f2, cell_set2_ne _ _ hpeer.1]
              by_cases hz' : cell solved r c = 0
              · rw [hz']; exact fun h => hv0 h.symm
              · rw [(hsound r hr c hc'').1 hz', ← hvS]
                exact valid_peer hv f1 f2 hr hc'' hpeer)
      obtain ⟨st1, h1, -, h3⟩ := key
      exact ⟨st1, h1, h3 hSm⟩

/-! ## Entries in range, valid grids -/

theorem mem_nums {v : Int} : v ∈ nums ↔ 1 ≤ v ∧ v ≤ 9 := by
  simp only [nums, List.mem_cons, List.mem_singleton, List.not_mem_nil, or_false]
  omega

/-- A pass keeps the entries of the puzzle in `0..9`. -/
theorem pass_in_range {g : Grid} {sq : Cands} (hb : Base g sq) (hr : InRange g) :
    InRange (macro_box_iterate g sq).solved_puzzle := by
  have hset : ∀ (g : Grid) (r c : Nat) (v : Int), InRange g → 1 ≤ v ∧ v ≤ 9 →
      InRange (set2 g r c v) := by
    intro g r c v hg hv a ha b hb'
    rcases cell_set2_cases g r c a b v with e | e
    · rw [e]; omega
    · rw [e]; exact hg a ha b hb'
  refine (pass_inv (fun s => InRange s.solved_puzzle) ?_ ?_ g sq hb hr).2
  · intro st box_y box_x sub_y sub_x hy hx hsy hsx hbs hI
    have hr' : 3 * box_y + sub_y < 9 := by omega
    have hc' : 3 * box_x + sub_x < 9 := by omega
    by_cases hlen : (pruned st.solved_puzzle box_y box_x (3 * box_y + sub_y)
        (3 * box_x + sub_x)
        (cands st.square_list (3 * box_y + sub_y) (3 * box_x + sub_x))).length = 1
    · obtain ⟨v, hv⟩ := List.length_eq_one.mp hlen
      obtain ⟨e1, -, -, -⟩ := cell_step_assign hbs hy hx hsy hsx hv
      have hvm : v ∈ cands st.square_list (3 * box_y + sub_y) (3 * box_x + sub_x) := by
        have : v ∈ pruned st.solved_puzzle box_y box_x (3 * box_y + sub_y) (3 * box_x + sub_x)
            (cands st.square_list (3 * box_y + sub_y) (3 * box_x + sub_x)) := by
          rw [hv]; exact List.mem_singleton_self _
        exact (List.mem_filter.mp this).1
      rw [e1]
      exact hset _ _ _ _ hI ((hbs.2.2.1 _ hr' _ hc').range hvm)
    · rw [cell_step_keep hbs hy hx hsy hsx hlen]
      exact hI
  · intro st box_y box_x num hy hx _ hbs _ hI
    by_cases hlen : (holders num box_y box_x st.square_list).length = 1
    · obtain ⟨X, hX⟩ := List.length_eq_one.mp hlen
      obtain ⟨hXb, hXm⟩ := holders_single hX
      have hlt := box_cells_lt hy hx X hXb
      rw [unique_step_assign hbs.2.2.1 hy hx hX]
      exact hset _ _ _ _ hI ((hbs.2.2.1 _ hlt.1 _ hlt.2).range hXm)
    · rw [unique_step_keep hbs.2.2.1 hy hx hlen]
      exact hI

theorem perm_nums_of {l : List Int} (hnd : l.Nodup) (hlen : l.length = 9)
    (hmem : ∀ v ∈ l, 1 ≤ v ∧ v ≤ 9) : l.Perm nums := by
  apply List.Subperm.perm_of_length_le
  · exact List.subperm_of_subset hnd (fun v hv => mem_nums.mpr (hmem v hv))
  · rw [hlen]; decide

/-- A completed 9 by 9 grid with entries in `0..9` and no duplicate in any row,
column or box is a valid grid. -/
theorem complete_valid {g : Grid} (hg : WF2 g) (hfull : solve_check g = true)
    (hc : Consistent g) (hr : InRange g) : ValidGrid g := by
  have hnz := (solve_check_iff g).mp hfull
  have hrange : ∀ r < 9, ∀ c < 9, 1 ≤ cell g r c ∧ cell g r c ≤ 9 := by
    intro r hr' c hc'
    have := hr r hr' c hc'
    have := hnz r hr' c hc'
    omega
  refine ⟨hg, fun i hi => ⟨?_, ?_, ?_⟩⟩
  · apply perm_nums_of
    · unfold row_vals
      apply List.Nodup.map_on _ (List.nodup_range 9)
      intro a ha b hb he
      by_contra hne
      have ha' := List.mem_range.mp ha
      have hb' := List.mem_range.mp hb
      exact hc i hi a ha' i hi b hb' ⟨fun hh => hne hh.2.symm, Or.inl rfl⟩ (hnz i hi a ha')
        he.symm
    · simp [row_vals]
    · intro v hv
      unfold row_vals at hv
      obtain ⟨c, hc', rfl⟩ := List.mem_map.mp hv
      exact hrange i hi c (List.mem_range.mp hc')
  · apply perm_nums_of
    · unfold col_vals
      apply List.Nodup.map_on _ (List.nodup_range 9)
      intro a ha b hb he
      by_contra hne
      have ha' := List.mem_range.mp ha
      have hb' := List.mem_range.mp hb
      exact hc a ha' i hi b hb' i hi ⟨fun hh => hne hh.1.symm, Or.inr (Or.inl rfl)⟩
        (hnz a ha' i hi) he.symm
    · simp [col_vals]
    · intro v hv
      unfold col_vals at hv
      obtain ⟨r, hr', rfl⟩ := List.mem_map.mp hv
      exact hrange r (List.mem_range.mp hr') i hi
  · have hy : i / 3 < 3 := by omega
    have hx : i % 3 < 3 := by omega
    apply perm_nums_of
    · unfold box_vals
      apply List.Nodup.map_on _ (box_cells_nodup _ _)
      intro p hp q hq he
      by_contra hne
      have hp' := box_cells_lt hy hx p hp
      have hq' := box_cells_lt hy hx q hq
      have bp := mem_box_cells_iff.mp hp
      have bq := mem_box_cells_iff.mp hq
      exact hc p.1 hp'.1 p.2 hp'.2 q.1 hq'.1 q.2 hq'.2
        ⟨fun hh => hne (Prod.ext hh.1.symm hh.2.symm),
          Or.inr (Or.inr ⟨by rw [bp.1, bq.1], by rw [bp.2, bq.2]⟩)⟩
        (hnz _ hp'.1 _ hp'.2) he.symm
    · simp only [box_vals, box_cells, List.length_map]
      rfl
    · intro v hv
      unfold box_vals at hv
      obtain ⟨p, hp, rfl⟩ := List.mem_map.mp hv
      have hp' := box_cells_lt hy hx p hp
      exact hrange _ hp'.1 _ hp'.2

/-- A puzzle that a valid grid completes has no duplicate in any row, column or box. -/
theorem agrees_consistent {S x : Grid} (hv : ValidGrid S) (ha : Agrees S x) : Consistent x := by
  intro r hr c hc r' hr' c' hc' hp hne he
  have h1 := ha r hr c hc hne
  have h2 := ha r' hr' c' hc' (by rw [he]; exact hne)
  exact valid_peer hv hr hc hr' hc' hp (by rw [h1, h2, he])

theorem zeros_le (g : Grid) : zeros g ≤ 81 := by
  unfold zeros
  have : cells81.length = 81 := by decide
  rw [← this]
  exact List.countP_le_length _

theorem solve_check_zero_grid : solve_check zero_grid = false := by decide

/-! ## The depth-first order of the calls -/

theorem search_tree_succ (depth : Nat) (sq : Cands) (g : Grid) :
    search_tree (depth + 1) sq g =
      g :: (if solve_check g then []
        else
          ((cands sq (find_empty_square g).1 (find_empty_square g).2).filter
            (fun v => constraint_pass (set2 g (find_empty_square g).1 (find_empty_square g).2 v)
              (find_empty_square g).1 (find_empty_square g).2)).flatMap
            (fun v => search_tree depth sq
              (set2 g (find_empty_square g).1 (find_empty_square g).2 v))) := by
  rw [search_tree]

/-- The calls that `recursive_solve` makes are the depth-first enumeration
`search_tree`: every candidate that passes the constraints is explored. -/
theorem search_calls (sq : Cands) :
    ∀ (fuel : Nat) (st : Search) (solved : Grid) (st' : Search),
      WF2 st.final_puzzle → WF2 solved →
      recursive_solve fuel st solved sq = some st' →
      st'.calls = st.calls ++ search_tree fuel sq solved := by
  intro fuel
  induction fuel with
  | zero => intro st solved st' _ _ h; simp [recursive_solve] at h
  | succ n ih =>
    intro st solved st' hf hs h
    rw [recursive_solve_succ n st solved sq hf hs] at h
    rw [search_tree_succ]
    by_cases hc : solve_check solved = true
    · rw [if_pos hc] at h
      simp only [Option.some.injEq] at h
      subst h
      rw [if_pos hc]
    · rw [if_neg hc] at h
      rw [if_neg hc]
      have key := foldl_inv_indexed (branch_step n sq solved (find_empty_square solved))
        (fun pre acc => ∀ st1, acc = some st1 → WF2 st1.final_puzzle ∧
          st1.calls = st.calls ++ solved ::
            (pre.filter (fun v => constraint_pass
              (set2 solved (find_empty_square solved).1 (find_empty_square solved).2 v)
              (find_empty_square solved).1 (find_empty_square solved).2)).flatMap
              (fun v => search_tree n sq
                (set2 solved (find_empty_square solved).1 (find_empty_square solved).2 v)))
        (cands sq (find_empty_square solved).1 (find_empty_square solved).2)
        (some { final_puzzle := st.final_puzzle, calls := st.calls ++ [solved] })
        (by
          intro st1 h1
          simp only [Option.some.injEq] at h1
          subst h1
          exact ⟨hf, by simp⟩)
        (by
          intro pre v suf acc _ hacc st2 h2
          cases acc with
          | none => simp [branch_step_none] at h2
          | some st1 =>
            obtain ⟨hw, hcalls⟩ := hacc st1 rfl
            rw [branch_step_some] at h2
            rw [List.filter_append]
            by_cases hp : constraint_pass (set2 solved (find_empty_square solved).1
                (find_empty_square solved).2 v) (find_empty_square solved).1
                (find_empty_square solved).2 = true
            · rw [if_pos hp] at h2
              have := ih st1 _ st2 hw (WF2_set2 hs _ _ _) h2
              refine ⟨(search_final sq n st1 _ st2 hw (WF2_set2 hs _ _ _) h2).1, ?_⟩
              rw [this, hcalls]
              simp [List.filter, hp]
            · rw [if_neg hp] at h2
              simp only [Option.some.injEq] at h2
              subst h2
              refine ⟨hw, ?_⟩
              rw [hcalls]
              simp [List.filter, hp])
      exact (key st' h).2

/-! ## The solving part of `main` -/

theorem main_eq (fuel : Nat) (x : Grid) :
    main fuel x =
      (simplify_puzzle fuel (import_puzzle x fresh).solved_puzzle
        (import_puzzle x fresh).square_list).bind
        (fun s => recursive_solve fuel { final_puzzle := zero_grid, calls := [] }
          s.solved_puzzle s.square_list) := by
  unfold main fresh
  dsimp only
  split <;> rename_i h <;> rw [h] <;> rfl

theorem main_some {fuel : Nat} {x : Grid} {st : Search} (h : main fuel x = some st) :
    ∃ s, simplify_puzzle fuel (import_puzzle x fresh).solved_puzzle
        (import_puzzle x fresh).square_list = some s ∧
      recursive_solve fuel { final_puzzle := zero_grid, calls := [] } s.solved_puzzle
        s.square_list = some st := by
  rw [main_eq] at h
  exact Option.bind_eq_some.mp h

/-- The loop of `simplify_puzzle` on the imported puzzle ends when the fuel exceeds
the number of squares that are 0. -/
theorem simplify_total (x : Grid) {fuel : Nat} (hfuel : zeros x < fuel) :
    ∃ s, simplify_puzzle fuel (import_puzzle x fresh).solved_puzzle
        (import_puzzle x fresh).square_list = some s ∧ s.iteration ≤ zeros x + 2 := by
  obtain ⟨s, h1, h2⟩ := simplify_loop_total fuel _ _ 1 (import_base x)
    (by rw [import_open_count]; exact hfuel)
  rw [import_open_count] at h2
  exact ⟨s, h1, by omega⟩

/-- The solving part of `main` ends when the fuel is at least 82. -/
theorem main_total (x : Grid) {fuel : Nat} (hfuel : 82 ≤ fuel) :
    ∃ st, main fuel x = some st := by
  have hz := zeros_le x
  obtain ⟨s, h1, -⟩ := simplify_total x (by omega : zeros x < fuel)
  obtain ⟨hb, -, -⟩ := simplify_loop_inv (fun _ _ => True) (fun _ _ _ _ => trivial)
    fuel _ _ 1 s (import_base x) trivial h1
  have hz' := zeros_le s.solved_puzzle
  obtain ⟨st, h2⟩ := search_total s.square_list hb.2.2.1 fuel
    { final_puzzle := zero_grid, calls := [] } s.solved_puzzle WF2_zero_grid hb.1 (by omega)
  exact ⟨st, by rw [main_eq, h1]; exact h2⟩

theorem agrees_of_evolves {x : Grid} {s t : PState} (h : Evolves s t)
    (ha : Agrees s.solved_puzzle x) : Agrees t.solved_puzzle x := by
  intro r hr c hc hne
  have := ha r hr c hc hne
  rw [h.1 r c (by rw [this]; exact hne), this]

/-- The non-zero squares of the input keep their value through `simplify_puzzle`. -/
theorem simplify_agrees {x : Grid} (hx : WF2 x) {fuel : Nat} {s : Simplified}
    (h : simplify_puzzle fuel (import_puzzle x fresh).solved_puzzle
      (import_puzzle x fresh).square_list = some s) : Agrees s.solved_puzzle x := by
  refine (simplify_loop_inv (fun g _ => Agrees g x) ?_ fuel _ _ 1 s (import_base x) ?_ h).2.1
  · intro g sq hb ha
    exact agrees_of_evolves (pass_evolves hb).2 ha
  · rw [import_solved hx]
    intro r _ c _ _
    rfl

/-- Filling the first square that is 0 keeps the non-zero squares of the input. -/
theorem agrees_fill {x g : Grid} (ha : Agrees g x) (hc : solve_check g = false) (v : Int) :
    Agrees (set2 g (find_empty_square g).1 (find_empty_square g).2 v) x := by
  obtain ⟨-, -, f3, -⟩ := find_empty_square_spec hc
  intro r hr c hc' hne
  have h1 := ha r hr c hc' hne
  have hn : ¬ (r = (find_empty_square g).1 ∧ c = (find_empty_square g).2) := by
    rintro ⟨e1, e2⟩
    subst e1; subst e2
    rw [f3] at h1
    exact hne h1.symm
  rw [cell_set2_ne _ _ hn]
  exact h1

/-- The search keeps the puzzle free of duplicates and its entries in `0..9`. -/
theorem search_keeps_valid (sq : Cands) (hgood : GoodAll sq) (g : Grid) (v : Int)
    (hg : WF2 g) (hP : Consistent g ∧ InRange g) (hc : solve_check g = false)
    (hv : v ∈ cands sq (find_empty_square g).1 (find_empty_square g).2)
    (hp : constraint_pass (set2 g (find_empty_square g).1 (find_empty_square g).2 v)
      (find_empty_square g).1 (find_empty_square g).2 = true) :
    Consistent (set2 g (find_empty_square g).1 (find_empty_square g).2 v) ∧
    InRange (set2 g (find_empty_square g).1 (find_empty_square g).2 v) := by
  obtain ⟨f1, f2, f3, -⟩ := find_empty_square_spec hc
  have hrange := (hgood _ f1 _ f2).range hv
  constructor
  · apply consistent_assign hg hP.1 f1 f2
    intro hseen
    rcases seen_sight f1 f2 hseen with e | ⟨r, hr, c, hc', hpeer, e⟩
    · rw [f3] at e; omega
    · have := (constraint_pass_iff _ f1 f2).mp hp r hr c hc' hpeer
      rw [cell_set2_self hg f1 f2, cell_set2_ne _ _ hpeer.1] at this
      exact this e
  · intro a ha b hb
    rcases cell_set2_cases g (find_empty_square g).1 (find_empty_square g).2 a b v with e | e
    · rw [e]; omega
    · rw [e]; exact hP.2 a ha b hb

theorem simplify_eq_loop (fuel : Nat) (g : Grid) (sq : Cands) :
    simplify_puzzle fuel g sq = simplify_loop fuel g sq 1 := rfl

/-- The state that `simplify_puzzle` returns satisfies the invariant, is at the
fixpoint, and has kept what every pass keeps. -/
theorem simplify_inv (J : Grid → Cands → Prop)
    (hJ : ∀ g sq, Base g sq → J g sq →
      J (macro_box_iterate g sq).solved_puzzle (macro_box_iterate g sq).square_list)
    {x : Grid} {fuel : Nat} {s : Simplified}
    (h : simplify_puzzle fuel (import_puzzle x fresh).solved_puzzle
      (import_puzzle x fresh).square_list = some s)
    (h0 : J (import_puzzle x fresh).solved_puzzle (import_puzzle x fresh).square_list) :
    Base s.solved_puzzle s.square_list ∧ J s.solved_puzzle s.square_list ∧
      Stable s.solved_puzzle s.square_list :=
  simplify_loop_inv J hJ fuel _ _ 1 s (import_base x) h0 h

/-- After import, no valid grid that agrees with the input is excluded. -/
theorem import_sound {x S : Grid} (hx : WF2 x) (hS : ValidGrid S) (ha : Agrees S x) :
    Sound S (import_puzzle x fresh).solved_puzzle (import_puzzle x fresh).square_list := by
  obtain ⟨-, -, -, h⟩ := import_puzzle_spec x
  rw [import_solved hx]
  intro r hr c hc
  refine ⟨fun hne => (ha r hr c hc hne).symm, fun hz => ?_⟩
  rw [(h r hr c hc).2.2, if_pos hz]
  exact mem_nums.mpr (valid_range hS hr hc)

/-! ## The search step and its zero count -/

theorem countP_succ_of {α : Type} (p q : α → Bool) {l : List α} {a : α} (hnd : l.Nodup)
    (ha : a ∈ l) (hp : p a = true) (hq : q a = false)
    (hother : ∀ x ∈ l, x ≠ a → q x = p x) : l.countP q + 1 = l.countP p := by
  induction l with
  | nil => simp at ha
  | cons y t ih =>
    have hy : y ∉ t := (List.nodup_cons.mp hnd).1
    have ht : t.Nodup := (List.nodup_cons.mp hnd).2
    by_cases e : y = a
    · subst e
      rw [List.countP_cons_of_pos _ _ hp, List.countP_cons_of_neg _ _ (by simp [hq])]
      have : t.countP q = t.countP p := by
        apply List.countP_congr
        intro x hx
        have hne : x ≠ y := by
          rintro rfl
          exact hy hx
        rw [hother x (List.mem_cons_of_mem _ hx) hne]
      omega
    · have ha' : a ∈ t := by
        rcases List.mem_cons.mp ha with h | h
        · exact absurd h.symm e
        · exact h
      have := ih ht ha' (fun x hx hne => hother x (List.mem_cons_of_mem _ hx) hne)
      have hqy := hother y (List.mem_cons_self _ _) e
      by_cases hpy : p y = true
      · rw [List.countP_cons_of_pos _ _ hpy, List.countP_cons_of_pos _ _ (by rw [hqy]; exact hpy)]
        omega
      · rw [List.countP_cons_of_neg _ _ hpy, List.countP_cons_of_neg _ _ (by rw [hqy]; exact hpy)]
        exact this

/-- Filling a zero square with a non-zero value removes exactly one zero. -/
theorem zeros_set2_eq {g : Grid} (hg : WF2 g) {r c : Nat} (hr : r < 9) (hc : c < 9)
    (hz : cell g r c = 0) {v : Int} (hv : v ≠ 0) : zeros (set2 g r c v) + 1 = zeros g := by
  unfold zeros
  apply countP_succ_of _ _ cells81_nodup (mem_cells81.mpr ⟨hr, hc⟩)
  · simpa using hz
  · simp only [decide_eq_false_iff_not]
    rw [cell_set2_self hg hr hc]
    exact hv
  · intro p _ hne
    have hn : ¬ (p.1 = r ∧ p.2 = c) := fun hh => hne (Prod.ext hh.1 hh.2)
    rw [cell_set2_ne _ _ hn]

/-- Termination of the search for candidate lists without the value 0. -/
theorem search_total_nz (sq : Cands) (hnz : ∀ r < 9, ∀ c < 9, ∀ v ∈ cands sq r c, v ≠ 0) :
    ∀ (fuel : Nat) (st : Search) (solved : Grid),
      WF2 st.final_puzzle → WF2 solved → zeros solved < fuel →
      ∃ st', recursive_solve fuel st solved sq = some st' := by
  intro fuel
  induction fuel with
  | zero => intro st solved _ _ h; omega
  | succ n ih =>
    intro st solved hf hs hz
    rw [recursive_solve_succ n st solved sq hf hs]
    by_cases hc : solve_check solved = true
    · rw [if_pos hc]; exact ⟨_, rfl⟩
    · rw [if_neg hc]
      have hc' : solve_check solved = false := by simpa using hc
      obtain ⟨f1, f2, f3, -⟩ := find_empty_square_spec hc'
      have key := foldl_inv (branch_step n sq solved (find_empty_square solved))
        (fun acc => ∃ st1, acc = some st1 ∧ WF2 st1.final_puzzle)
        (cands sq (find_empty_square solved).1 (find_empty_square solved).2)
        (some { final_puzzle := st.final_puzzle, calls := st.calls ++ [solved] })
        ⟨_, rfl, hf⟩
        (by
          rintro acc v hv ⟨st1, rfl, hw⟩
          rw [branch_step_some]
          by_cases hp : constraint_pass (set2 solved (find_empty_square solved).1
              (find_empty_square solved).2 v) (find_empty_square solved).1
              (find_empty_square solved).2 = true
          · rw [if_pos hp]
            have hlt := zeros_set2_lt hs f1 f2 f3 (hnz _ f1 _ f2 v hv)
            obtain ⟨st2, h2⟩ := ih st1
              (set2 solved (find_empty_square solved).1 (find_empty_square solved).2 v) hw
              (WF2_set2 hs _ _ _) (by omega)
            exact ⟨st2, h2, (search_final sq n st1 _ st2 hw (WF2_set2 hs _ _ _) h2).1⟩
          · rw [if_neg hp]
            exact ⟨st1, rfl, hw⟩)
      obtain ⟨st1, h1, -⟩ := key
      exact ⟨st1, h1⟩

/-- The test of lines 319-350 on the copy with `v` filled in, in terms of `g`. -/
theorem constraint_pass_set2 {g : Grid} (hg : WF2 g) {rs cs : Nat} (hr : rs < 9) (hc : cs < 9)
    (v : Int) :
    constraint_pass (set2 g rs cs v) rs cs =
      decide (∀ r : Nat, r < 9 → ∀ c : Nat, c < 9 → Peer rs cs r c → cell g r c ≠ v) := by
  rw [Bool.eq_iff_iff, constraint_pass_iff _ hr hc, decide_eq_true_iff]
  constructor
  · intro h r hr' c hc' hp
    have := h r hr' c hc' hp
    rw [cell_set2_self hg hr hc, cell_set2_ne _ _ hp.1] at this
    exact this
  · intro h r hr' c hc' hp
    rw [cell_set2_self hg hr hc, cell_set2_ne _ _ hp.1]
    exact h r hr' c hc' hp

theorem foldl_branch_direct (fuel : Nat) (sq : Cands) (g : Grid) (start : Nat × Nat)
    (cond : Int → Bool)
    (hcond : ∀ v, constraint_pass (set2 g start.1 start.2 v) start.1 start.2 = cond v) :
    ∀ (l : List Int) (acc : Option Search),
      l.foldl (branch_step fuel sq g start) acc =
        ((l.filter cond).map (fun v => set2 g start.1 start.2 v)).foldl
          (fun acc t => acc.bind (fun st1 => recursive_solve fuel st1 t sq)) acc := by
  intro l
  induction l with
  | nil => intro acc; rfl
  | cons v l ih =>
    intro acc
    rw [List.foldl_cons, ih]
    by_cases hv : cond v = true
    · rw [List.filter_cons_of_pos hv, List.map_cons, List.foldl_cons]
      cases acc with
      | none => rfl
      | some st1 =>
        rw [branch_step_some, hcond, if_pos hv]
        rfl
    · rw [List.filter_cons_of_neg hv]
      cases acc with
      | none => rfl
      | some st1 =>
        rw [branch_step_some, hcond, if_neg hv]

/-- One call of `recursive_solve` on a grid with a zero square: the recursive
calls are made on the grids `direct_calls`, in this order. -/
theorem recursive_solve_direct (fuel : Nat) (st : Search) (g : Grid) (sq : Cands)
    (hf : WF2 st.final_puzzle) (hg : WF2 g) (hz : solve_check g = false) :
    recursive_solve (fuel + 1) st g sq =
      (direct_calls sq g).foldl
        (fun acc t => acc.bind (fun st1 => recursive_solve fuel st1 t sq))
        (some { final_puzzle := st.final_puzzle, calls := st.calls ++ [g] }) := by
  obtain ⟨f1, f2, -, -⟩ := find_empty_square_spec hz
  rw [recursive_solve_succ fuel st g sq hf hg, if_neg (by simp [hz])]
  exact foldl_branch_direct fuel sq g (find_empty_square g) _
    (fun v => constraint_pass_set2 hg f1 f2 v) _ _

/-! ## The last solution is the greatest -/

/-- The candidate that a valid grid compatible with the puzzle has at the first
zero square passes the constraints. -/
theorem sound_pass {S g : Grid} {sq : Cands} (hv : ValidGrid S) (hg : WF2 g)
    (hs : Sound S g sq) (hc : solve_check g = false) :
    constraint_pass (set2 g (find_empty_square g).1 (find_empty_square g).2
      (cell S (find_empty_square g).1 (find_empty_square g).2))
      (find_empty_square g).1 (find_empty_square g).2 = true := by
  obtain ⟨f1, f2, f3, -⟩ := find_empty_square_spec hc
  rw [constraint_pass_iff _ f1 f2]
  intro r hr c hc' hpeer
  rw [cell_set2_self hg f1 f2, cell_set2_ne _ _ hpeer.1]
  by_cases hz' : cell g r c = 0
  · rw [hz']
    have := valid_range hv f1 f2
    omega
  · rw [(hs r hr c hc').1 hz']
    exact valid_peer hv f1 f2 hr hc' hpeer

theorem sound_fill {S g : Grid} {sq : Cands} (hv : ValidGrid S) (hg : WF2 g)
    (hs : Sound S g sq) (hc : solve_check g = false) :
    Sound S (set2 g (find_empty_square g).1 (find_empty_square g).2
      (cell S (find_empty_square g).1 (find_empty_square g).2)) sq := by
  obtain ⟨f1, f2, f3, -⟩ := find_empty_square_spec hc
  intro r hr c hc''
  by_cases e : r = (find_empty_square g).1 ∧ c = (find_empty_square g).2
  · rw [e.1, e.2, cell_set2_self hg f1 f2]
    refine ⟨fun _ => rfl, fun h => ?_⟩
    have := valid_range hv f1 f2
    omega
  · rw [cell_set2_ne _ _ e]
    exact hs r hr c hc''

/-- The final puzzle after the search is at least, in the lexicographic order,
every valid grid that is compatible with the puzzle and the candidate lists. -/
theorem search_greatest (sq : Cands) (hgood : GoodAll sq) :
    ∀ (fuel : Nat) (st : Search) (g : Grid) (st' : Search),
      WF2 st.final_puzzle → WF2 g → recursive_solve fuel st g sq = some st' →
      ∀ S, ValidGrid S → Sound S g sq → LexLe S st'.final_puzzle := by
  intro fuel
  induction fuel with
  | zero => intro st g st' _ _ h; simp [recursive_solve] at h
  | succ n ih =>
    intro st g st' hf hg h S hS hsound
    rw [recursive_solve_succ n st g sq hf hg] at h
    by_cases hc : solve_check g = true
    · rw [if_pos hc] at h
      simp only [Option.some.injEq] at h
      subst h
      left
      intro r hr c hc'
      exact ((hsound r hr c hc').1 ((solve_check_iff g).mp hc r hr c hc')).symm
    · rw [if_neg hc] at h
      have hc' : solve_check g = false := by simpa using hc
      obtain ⟨f1, f2, f3, f4⟩ := find_empty_square_spec hc'
      have hasc : (cands sq (find_empty_square g).1 (find_empty_square g).2).Pairwise
          (· < ·) := List.Pairwise.sublist (hgood _ f1 _ f2) (by decide)
      have key := foldl_inv_indexed (branch_step n sq g (find_empty_square g))
        (fun pre acc => ∀ st1, acc = some st1 → WF2 st1.final_puzzle ∧
          ∀ S, ValidGrid S → Sound S g sq →
            cell S (find_empty_square g).1 (find_empty_square g).2 ∈ pre →
            LexLe S st1.final_puzzle)
        (cands sq (find_empty_square g).1 (find_empty_square g).2)
        (some { final_puzzle := st.final_puzzle, calls := st.calls ++ [g] })
        (by
          intro st1 h1
          simp only [Option.some.injEq] at h1
          subst h1
          exact ⟨hf, fun _ _ _ hin => by simp at hin⟩)
        (by
          intro pre v suf acc hl hacc st2 h2
          cases acc with
          | none => simp [branch_step_none] at h2
          | some st1 =>
            obtain ⟨hw, hinv⟩ := hacc st1 rfl
            rw [branch_step_some] at h2
            have hlt : ∀ w ∈ pre, w < v := by
              rw [hl] at hasc
              intro w hw'
              exact (List.pairwise_append.mp hasc).2.2 w hw' v (List.mem_cons_self _ _)
            by_cases hp : constraint_pass (set2 g (find_empty_square g).1
                (find_empty_square g).2 v) (find_empty_square g).1
                (find_empty_square g).2 = true
            · rw [if_pos hp] at h2
              have hwt : WF2 (set2 g (find_empty_square g).1 (find_empty_square g).2 v) :=
                WF2_set2 hg _ _ _
              obtain ⟨new, -, n2, n3, n4⟩ := search_inv sq
                (fun u => Agrees u (set2 g (find_empty_square g).1 (find_empty_square g).2 v))
                (fun u w _ hP hcu _ _ => agrees_fill hP hcu w) n st1 _ st2 hw hwt
                (fun _ _ _ _ _ => rfl) h2
              refine ⟨n4, ?_⟩
              intro S' hS' hsound' hin
              rcases List.mem_append.mp hin with hin | hin
              · rcases last_solution_cases
                  (set2 g (find_empty_square g).1 (find_empty_square g).2 v :: new)
                  st1.final_puzzle with e | ⟨e1, -⟩
                · rw [n3, e]
                  exact hinv S' hS' hsound' hin
                · rw [← n3] at e1
                  have hag : Agrees st2.final_puzzle
                      (set2 g (find_empty_square g).1 (find_empty_square g).2 v) := by
                    rcases List.mem_cons.mp e1 with e | e
                    · rw [e]; exact fun _ _ _ _ _ => rfl
                    · exact (n2 _ e).2
                  have hv0 : v ≠ 0 :=
                    (hgood _ f1 _ f2).ne_zero (by rw [hl]; simp)
                  right
                  refine ⟨_, f1, _, f2, ?_, ?_⟩
                  · have := hag _ f1 _ f2 (by rw [cell_set2_self hg f1 f2]; exact hv0)
                    rw [this, cell_set2_self hg f1 f2]
                    exact hlt _ hin
                  · intro r' hr' c' hc'' hbefore
                    have hnz := f4 r' hr' c' hc'' hbefore
                    have hne : ¬ (r' = (find_empty_square g).1 ∧
                        c' = (find_empty_square g).2) := by
                      rintro ⟨e1', e2'⟩
                      rw [e1', e2'] at hnz
                      exact hnz f3
                    have := hag r' hr' c' hc'' (by rw [cell_set2_ne _ _ hne]; exact hnz)
                    rw [this, cell_set2_ne _ _ hne]
                    exact ((hsound' r' hr' c' hc'').1 hnz).symm
              · have hvS := List.mem_singleton.mp hin
                have hsf := sound_fill hS' hg hsound' hc'
                rw [hvS] at hsf
                exact ih st1 _ st2 hw hwt h2 S' hS' hsf
            · rw [if_neg hp] at h2
              simp only [Option.some.injEq] at h2
              subst h2
              refine ⟨hw, ?_⟩
              intro S' hS' hsound' hin
              rcases List.mem_append.mp hin with hin | hin
              · exact hinv S' hS' hsound' hin
              · exfalso
                have hvS := List.mem_singleton.mp hin
                have := sound_pass hS' hg hsound' hc'
                rw [hvS] at this
                exact hp this)
      exact (key st' h).2 S hS hsound ((hsound _ f1 _ f2).2 f3)

/-! ## Concrete runs of the program -/

theorem valid_solved_grid : ValidGrid solved_grid := by decide

theorem main_one_blank :
    main 2 one_blank = some { final_puzzle := solved_grid, calls := [solved_grid] } := by
  decide!

/-! ## The claims -/

/-- C1 (validity): for every 9 by 9 input grid with entries in 0..9 whose non-zero
entries contain no duplicate in any row, column or box, if the solving part of
`main` (import, `simplify_puzzle`, `recursive_solve`) leaves a grid without a
zero square in `final_puzzle`, then each of the 9 rows, 9 columns and 9 boxes of
`final_puzzle` is a permutation of 1..9. -/
theorem validity (x : Grid) (hx : WF2 x) (hr : InRange x) (hc : Consistent x)
    (fuel : Nat) (st : Search) (h : main fuel x = some st)
    (hfull : solve_check st.final_puzzle = true) :
    ∀ i < 9, (row_vals st.final_puzzle i).Perm nums ∧ (col_vals st.final_puzzle i).Perm nums ∧
      (box_vals st.final_puzzle i).Perm nums := by
  obtain ⟨s, h1, h2⟩ := main_some h
  obtain ⟨hb, ⟨hc', hr'⟩, -⟩ := simplify_inv (fun g _ => Consistent g ∧ InRange g)
    (fun g sq hb hJ => ⟨pass_consistent hb hJ.1, pass_in_range hb hJ.2⟩) h1
    (by rw [import_solved hx]; exact ⟨hc, hr⟩)
  obtain ⟨new, -, n2, n3, n4⟩ := search_inv s.square_list (fun g => Consistent g ∧ InRange g)
    (search_keeps_valid s.square_list hb.2.2.1) fuel _ s.solved_puzzle st WF2_zero_grid hb.1
    ⟨hc', hr'⟩ h2
  have hin : Consistent st.final_puzzle ∧ InRange st.final_puzzle := by
    rcases last_solution_cases (s.solved_puzzle :: new) zero_grid with e | ⟨e, -⟩
    · rw [n3, e, solve_check_zero_grid] at hfull
      exact absurd hfull (by simp)
    · rw [← n3] at e
      rcases List.mem_cons.mp e with e | e
      · rw [e]; exact ⟨hc', hr'⟩
      · exact (n2 _ e).2
  exact (complete_valid n4 hfull hin.1 hin.2).2

/-- Witness of C1: the puzzle `one_blank`, which the program completes to
`solved_grid`. -/
theorem validity_witness :
    WF2 one_blank ∧ InRange one_blank ∧
    main 2 one_blank = some { final_puzzle := solved_grid, calls := [solved_grid] } ∧
    ∀ i < 9, (row_vals solved_grid i).Perm nums ∧ (col_vals solved_grid i).Perm nums ∧
      (box_vals solved_grid i).Perm nums :=
  ⟨by decide, by decide, main_one_blank,
    validity one_blank (by decide) (by decide)
      (agrees_consistent valid_solved_grid (by decide)) 2
      { final_puzzle := solved_grid, calls := [solved_grid] } main_one_blank (by decide)⟩

/-- C2 (completeness): for every 9 by 9 input grid that has at least one valid
completion (a valid grid that agrees with the input on every non-zero square),
the solving part of `main` ends (with any fuel from 82 on) and leaves a grid
without a zero square in `final_puzzle`. -/
theorem completeness (x S : Grid) (hx : WF2 x) (hS : ValidGrid S) (ha : Agrees S x)
    (fuel : Nat) (hfuel : 82 ≤ fuel) :
    ∃ st, main fuel x = some st ∧ solve_check st.final_puzzle = true := by
  have hz := zeros_le x
  obtain ⟨s, h1, -⟩ := simplify_total x (by omega : zeros x < fuel)
  obtain ⟨hb, hsound, -⟩ := simplify_inv (fun g sq => Sound S g sq)
    (fun g sq hb hJ => pass_sound hS hb hJ) h1 (import_sound hx hS ha)
  have hz' := zeros_le s.solved_puzzle
  obtain ⟨st, h2, h3⟩ := search_complete s.square_list hb.2.2.1 hS fuel
    { final_puzzle := zero_grid, calls := [] } s.solved_puzzle WF2_zero_grid hb.1 hsound
    (by omega)
  exact ⟨st, by rw [main_eq, h1]; exact h2, h3⟩

/-- Witness of C2: the all-zero grid, which `solved_grid` completes. -/
theorem completeness_witness :
    WF2 zero_grid ∧ ValidGrid solved_grid ∧ Agrees solved_grid zero_grid ∧
    ∃ st, main 82 zero_grid = some st ∧ solve_check st.final_puzzle = true :=
  ⟨by decide, valid_solved_grid, by decide,
    completeness zero_grid solved_grid (by decide) valid_solved_grid (by decide) 82
      (le_refl _)⟩

/-- C3 (consistency with the input): for every 9 by 9 input grid, every square
that is non-zero in the input has the same value in the grid that
`simplify_puzzle` returns, in the grid of every call of `recursive_solve`, and
in `final_puzzle` whenever a grid was written to it (it is the all-zero grid
otherwise). -/
theorem givens_kept (x : Grid) (hx : WF2 x) (fuel : Nat) :
    (∀ s, simplify_puzzle fuel (import_puzzle x fresh).solved_puzzle
        (import_puzzle x fresh).square_list = some s → Agrees s.solved_puzzle x) ∧
    (∀ st, main fuel x = some st →
      (∀ t ∈ st.calls, Agrees t x) ∧
      (st.final_puzzle = zero_grid ∨
        (solve_check st.final_puzzle = true ∧ Agrees st.final_puzzle x))) := by
  refine ⟨fun s h => simplify_agrees hx h, fun st h => ?_⟩
  obtain ⟨s, h1, h2⟩ := main_some h
  have hb := (simplify_inv (fun _ _ => True) (fun _ _ _ _ => trivial) h1 trivial).1
  have hag := simplify_agrees hx h1
  obtain ⟨new, n1, n2, n3, -⟩ := search_inv s.square_list (fun g => Agrees g x)
    (fun g v _ hP hc _ _ => agrees_fill hP hc v) fuel _ s.solved_puzzle st WF2_zero_grid hb.1
    hag h2
  have hall : ∀ t ∈ s.solved_puzzle :: new, Agrees t x := by
    intro t ht
    rcases List.mem_cons.mp ht with e | e
    · rw [e]; exact hag
    · exact (n2 t e).2
  refine ⟨?_, ?_⟩
  · intro t ht
    rw [n1] at ht
    exact hall t (by simpa using ht)
  · rcases last_solution_cases (s.solved_puzzle :: new) zero_grid with e | ⟨e1, e2⟩
    · exact Or.inl (by rw [n3, e])
    · rw [← n3] at e1 e2
      exact Or.inr ⟨e2, hall _ e1⟩

/-- Witness of C3: the puzzle `one_blank`. -/
theorem givens_kept_witness :
    WF2 one_blank ∧
    (∀ s, simplify_puzzle 2 (import_puzzle one_blank fresh).solved_puzzle
        (import_puzzle one_blank fresh).square_list = some s →
        Agrees s.solved_puzzle one_blank) ∧
    (∀ st, main 2 one_blank = some st →
      (∀ t ∈ st.calls, Agrees t one_blank) ∧
      (st.final_puzzle = zero_grid ∨
        (solve_check st.final_puzzle = true ∧ Agrees st.final_puzzle one_blank))) :=
  ⟨by decide, givens_kept one_blank (by decide) 2⟩

/-- The final puzzle after a call of `recursive_solve` is the last completed grid
of the depth-first enumeration of its calls. -/
theorem search_result (sq : Cands) (fuel : Nat) (st : Search) (solved : Grid) (st' : Search)
    (hf : WF2 st.final_puzzle) (hs : WF2 solved)
    (h : recursive_solve fuel st solved sq = some st') :
    st'.calls = st.calls ++ search_tree fuel sq solved ∧
    st'.final_puzzle = last_solution (search_tree fuel sq solved) st.final_puzzle := by
  have h1 := search_calls sq fuel st solved st' hf hs h
  obtain ⟨new, n1, -, n3, -⟩ := search_inv sq (fun _ => True)
    (fun _ _ _ _ _ _ _ => trivial) fuel st solved st' hf hs trivial h
  refine ⟨h1, ?_⟩
  rw [n1] at h1
  rw [n3, List.append_cancel_left h1]

theorem not_valid_zero_grid : ¬ ValidGrid zero_grid := by
  intro h
  have := valid_range h (by decide : 0 < 9) (by decide : 0 < 9)
  rw [cell_zero_grid] at this
  omega

/-- C4, the counterexample: the grid `double_five` has the value 5 twice in row 0,
and the program writes the completed grid `double_five_out`, which is not valid,
to `final_puzzle`. -/
theorem duplicate_row_counterexample :
    InRange double_five ∧ cell double_five 0 0 = cell double_five 0 1 ∧
    cell double_five 0 0 ≠ 0 ∧
    main 82 double_five =
      some { final_puzzle := double_five_out, calls := [double_five_out] } ∧
    double_five_out ≠ zero_grid ∧ solve_check double_five_out = true ∧
    ¬ ValidGrid double_five_out := by
  decide!

/-- C4, as amended: for every 9 by 9 input grid that has two identical non-zero
values in the same row, the solving part of `main` ends (with any fuel from 82
on) and what it leaves in `final_puzzle` is never a valid grid: either the
all-zero grid `final_puzzle` was created with (nothing was written), or a grid
without zero square that still has the two identical values in that row. -/
theorem duplicate_row (x : Grid) (hx : WF2 x) (r c1 c2 : Nat) (hr : r < 9) (h1 : c1 < 9)
    (h2 : c2 < 9) (hne : c1 ≠ c2) (hdup : cell x r c1 = cell x r c2)
    (hnz : cell x r c1 ≠ 0) (fuel : Nat) :
    (82 ≤ fuel → ∃ st, main fuel x = some st) ∧
    ∀ st, main fuel x = some st →
      ¬ ValidGrid st.final_puzzle ∧
      (st.final_puzzle = zero_grid ∨
        (solve_check st.final_puzzle = true ∧ cell st.final_puzzle r c1 = cell x r c1 ∧
          cell st.final_puzzle r c2 = cell x r c1)) := by
  refine ⟨fun hfuel => main_total x hfuel, fun st h => ?_⟩
  obtain ⟨s, hs1, hs2⟩ := main_some h
  have hb := (simplify_inv (fun _ _ => True) (fun _ _ _ _ => trivial) hs1 trivial).1
  have hag := simplify_agrees hx hs1
  obtain ⟨new, -, n2, n3, -⟩ := search_inv s.square_list (fun g => Agrees g x)
    (fun g v _ hP hc _ _ => agrees_fill hP hc v) fuel _ s.solved_puzzle st WF2_zero_grid hb.1
    hag hs2
  rcases last_solution_cases (s.solved_puzzle :: new) zero_grid with e | ⟨e1, e2⟩
  · rw [← n3] at e
    exact ⟨by rw [e]; exact not_valid_zero_grid, Or.inl e⟩
  · rw [← n3] at e1 e2
    have ha : Agrees st.final_puzzle x := by
      rcases List.mem_cons.mp e1 with e | e
      · rw [e]; exact hag
      · exact (n2 _ e).2
    have a1 := ha r hr c1 h1 hnz
    have a2 := ha r hr c2 h2 (by rw [← hdup]; exact hnz)
    refine ⟨fun hv => ?_, Or.inr ⟨e2, a1, by rw [a2, hdup]⟩⟩
    exact valid_peer hv hr h1 hr h2 ⟨fun hh => hne hh.2.symm, Or.inl rfl⟩
      (by rw [a1, a2, hdup])

/-- Witness of the amended C4: the grid `double_five`. -/
theorem duplicate_row_witness :
    WF2 double_five ∧ cell double_five 0 0 = cell double_five 0 1 ∧
    cell double_five 0 0 ≠ 0 ∧
    (82 ≤ 82 → ∃ st, main 82 double_five = some st) ∧
    ∀ st, main 82 double_five = some st →
      ¬ ValidGrid st.final_puzzle ∧
      (st.final_puzzle = zero_grid ∨
        (solve_check st.final_puzzle = true ∧
          cell st.final_puzzle 0 0 = cell double_five 0 0 ∧
          cell st.final_puzzle 0 1 = cell double_five 0 0)) :=
  ⟨by decide, by decide, by decide,
    duplicate_row double_five (by decide) 0 0 1 (by decide) (by decide) (by decide)
      (by decide) (by decide) (by decide) 82⟩

/-- C5, the counterexample: on the puzzle `two_solutions` the search reaches the
completed grid `solved_grid` first and `second_solution` after it, and
`final_puzzle` ends as `second_solution`: the first solution does not win. -/
theorem first_solution_counterexample :
    (main 82 two_solutions).map (fun st => (st.calls.filter solve_check, st.final_puzzle)) =
      some ([solved_grid, second_solution], second_solution) ∧
    second_solution ≠ solved_grid := by
  decide!

/-- C5, as amended: the grids of the calls of `recursive_solve` are the whole
depth-first enumeration `search_tree` (first square that is 0 in row-major
order, candidates in list order, every candidate that passes the constraints,
also after a completed grid has been reached), and `final_puzzle` ends as the
last completed grid of that enumeration; it is unchanged when there is none. -/
theorem last_solution_wins (sq : Cands) (fuel : Nat) (st : Search) (solved : Grid)
    (st' : Search) (hf : WF2 st.final_puzzle) (hs : WF2 solved)
    (h : recursive_solve fuel st solved sq = some st') :
    st'.calls = st.calls ++ search_tree fuel sq solved ∧
    st'.final_puzzle =
      (((search_tree fuel sq solved).filter solve_check).getLast?).getD st.final_puzzle := by
  obtain ⟨h1, h2⟩ := search_result sq fuel st solved st' hf hs h
  exact ⟨h1, by rw [h2, last_solution_eq]⟩

theorem search_two_solutions :
    recursive_solve 5 { final_puzzle := zero_grid, calls := [] } two_solutions
        two_solutions_lists =
      some { final_puzzle := second_solution,
             calls := search_tree 5 two_solutions_lists two_solutions } := by
  decide!

/-- Witness of the amended C5: the search on `two_solutions` with the candidate
lists that propagation leaves for it. -/
theorem last_solution_wins_witness :
    WF2 zero_grid ∧ WF2 two_solutions ∧
    search_tree 5 two_solutions_lists two_solutions =
      [] ++ search_tree 5 two_solutions_lists two_solutions ∧
    second_solution =
      (((search_tree 5 two_solutions_lists two_solutions).filter solve_check).getLast?).getD
        zero_grid :=
  ⟨by decide, by decide,
    last_solution_wins two_solutions_lists 5 { final_puzzle := zero_grid, calls := [] }
      two_solutions
      { final_puzzle := second_solution,
        calls := search_tree 5 two_solutions_lists two_solutions }
      (by decide) (by decide) search_two_solutions⟩

theorem main_no_solution :
    main 82 no_solution = some { final_puzzle := zero_grid, calls := [no_solution] } := by
  decide!

/-- C6, the counterexample: the puzzle `no_solution` has no duplicate and no
solution; the search makes one call, on a grid that is not completed, and what
`main` then displays and saves is `final_puzzle`, the all-zero grid. -/
theorem no_signal_counterexample :
    InRange no_solution ∧
    main 82 no_solution = some { final_puzzle := zero_grid, calls := [no_solution] } ∧
    solve_check no_solution = false :=
  ⟨by decide, main_no_solution, by decide⟩

/-- C6, as amended: for every 9 by 9 input grid on which the search reaches no
completed grid, `final_puzzle` is left as the all-zero grid it was created with,
never a partially filled grid; that grid is what `main` delivers, there is no
separate signal. -/
theorem failure_leaves_zero_grid (x : Grid) (fuel : Nat) (st : Search)
    (h : main fuel x = some st) (hnone : ∀ t ∈ st.calls, solve_check t = false) :
    st.final_puzzle = zero_grid := by
  obtain ⟨s, hs1, hs2⟩ := main_some h
  have hb := (simplify_inv (fun _ _ => True) (fun _ _ _ _ => trivial) hs1 trivial).1
  obtain ⟨new, n1, -, n3, -⟩ := search_inv s.square_list (fun _ => True)
    (fun _ _ _ _ _ _ _ => trivial) fuel _ s.solved_puzzle st WF2_zero_grid hb.1 trivial hs2
  rcases last_solution_cases (s.solved_puzzle :: new) zero_grid with e | ⟨e1, e2⟩
  · rw [n3, e]
  · rw [← n3] at e1 e2
    have := hnone st.final_puzzle (by rw [n1]; simpa using e1)
    rw [this] at e2
    exact absurd e2 (by simp)

/-- Witness of the amended C6: the puzzle `no_solution`. -/
theorem failure_leaves_zero_grid_witness :
    main 82 no_solution = some { final_puzzle := zero_grid, calls := [no_solution] } ∧
    (∀ t ∈ [no_solution], solve_check t = false) ∧
    ({ final_puzzle := zero_grid, calls := [no_solution] } : Search).final_puzzle = zero_grid :=
  ⟨main_no_solution, by decide,
    failure_leaves_zero_grid no_solution 82
      { final_puzzle := zero_grid, calls := [no_solution] } main_no_solution (by decide)⟩

/-- C7 (no partial result): for all 9 by 9 grids and every candidate collection,
after `recursive_solve` returns, `final_puzzle` either is unchanged or has no
zero square. -/
theorem no_partial_result (sq : Cands) (fuel : Nat) (st : Search) (solved : Grid)
    (st' : Search) (hf : WF2 st.final_puzzle) (hs : WF2 solved)
    (h : recursive_solve fuel st solved sq = some st') :
    st'.final_puzzle = st.final_puzzle ∨ solve_check st'.final_puzzle = true := by
  obtain ⟨new, -, -, n3, -⟩ := search_inv sq (fun _ => True)
    (fun _ _ _ _ _ _ _ => trivial) fuel st solved st' hf hs trivial h
  rcases last_solution_cases (solved :: new) st.final_puzzle with e | ⟨-, e⟩
  · exact Or.inl (by rw [n3, e])
  · exact Or.inr (by rw [n3]; exact e)

/-- Witness of C7: the search on `two_solutions`, started with the all-zero
`final_puzzle` of `main`. -/
theorem no_partial_result_witness :
    WF2 zero_grid ∧ WF2 two_solutions ∧
    (second_solution = zero_grid ∨ solve_check second_solution = true) :=
  ⟨by decide, by decide,
    no_partial_result two_solutions_lists 5 { final_puzzle := zero_grid, calls := [] }
      two_solutions
      { final_puzzle := second_solution,
        calls := search_tree 5 two_solutions_lists two_solutions }
      (by decide) (by decide) search_two_solutions⟩

/-- C8 (idempotence of propagation): for every input grid, when `simplify_puzzle`
has returned the state `s` for the imported puzzle, running `simplify_puzzle`
again on `s` ends after one pass and returns the same puzzle and the same
candidate lists. -/
theorem propagation_idempotent (x : Grid) (fuel : Nat) (s : Simplified)
    (h : simplify_puzzle fuel (import_puzzle x fresh).solved_puzzle
      (import_puzzle x fresh).square_list = some s) (fuel' : Nat) (hpos : 0 < fuel') :
    simplify_puzzle fuel' s.solved_puzzle s.square_list =
      some { solved_puzzle := s.solved_puzzle, square_list := s.square_list,
             iteration := 2 } := by
  obtain ⟨hb, -, hst⟩ := simplify_inv (fun _ _ => True) (fun _ _ _ _ => trivial) h trivial
  obtain ⟨n, rfl⟩ : ∃ n, fuel' = n + 1 := ⟨fuel' - 1, by omega⟩
  rw [simplify_eq_loop, simplify_loop, pass_of_stable hb hst]
  rfl

theorem simplify_two_solutions :
    simplify_puzzle 5 (import_puzzle two_solutions fresh).solved_puzzle
        (import_puzzle two_solutions fresh).square_list =
      some { solved_puzzle := two_solutions, square_list := two_solutions_lists,
             iteration := 2 } := by
  decide!

/-- Witness of C8: the puzzle `two_solutions`, which propagation leaves with four
squares that are 0. -/
theorem propagation_idempotent_witness :
    simplify_puzzle 5 (import_puzzle two_solutions fresh).solved_puzzle
        (import_puzzle two_solutions fresh).square_list =
      some { solved_puzzle := two_solutions, square_list := two_solutions_lists,
             iteration := 2 } ∧
    simplify_puzzle 1 two_solutions two_solutions_lists =
      some { solved_puzzle := two_solutions, square_list := two_solutions_lists,
             iteration := 2 } :=
  ⟨simplify_two_solutions,
    propagation_idempotent two_solutions 5
      { solved_puzzle := two_solutions, square_list := two_solutions_lists, iteration := 2 }
      simplify_two_solutions 1 (by decide)⟩

theorem list_eq_singleton {l : List Int} {a : Int} (hnd : l.Nodup) (ha : a ∈ l)
    (hall : ∀ v ∈ l, v = a) : l = [a] := by
  cases l with
  | nil => simp at ha
  | cons y t =>
    have hy := hall y (List.mem_cons_self _ _)
    subst hy
    cases t with
    | nil => rfl
    | cons z t' =>
      have hz := hall z (List.mem_cons_of_mem _ (List.mem_cons_self _ _))
      subst hz
      simp at hnd

theorem countP_eq_one {α : Type} [DecidableEq α] {l : List α} {a : α} (hnd : l.Nodup)
    (ha : a ∈ l) : l.countP (fun p => decide (p = a)) = 1 := by
  induction l with
  | nil => simp at ha
  | cons y t ih =>
    have hy : y ∉ t := (List.nodup_cons.mp hnd).1
    have ht : t.Nodup := (List.nodup_cons.mp hnd).2
    by_cases e : y = a
    · subst e
      rw [List.countP_cons_of_pos _ _ (by simp)]
      have : t.countP (fun p => decide (p = y)) = 0 := by
        rw [List.countP_eq_zero]
        intro p hp
        simp only [decide_eq_true_eq]
        rintro rfl
        exact hy hp
      omega
    · rw [List.countP_cons_of_neg _ _ (by simpa using e)]
      rcases List.mem_cons.mp ha with h | h
      · exact absurd h.symm e
      · exact ih ht h

theorem valid_solve_check {S : Grid} (hS : ValidGrid S) : solve_check S = true := by
  rw [solve_check_iff]
  intro r hr c hc
  have := valid_range hS hr hc
  omega

/-- Propagation alone fills a single blank in a valid grid. -/
theorem naked_single_core {S : Grid} (hS : ValidGrid S) {r c : Nat} (hr : r < 9) (hc : c < 9)
    {fuel : Nat} {s : Simplified}
    (h : simplify_puzzle fuel (import_puzzle (set2 S r c 0) fresh).solved_puzzle
      (import_puzzle (set2 S r c 0) fresh).square_list = some s) : s.solved_puzzle = S := by
  have hx : WF2 (set2 S r c 0) := WF2_set2 hS.1 _ _ _
  have hxz : cell (set2 S r c 0) r c = 0 := cell_set2_self hS.1 hr hc 0
  have hxo : ∀ a b, ¬ (a = r ∧ b = c) → cell (set2 S r c 0) a b = cell S a b :=
    fun a b hn => cell_set2_ne _ _ hn
  have hag0 : Agrees S (set2 S r c 0) := by
    intro a ha b hb hne
    by_cases e : a = r ∧ b = c
    · rw [e.1, e.2, hxz] at hne; exact absurd rfl hne
    · exact (hxo a b e).symm
  obtain ⟨hb, hsound, hst⟩ := simplify_inv (fun g sq => Sound S g sq)
    (fun g sq hb hJ => pass_sound hS hb hJ) h (import_sound hx hS hag0)
  have hag := simplify_agrees hx h
  have hother : ∀ a < 9, ∀ b < 9, ¬ (a = r ∧ b = c) → cell s.solved_puzzle a b = cell S a b := by
    intro a ha b hb' hn
    have hne : cell (set2 S r c 0) a b ≠ 0 := by
      rw [hxo a b hn]
      have := valid_range hS ha hb'
      omega
    rw [hag a ha b hb' hne, hxo a b hn]
  apply ext2 0 hb.1 hS.1
  intro a b ha hb'
  by_cases e : a = r ∧ b = c
  · obtain ⟨e1, e2⟩ := e
    subst e1; subst e2
    by_cases hz : cell s.solved_puzzle a b = 0
    · exfalso
      have hm := (hsound a ha b hb').2 hz
      have hbox := (hst (a / 3) (by omega) (b / 3) (by omega)).1 (a, b)
        (mem_box_cells_iff.mpr ⟨rfl, rfl⟩)
      have hgood := hb.2.2.1 a ha b hb'
      apply hbox.2
      have : cands s.square_list a b = [cell S a b] := by
        apply list_eq_singleton hgood.nodup hm
        intro v hv
        by_contra hne
        have hvn : v ∈ nums := mem_nums.mpr (hgood.range hv)
        have hrow := ((hS.2 a ha).1.mem_iff).mpr hvn
        unfold row_vals at hrow
        obtain ⟨c', hc', hv'⟩ := List.mem_map.mp hrow
        have hc'' := List.mem_range.mp hc'
        have hcne : ¬ (a = a ∧ c' = b) := by
          rintro ⟨-, rfl⟩
          exact hne hv'.symm
        have hp : Peer a b a c' := ⟨hcne, Or.inl rfl⟩
        have := peer_seen s.solved_puzzle hp ha hc''
        rw [hother a ha c' hc'' hcne, hv'] at this
        exact hbox.1 v hv this
      rw [this]
      rfl
    · exact (hsound a ha b hb').1 hz
  · exact hother a ha b hb' e

/-- C9 (naked single): for every valid completed grid `S` and every square
`(r, c)`, on the input that is `S` with the square `(r, c)` replaced by 0,
`simplify_puzzle` alone (with fuel 2 or more) returns exactly `S`, a grid
without zero square, so that `recursive_solve` makes a single call, on `S`, and
writes it to `final_puzzle`; the value the square receives is the one value of
1..9 that is missing from its row in the input. -/
theorem naked_single (S : Grid) (hS : ValidGrid S) (r c : Nat) (hr : r < 9) (hc : c < 9)
    (fuel : Nat) (hfuel : 2 ≤ fuel) :
    (∃ s, simplify_puzzle fuel (import_puzzle (set2 S r c 0) fresh).solved_puzzle
        (import_puzzle (set2 S r c 0) fresh).square_list = some s ∧ s.solved_puzzle = S) ∧
    solve_check S = true ∧
    main fuel (set2 S r c 0) = some { final_puzzle := S, calls := [S] } ∧
    ∀ v ∈ nums, (v ∈ row_vals (set2 S r c 0) r ↔ v ≠ cell S r c) := by
  have hx : WF2 (set2 S r c 0) := WF2_set2 hS.1 _ _ _
  have hxz : cell (set2 S r c 0) r c = 0 := cell_set2_self hS.1 hr hc 0
  have hxo : ∀ a b, ¬ (a = r ∧ b = c) → cell (set2 S r c 0) a b = cell S a b :=
    fun a b hn => cell_set2_ne _ _ hn
  have hz1 : zeros (set2 S r c 0) = 1 := by
    unfold zeros
    have e : cells81.countP (fun p => decide (cell (set2 S r c 0) p.1 p.2 = 0)) =
        cells81.countP (fun p => decide (p = (r, c))) := by
      apply List.countP_congr
      rintro ⟨a, b⟩ hp
      obtain ⟨ha, hb⟩ := mem_cells81.mp hp
      simp only [decide_eq_true_eq, beq_iff_eq, Prod.mk.injEq]
      constructor
      · intro hz
        by_contra hn
        rw [hxo a b hn] at hz
        have := valid_range hS ha hb
        omega
      · rintro ⟨rfl, rfl⟩
        exact hxz
    rw [e]
    exact countP_eq_one cells81_nodup (mem_cells81.mpr ⟨hr, hc⟩)
  obtain ⟨s, h1, -⟩ := simplify_total (set2 S r c 0) (by omega : zeros (set2 S r c 0) < fuel)
  have hsS := naked_single_core hS hr hc h1
  have hfull := valid_solve_check hS
  refine ⟨⟨s, h1, hsS⟩, hfull, ?_, ?_⟩
  · obtain ⟨n, rfl⟩ : ∃ n, fuel = n + 1 := ⟨fuel - 1, by omega⟩
    rw [main_eq, h1]
    simp only [Option.some_bind]
    rw [recursive_solve_succ _ _ _ _ WF2_zero_grid (by rw [hsS]; exact hS.1), hsS,
      if_pos hfull]
    rfl
  · intro v hv
    unfold row_vals
    simp only [List.mem_map, List.mem_range]
    constructor
    · rintro ⟨c', hc', e⟩ hne
      by_cases hcc : c' = c
      · subst hcc
        rw [hxz] at e
        have := mem_nums.mp hv
        omega
      · have hn : ¬ (r = r ∧ c' = c) := fun hh => hcc hh.2
        rw [hxo r c' hn] at e
        exact valid_peer hS hr hc hr hc' ⟨hn, Or.inl rfl⟩ (by rw [e, hne])
    · intro hne
      have hrow := ((hS.2 r hr).1.mem_iff).mpr hv
      unfold row_vals at hrow
      obtain ⟨c', hc', e⟩ := List.mem_map.mp hrow
      have hc'' := List.mem_range.mp hc'
      have hn : ¬ (r = r ∧ c' = c) := by
        rintro ⟨-, rfl⟩
        exact hne e.symm
      exact ⟨c', hc'', by rw [hxo r c' hn]; exact e⟩

/-- Witness of C9: the grid `solved_grid` with the square (4,4) replaced by 0. -/
theorem naked_single_witness :
    ValidGrid solved_grid ∧
    (∃ s, simplify_puzzle 2 (import_puzzle (set2 solved_grid 4 4 0) fresh).solved_puzzle
        (import_puzzle (set2 solved_grid 4 4 0) fresh).square_list = some s ∧
        s.solved_puzzle = solved_grid) ∧
    solve_check solved_grid = true ∧
    main 2 (set2 solved_grid 4 4 0) =
      some { final_puzzle := solved_grid, calls := [solved_grid] } ∧
    ∀ v ∈ nums, (v ∈ row_vals (set2 solved_grid 4 4 0) 4 ↔ v ≠ cell solved_grid 4 4) :=
  ⟨valid_solved_grid,
    naked_single solved_grid valid_solved_grid 4 4 (by decide) (by decide) 2 (le_refl _)⟩

theorem iterate_pass_base {g : Grid} {sq : Cands} (hb : Base g sq) (k : Nat) :
    Base (iterate_pass k g sq).solved_puzzle (iterate_pass k g sq).square_list := by
  induction k with
  | zero => exact hb
  | succ n ih =>
    rw [iterate_pass]
    exact (pass_evolves ih).1

/-- C10 (propagation terminates): for every input grid, the loop of
`simplify_puzzle` on the imported puzzle ends as soon as the fuel exceeds the
number of zero squares of the input, after at most that number plus one passes
(`iteration` is one more than the number of passes); and every pass, after any
number `k` of earlier passes, that reports `solution_update = true` has filled
at least one square that was 0 and has strictly decreased the number of
non-empty candidate lists. -/
theorem propagation_terminates (x : Grid) (fuel : Nat) (hfuel : zeros x < fuel) :
    (∃ s, simplify_puzzle fuel (import_puzzle x fresh).solved_puzzle
        (import_puzzle x fresh).square_list = some s ∧ s.iteration - 1 ≤ zeros x + 1) ∧
    ∀ k : Nat,
      (macro_box_iterate
        (iterate_pass k (import_puzzle x fresh).solved_puzzle
          (import_puzzle x fresh).square_list).solved_puzzle
        (iterate_pass k (import_puzzle x fresh).solved_puzzle
          (import_puzzle x fresh).square_list).square_list).solution_update = true →
      (∃ r < 9, ∃ c < 9,
        cell (iterate_pass k (import_puzzle x fresh).solved_puzzle
          (import_puzzle x fresh).square_list).solved_puzzle r c = 0 ∧
        cell (macro_box_iterate
          (iterate_pass k (import_puzzle x fresh).solved_puzzle
            (import_puzzle x fresh).square_list).solved_puzzle
          (iterate_pass k (import_puzzle x fresh).solved_puzzle
            (import_puzzle x fresh).square_list).square_list).solved_puzzle r c ≠ 0) ∧
      open_count (macro_box_iterate
          (iterate_pass k (import_puzzle x fresh).solved_puzzle
            (import_puzzle x fresh).square_list).solved_puzzle
          (iterate_pass k (import_puzzle x fresh).solved_puzzle
            (import_puzzle x fresh).square_list).square_list).square_list <
        open_count (iterate_pass k (import_puzzle x fresh).solved_puzzle
          (import_puzzle x fresh).square_list).square_list := by
  constructor
  · obtain ⟨s, h1, h2⟩ := simplify_total x hfuel
    exact ⟨s, h1, by omega⟩
  · intro k hu
    have hb := iterate_pass_base (import_base x) k
    rcases (pass_evolves hb).2.2.2.2 hu with h | ⟨h1, h2⟩
    · simp at h
    · exact ⟨h2, h1⟩

/-- Witness of C10: the puzzle `one_blank`, with one zero square. -/
theorem propagation_terminates_witness :
    zeros one_blank < 2 ∧
    ∃ s, simplify_puzzle 2 (import_puzzle one_blank fresh).solved_puzzle
        (import_puzzle one_blank fresh).square_list = some s ∧
      s.iteration - 1 ≤ zeros one_blank + 1 :=
  ⟨by decide, (propagation_terminates one_blank 2 (by decide)).1⟩

/-- C11 (initialisation): for every 9 by 9 input grid, after `import_puzzle` the
candidate list of every square whose value is 0 is 1, 2, ..., 9 in this order,
the candidate list of every other square is empty, and the working grid
`solved_puzzle` (as well as `input_puzzle`) equals the input grid. -/
theorem initialisation (x : Grid) (hx : WF2 x) :
    (import_puzzle x fresh).solved_puzzle = x ∧ (import_puzzle x fresh).input_puzzle = x ∧
    ∀ r < 9, ∀ c < 9,
      cands (import_puzzle x fresh).square_list r c =
        if cell x r c = 0 then [1, 2, 3, 4, 5, 6, 7, 8, 9] else [] := by
  obtain ⟨w1, -, -, h⟩ := import_puzzle_spec x
  exact ⟨import_solved hx, ext2 0 w1 hx (fun r c hr hc => (h r hr c hc).1),
    fun r hr c hc => (h r hr c hc).2.2⟩

/-- Witness of C11: the puzzle `two_solutions`. -/
theorem initialisation_witness :
    WF2 two_solutions ∧
    (import_puzzle two_solutions fresh).solved_puzzle = two_solutions ∧
    (import_puzzle two_solutions fresh).input_puzzle = two_solutions ∧
    ∀ r < 9, ∀ c < 9,
      cands (import_puzzle two_solutions fresh).square_list r c =
        if cell two_solutions r c = 0 then [1, 2, 3, 4, 5, 6, 7, 8, 9] else [] :=
  ⟨by decide, initialisation two_solutions (by decide)⟩

/-- C13 (propagation is sound): for every 9 by 9 input grid `x` and every valid
completed grid `S` that agrees with `x` on the non-zero squares of `x`,
`simplify_puzzle` on the imported puzzle ends (as soon as the fuel exceeds the
number of zero squares), and in the state it returns every non-zero square of
the puzzle holds the value of `S` and every square that is still 0 has the
value of `S` in its candidate list. -/
theorem propagation_sound (x S : Grid) (hx : WF2 x) (hS : ValidGrid S) (ha : Agrees S x)
    (fuel : Nat) :
    (zeros x < fuel → ∃ s, simplify_puzzle fuel (import_puzzle x fresh).solved_puzzle
        (import_puzzle x fresh).square_list = some s) ∧
    ∀ s, simplify_puzzle fuel (import_puzzle x fresh).solved_puzzle
        (import_puzzle x fresh).square_list = some s →
      ∀ r < 9, ∀ c < 9,
        (cell s.solved_puzzle r c ≠ 0 → cell s.solved_puzzle r c = cell S r c) ∧
        (cell s.solved_puzzle r c = 0 → cell S r c ∈ cands s.square_list r c) := by
  refine ⟨fun hfuel => ?_, fun s h => ?_⟩
  · obtain ⟨s, h1, -⟩ := simplify_total x hfuel
    exact ⟨s, h1⟩
  · exact (simplify_inv (fun g sq => Sound S g sq) (fun g sq hb hJ => pass_sound hS hb hJ) h
      (import_sound hx hS ha)).2.1

/-- Witness of C13: the puzzle `two_solutions` and its completion
`second_solution`. -/
theorem propagation_sound_witness :
    WF2 two_solutions ∧ ValidGrid second_solution ∧ Agrees second_solution two_solutions ∧
    (zeros two_solutions < 5 →
      ∃ s, simplify_puzzle 5 (import_puzzle two_solutions fresh).solved_puzzle
        (import_puzzle two_solutions fresh).square_list = some s) ∧
    ∀ s, simplify_puzzle 5 (import_puzzle two_solutions fresh).solved_puzzle
        (import_puzzle two_solutions fresh).square_list = some s →
      ∀ r < 9, ∀ c < 9,
        (cell s.solved_puzzle r c ≠ 0 → cell s.solved_puzzle r c = cell second_solution r c) ∧
        (cell s.solved_puzzle r c = 0 → cell second_solution r c ∈ cands s.square_list r c) :=
  ⟨by decide, by decide, by decide,
    propagation_sound two_solutions second_solution (by decide) (by decide) (by decide) 5⟩

/-- C14 (fixpoint characterisation): for every input grid, in the state that
`simplify_puzzle` returns for the imported puzzle no square has a candidate list
of length exactly 1, and for no box and no value `v` of 1..9 is there exactly
one square of the box whose candidate list contains `v` (the list `holders` of
these squares never has length 1). -/
theorem fixpoint_reached (x : Grid) (fuel : Nat) (s : Simplified)
    (h : simplify_puzzle fuel (import_puzzle x fresh).solved_puzzle
      (import_puzzle x fresh).square_list = some s) :
    (∀ r < 9, ∀ c < 9, (cands s.square_list r c).length ≠ 1) ∧
    ∀ box_y < 3, ∀ box_x < 3, ∀ v ∈ nums,
      (holders v box_y box_x s.square_list).length ≠ 1 := by
  obtain ⟨-, -, hst⟩ := simplify_inv (fun _ _ => True) (fun _ _ _ _ => trivial) h trivial
  refine ⟨fun r hr c hc => ?_, fun box_y hy box_x hx v hv => (hst box_y hy box_x hx).2 v hv⟩
  exact ((hst (r / 3) (by omega) (c / 3) (by omega)).1 (r, c)
    (mem_box_cells_iff.mpr ⟨rfl, rfl⟩)).2

/-- Witness of C14: the puzzle `two_solutions`, where propagation stops with four
squares that have the two candidates 6 and 9. -/
theorem fixpoint_reached_witness :
    simplify_puzzle 5 (import_puzzle two_solutions fresh).solved_puzzle
        (import_puzzle two_solutions fresh).square_list =
      some { solved_puzzle := two_solutions, square_list := two_solutions_lists,
             iteration := 2 } ∧
    (∀ r < 9, ∀ c < 9, (cands two_solutions_lists r c).length ≠ 1) ∧
    ∀ box_y < 3, ∀ box_x < 3, ∀ v ∈ nums,
      (holders v box_y box_x two_solutions_lists).length ≠ 1 :=
  ⟨simplify_two_solutions,
    fixpoint_reached two_solutions 5
      { solved_puzzle := two_solutions, square_list := two_solutions_lists, iteration := 2 }
      simplify_two_solutions⟩

/-- C15 (assigned squares have no candidates): for every input grid, after the
initialisation by `import_puzzle` (`k = 0`), after every pass of
`macro_box_iterate` (`k` passes, for every `k`) and in the state that
`simplify_puzzle` returns, every square whose value is not 0 has an empty
candidate list. -/
theorem assigned_no_candidates (x : Grid) :
    (∀ k : Nat, ∀ r < 9, ∀ c < 9,
      cell (iterate_pass k (import_puzzle x fresh).solved_puzzle
        (import_puzzle x fresh).square_list).solved_puzzle r c ≠ 0 →
      cands (iterate_pass k (import_puzzle x fresh).solved_puzzle
        (import_puzzle x fresh).square_list).square_list r c = []) ∧
    ∀ (fuel : Nat) (s : Simplified),
      simplify_puzzle fuel (import_puzzle x fresh).solved_puzzle
        (import_puzzle x fresh).square_list = some s →
      ∀ r < 9, ∀ c < 9, cell s.solved_puzzle r c ≠ 0 → cands s.square_list r c = [] := by
  refine ⟨fun k r hr c hc hne => ?_, fun fuel s h r hr c hc hne => ?_⟩
  · by_contra hl
    exact hne ((iterate_pass_base (import_base x) k).2.2.2 r hr c hc hl)
  · by_contra hl
    exact hne ((simplify_inv (fun _ _ => True) (fun _ _ _ _ => trivial) h trivial).1.2.2.2
      r hr c hc hl)

/-- C16 (candidates never conflict with assigned peers): for every input grid, in
the state that `simplify_puzzle` returns for the imported puzzle, no value of
the candidate list of a square is the value of another square of the same row,
the same column or the same box. -/
theorem no_conflict (x : Grid) (fuel : Nat) (s : Simplified)
    (h : simplify_puzzle fuel (import_puzzle x fresh).solved_puzzle
      (import_puzzle x fresh).square_list = some s) :
    ∀ r < 9, ∀ c < 9, ∀ v ∈ cands s.square_list r c, ∀ r' < 9, ∀ c' < 9,
      Peer r c r' c' → cell s.solved_puzzle r' c' ≠ v := by
  obtain ⟨-, -, hst⟩ := simplify_inv (fun _ _ => True) (fun _ _ _ _ => trivial) h trivial
  intro r hr c hc v hv r' hr' c' hc' hp he
  have hcl := ((hst (r / 3) (by omega) (c / 3) (by omega)).1 (r, c)
    (mem_box_cells_iff.mpr ⟨rfl, rfl⟩)).1
  exact hcl v hv (he ▸ peer_seen s.solved_puzzle hp hr' hc')

/-- Witness of C16: the puzzle `two_solutions`. -/
theorem no_conflict_witness :
    simplify_puzzle 5 (import_puzzle two_solutions fresh).solved_puzzle
        (import_puzzle two_solutions fresh).square_list =
      some { solved_puzzle := two_solutions, square_list := two_solutions_lists,
             iteration := 2 } ∧
    ∀ r < 9, ∀ c < 9, ∀ v ∈ cands two_solutions_lists r c, ∀ r' < 9, ∀ c' < 9,
      Peer r c r' c' → cell two_solutions r' c' ≠ v :=
  ⟨simplify_two_solutions,
    no_conflict two_solutions 5
      { solved_puzzle := two_solutions, square_list := two_solutions_lists, iteration := 2 }
      simplify_two_solutions⟩

theorem nums_ascending : nums.Pairwise (· < ·) := by decide

/-- C20 (erase-while-iterating is exact on reachable states): for every input
grid, every candidate list after import and any number `k` of passes of
`macro_box_iterate` is a strictly ascending sub-list of 1, ..., 9; and on every
such list the index loop `erase_loop` removes exactly the compared value and
keeps all other elements in order, so that a second run with the same value
changes nothing. -/
theorem erase_exact (x : Grid) :
    (∀ k : Nat, ∀ r < 9, ∀ c < 9,
      (cands (iterate_pass k (import_puzzle x fresh).solved_puzzle
        (import_puzzle x fresh).square_list).square_list r c).Sublist
          [1, 2, 3, 4, 5, 6, 7, 8, 9] ∧
      (cands (iterate_pass k (import_puzzle x fresh).solved_puzzle
        (import_puzzle x fresh).square_list).square_list r c).Pairwise (· < ·)) ∧
    ∀ l : List Int, l.Sublist [1, 2, 3, 4, 5, 6, 7, 8, 9] → ∀ v : Int,
      erase_loop v l = l.filter (fun a => decide (a ≠ v)) ∧
      erase_loop v (erase_loop v l) = erase_loop v l := by
  refine ⟨fun k r hr c hc => ?_, fun l hl v => ?_⟩
  · have hg : Good _ := (iterate_pass_base (import_base x) k).2.2.1 r hr c hc
    exact ⟨hg, List.Pairwise.sublist hg nums_ascending⟩
  · have hg : Good l := hl
    have e1 := erase_loop_good v hg
    refine ⟨e1, ?_⟩
    rw [e1, erase_loop_good v (hg.filter _), List.filter_filter]
    apply List.filter_congr
    intro a _
    simp

theorem only_digits_ne_zero {sq : Cands} (h : OnlyDigits sq) :
    ∀ r < 9, ∀ c < 9, ∀ v ∈ cands sq r c, v ≠ 0 := by
  intro r hr c hc v hv
  have := h r hr c hc v hv
  omega

theorem search_no_solution :
    recursive_solve 3 { final_puzzle := zero_grid, calls := [] } no_solution empty_lists =
      some { final_puzzle := zero_grid, calls := [no_solution] } := by
  decide!

theorem search_zero_candidate :
    ∀ (fuel : Nat) (st : Search), recursive_solve fuel st two_blanks zero_candidate = none := by
  intro fuel
  induction fuel with
  | zero => intro st; rfl
  | succ n ih =>
    intro st
    have h1 : solve_check two_blanks = false := by decide
    have h2 : copy_grid zero_grid two_blanks = two_blanks :=
      copy_grid_eq WF2_zero_grid (by decide)
    have h3 : find_empty_square two_blanks = (4, 4) := by decide
    have h4 : cands zero_candidate 4 4 = [0] := by decide
    have h5 : set2 two_blanks 4 4 0 = two_blanks := by decide
    have h6 : constraint_pass two_blanks 4 4 = true := by decide
    rw [recursive_solve]
    simp only [h1, h2, h3, h4, h5, h6, List.foldl_cons, List.foldl_nil, ih]
    rfl

/-- C17, the counterexample: in the grid `two_blanks` the square (8,8) is 0 and
its candidate list in `zero_candidate` is empty, but the list of the square
(4,4), the first zero square, holds the value 0.  Writing the candidate 0 into
(4,4) leaves the grid as it was and passes the test of the row, the column and
the box, so the call repeats itself: `recursive_solve` returns for no depth of
recursion at all, and the solve does not end. -/
theorem candidate_zero_counterexample :
    WF2 two_blanks ∧ cell two_blanks 8 8 = 0 ∧ cands zero_candidate 8 8 = [] ∧
    find_empty_square two_blanks = (4, 4) ∧ cands zero_candidate 4 4 = [0] ∧
    set2 two_blanks 4 4 0 = two_blanks ∧ constraint_pass two_blanks 4 4 = true ∧
    ¬ OnlyDigits zero_candidate ∧
    ∀ (fuel : Nat) (st : Search), recursive_solve fuel st two_blanks zero_candidate = none :=
  ⟨by decide, by decide, by decide, by decide, by decide, by decide, by decide, by decide,
    search_zero_candidate⟩

/-- C17, as amended (an empty candidate list means failure): for every 9 by 9
grid and every candidate collection in which some square has the value 0 and an
empty candidate list, whenever `recursive_solve` returns, `final_puzzle` is
unchanged and no call was made on a completed grid; and when the candidate lists
hold only values in 1..9, `recursive_solve` does return, as soon as the fuel
exceeds the number of zero squares, with `final_puzzle` unchanged: the solve
ends with nothing written.  Without the condition on the lists the search need
not end. -/
theorem empty_list_fails (sq : Cands) (g : Grid) (hg : WF2 g) (r c : Nat) (hr : r < 9)
    (hc : c < 9) (hz : cell g r c = 0) (he : cands sq r c = []) (st : Search)
    (hf : WF2 st.final_puzzle) (fuel : Nat) :
    (∀ st', recursive_solve fuel st g sq = some st' →
      st'.final_puzzle = st.final_puzzle ∧
      st'.calls = st.calls ++ search_tree fuel sq g ∧
      ∀ t ∈ search_tree fuel sq g, solve_check t = false) ∧
    (OnlyDigits sq → zeros g < fuel →
      ∃ st', recursive_solve fuel st g sq = some st' ∧
        st'.final_puzzle = st.final_puzzle) := by
  have part : ∀ st', recursive_solve fuel st g sq = some st' →
      st'.final_puzzle = st.final_puzzle ∧
      st'.calls = st.calls ++ search_tree fuel sq g ∧
      ∀ t ∈ search_tree fuel sq g, solve_check t = false := by
    intro st' h
    obtain ⟨new, n1, n2, n3, -⟩ := search_inv sq (fun t => cell t r c = 0)
      (by
        intro t v _ hP hc' hv _
        by_cases e : r = (find_empty_square t).1 ∧ c = (find_empty_square t).2
        · rw [← e.1, ← e.2, he] at hv
          simp at hv
        · rw [cell_set2_ne _ _ e]
          exact hP)
      fuel st g st' hf hg hz h
    have hcalls := search_calls sq fuel st g st' hf hg h
    have htree : search_tree fuel sq g = g :: new := by
      rw [n1] at hcalls
      exact (List.append_cancel_left hcalls).symm
    have hall : ∀ t ∈ g :: new, solve_check t = false := by
      intro t ht
      have hz' : cell t r c = 0 := by
        rcases List.mem_cons.mp ht with e | e
        · rw [e]; exact hz
        · exact (n2 t e).2
      cases hs : solve_check t
      · rfl
      · exact absurd hz' ((solve_check_iff t).mp hs r hr c hc)
    refine ⟨?_, hcalls, by rw [htree]; exact hall⟩
    rcases last_solution_cases (g :: new) st.final_puzzle with e | ⟨e1, e2⟩
    · rw [n3, e]
    · rw [hall _ e1] at e2
      exact absurd e2 (by simp)
  refine ⟨part, fun hd hfuel => ?_⟩
  obtain ⟨st', h⟩ := search_total_nz sq (only_digits_ne_zero hd) fuel st g hf hg hfuel
  exact ⟨st', h, (part st' h).1⟩

/-- Witness of C17: the puzzle `no_solution` with the candidate lists that
propagation leaves for it, all of them empty; the squares (0,0) and (2,7) are 0,
and the search returns with `final_puzzle` still the all-zero grid. -/
theorem empty_list_fails_witness :
    WF2 no_solution ∧ cell no_solution 0 0 = 0 ∧ cands empty_lists 0 0 = [] ∧
    OnlyDigits empty_lists ∧ zeros no_solution < 3 ∧
    ∃ st', recursive_solve 3 { final_puzzle := zero_grid, calls := [] } no_solution
        empty_lists = some st' ∧ st'.final_puzzle = zero_grid :=
  ⟨by decide, by decide, by decide, by decide, by decide,
    (empty_list_fails empty_lists no_solution (by decide) 0 0 (by decide) (by decide)
      (by decide) (by decide) { final_puzzle := zero_grid, calls := [] } (by decide) 3).2
      (by decide) (by decide)⟩

/-- C18 (search step): for every 9 by 9 grid `g` with at least one zero square,
`find_empty_square` gives the first zero square of `g` in row-major order, and
the recursive calls that `recursive_solve` makes directly are the calls on the
grids `direct_calls`, in this order: one for each candidate `v` of that square,
in the order of its candidate list, such that `v` is in no other square of the
row, the column and the box of that square in `g`; the grid of the call is `g`
with `v` in that square and equals `g` everywhere else. -/
theorem search_step (sq : Cands) (g : Grid) (hg : WF2 g) (hz : solve_check g = false)
    (fuel : Nat) (st : Search) (hf : WF2 st.final_puzzle) :
    ((find_empty_square g).1 < 9 ∧ (find_empty_square g).2 < 9 ∧
      cell g (find_empty_square g).1 (find_empty_square g).2 = 0 ∧
      ∀ r < 9, ∀ c < 9, (r < (find_empty_square g).1 ∨
        (r = (find_empty_square g).1 ∧ c < (find_empty_square g).2)) → cell g r c ≠ 0) ∧
    recursive_solve (fuel + 1) st g sq =
      (direct_calls sq g).foldl
        (fun acc t => acc.bind (fun st1 => recursive_solve fuel st1 t sq))
        (some { final_puzzle := st.final_puzzle, calls := st.calls ++ [g] }) ∧
    direct_calls sq g =
      ((cands sq (find_empty_square g).1 (find_empty_square g).2).filter
        (fun v => decide (∀ r : Nat, r < 9 → ∀ c : Nat, c < 9 →
          Peer (find_empty_square g).1 (find_empty_square g).2 r c → cell g r c ≠ v))).map
        (fun v => set2 g (find_empty_square g).1 (find_empty_square g).2 v) ∧
    ∀ v : Int, ∀ r < 9, ∀ c < 9,
      cell (set2 g (find_empty_square g).1 (find_empty_square g).2 v) r c =
        if r = (find_empty_square g).1 ∧ c = (find_empty_square g).2 then v else cell g r c := by
  have hspec := find_empty_square_spec hz
  refine ⟨hspec, recursive_solve_direct fuel st g sq hf hg hz, rfl, ?_⟩
  intro v r _ c _
  by_cases e : r = (find_empty_square g).1 ∧ c = (find_empty_square g).2
  · rw [if_pos e, e.1, e.2, cell_set2_self hg hspec.1 hspec.2.1]
  · rw [if_neg e, cell_set2_ne _ _ e]

/-- Witness of C18: the puzzle `two_solutions` with the candidate lists that
propagation leaves for it; the first zero square is (0,0), its candidates are 6
and 9 and both pass. -/
theorem search_step_witness :
    WF2 two_solutions ∧ solve_check two_solutions = false ∧ WF2 zero_grid ∧
    find_empty_square two_solutions = (0, 0) ∧
    direct_calls two_solutions_lists two_solutions =
      [set2 two_solutions 0 0 6, set2 two_solutions 0 0 9] ∧
    recursive_solve (4 + 1) { final_puzzle := zero_grid, calls := [] } two_solutions
        two_solutions_lists =
      (direct_calls two_solutions_lists two_solutions).foldl
        (fun acc t => acc.bind (fun st1 => recursive_solve 4 st1 t two_solutions_lists))
        (some { final_puzzle := zero_grid, calls := [] ++ [two_solutions] }) :=
  ⟨by decide, by decide, by decide, by decide, by decide!,
    (search_step two_solutions_lists two_solutions (by decide) (by decide) 4
      { final_puzzle := zero_grid, calls := [] } (by decide)).2.1⟩

/-- C19 (the search terminates): for every 9 by 9 grid and every candidate
collection whose lists contain only values in 1..9, `recursive_solve` returns
as soon as the fuel, which bounds the depth of the recursion, exceeds the number
of zero squares (depth at most that number plus one); and every recursive call
made directly on a grid with a zero square is on a grid with exactly one zero
square fewer. -/
theorem search_terminates (sq : Cands) (hsq : OnlyDigits sq) (g : Grid) (hg : WF2 g)
    (st : Search) (hf : WF2 st.final_puzzle) (fuel : Nat) (hfuel : zeros g < fuel) :
    (∃ st', recursive_solve fuel st g sq = some st') ∧
    (solve_check g = false → ∀ t ∈ direct_calls sq g, zeros t + 1 = zeros g) := by
  refine ⟨search_total_nz sq (only_digits_ne_zero hsq) fuel st g hf hg hfuel, ?_⟩
  intro hz t ht
  obtain ⟨f1, f2, f3, -⟩ := find_empty_square_spec hz
  unfold direct_calls at ht
  obtain ⟨v, hv, rfl⟩ := List.mem_map.mp ht
  have hvm := (List.mem_filter.mp hv).1
  exact zeros_set2_eq hg f1 f2 f3 (only_digits_ne_zero hsq _ f1 _ f2 v hvm)

/-- Witness of C19: the search on `two_solutions`, with four zero squares. -/
theorem search_terminates_witness :
    OnlyDigits two_solutions_lists ∧ WF2 two_solutions ∧ WF2 zero_grid ∧
    zeros two_solutions < 5 ∧
    (∃ st', recursive_solve 5 { final_puzzle := zero_grid, calls := [] } two_solutions
      two_solutions_lists = some st') ∧
    (solve_check two_solutions = false →
      ∀ t ∈ direct_calls two_solutions_lists two_solutions, zeros t + 1 = zeros two_solutions) :=
  ⟨by decide, by decide, by decide, by decide,
    search_terminates two_solutions_lists (by decide) two_solutions (by decide)
      { final_puzzle := zero_grid, calls := [] } (by decide) 5 (by decide)⟩

/-- A puzzle that a valid grid completes has its entries in `0..9`. -/
theorem agrees_in_range {S x : Grid} (hv : ValidGrid S) (ha : Agrees S x) : InRange x := by
  intro r hr c hc
  by_cases hz : cell x r c = 0
  · rw [hz]; omega
  · rw [← ha r hr c hc hz]
    have := valid_range hv hr hc
    omega

/-- What the solving part of `main` leaves in `final_puzzle`, when it has no zero
square, is a valid grid that agrees with the input. -/
theorem main_final_valid {x : Grid} (hx : WF2 x) (hr : InRange x) (hc : Consistent x)
    {fuel : Nat} {st : Search} (h : main fuel x = some st)
    (hfull : solve_check st.final_puzzle = true) :
    ValidGrid st.final_puzzle ∧ Agrees st.final_puzzle x := by
  obtain ⟨s, h1, h2⟩ := main_some h
  obtain ⟨hb, ⟨hc', hr'⟩, -⟩ := simplify_inv (fun g _ => Consistent g ∧ InRange g)
    (fun g sq hb hJ => ⟨pass_consistent hb hJ.1, pass_in_range hb hJ.2⟩) h1
    (by rw [import_solved hx]; exact ⟨hc, hr⟩)
  have hag := simplify_agrees hx h1
  obtain ⟨new, -, n2, n3, n4⟩ := search_inv s.square_list
    (fun g => (Consistent g ∧ InRange g) ∧ Agrees g x)
    (fun g v hg hP hcg hv hp =>
      ⟨search_keeps_valid s.square_list hb.2.2.1 g v hg hP.1 hcg hv hp, agrees_fill hP.2 hcg v⟩)
    fuel _ s.solved_puzzle st WF2_zero_grid hb.1 ⟨⟨hc', hr'⟩, hag⟩ h2
  have hin : (Consistent st.final_puzzle ∧ InRange st.final_puzzle) ∧
      Agrees st.final_puzzle x := by
    rcases last_solution_cases (s.solved_puzzle :: new) zero_grid with e | ⟨e, -⟩
    · rw [n3, e, solve_check_zero_grid] at hfull
      exact absurd hfull (by simp)
    · rw [← n3] at e
      rcases List.mem_cons.mp e with e | e
      · rw [e]; exact ⟨⟨hc', hr'⟩, hag⟩
      · exact (n2 _ e).2
  exact ⟨complete_valid n4 hfull hin.1.1 hin.1.2, hin.2⟩

theorem lexle_refl (S : Grid) : LexLe S S := Or.inl (fun _ _ _ _ => rfl)

/-- C12 (the last solution is returned): for every 9 by 9 input grid that has at
least one valid completion (its entries are then in 0..9 and its non-zero
entries contain no duplicate), the solving part of `main` ends (with any fuel
from 82 on) and leaves in `final_puzzle` the greatest valid completion of the
input in the lexicographic order of the 81 squares read row-major: it is a
valid grid, it agrees with the input on the non-zero squares of the input, and
every valid completion of the input is below or equal to it. -/
theorem last_solution_greatest (x S0 : Grid) (hx : WF2 x) (hS0 : ValidGrid S0)
    (ha0 : Agrees S0 x) (fuel : Nat) (hfuel : 82 ≤ fuel) :
    ∃ st, main fuel x = some st ∧ ValidGrid st.final_puzzle ∧ Agrees st.final_puzzle x ∧
      ∀ S, ValidGrid S → Agrees S x → LexLe S st.final_puzzle := by
  have hz := zeros_le x
  obtain ⟨s, h1, -⟩ := simplify_total x (by omega : zeros x < fuel)
  obtain ⟨hb, hsound, -⟩ := simplify_inv
    (fun g sq => ∀ S, ValidGrid S → Agrees S x → Sound S g sq)
    (fun g sq hb hJ S hS ha => pass_sound hS hb (hJ S hS ha)) h1
    (fun S hS ha => import_sound hx hS ha)
  have hz' := zeros_le s.solved_puzzle
  obtain ⟨st, h2, h3⟩ := search_complete s.square_list hb.2.2.1 hS0 fuel
    { final_puzzle := zero_grid, calls := [] } s.solved_puzzle WF2_zero_grid hb.1
    (hsound S0 hS0 ha0) (by omega)
  have hmain : main fuel x = some st := by rw [main_eq, h1]; exact h2
  obtain ⟨v1, v2⟩ := main_final_valid hx (agrees_in_range hS0 ha0)
    (agrees_consistent hS0 ha0) hmain h3
  refine ⟨st, hmain, v1, v2, ?_⟩
  intro S hS ha
  exact search_greatest s.square_list hb.2.2.1 fuel _ s.solved_puzzle st WF2_zero_grid hb.1 h2
    S hS (hsound S hS ha)

theorem main_two_solutions_final :
    (main 82 two_solutions).map (fun st => st.final_puzzle) = some second_solution := by
  decide!

/-- Witness of C12: the puzzle `two_solutions`; of its two valid completions,
`solved_grid` (6 in the first square) and `second_solution` (9 in the first
square), the program leaves the greater one. -/
theorem last_solution_greatest_witness :
    WF2 two_solutions ∧ ValidGrid solved_grid ∧ Agrees solved_grid two_solutions ∧
    (main 82 two_solutions).map (fun st => st.final_puzzle) = some second_solution ∧
    ∃ st, main 82 two_solutions = some st ∧ ValidGrid st.final_puzzle ∧
      Agrees st.final_puzzle two_solutions ∧
      ∀ S, ValidGrid S → Agrees S two_solutions → LexLe S st.final_puzzle :=
  ⟨by decide, valid_solved_grid, by decide, main_two_solutions_final,
    last_solution_greatest two_solutions solved_grid (by decide) valid_solved_grid (by decide)
      82 (le_refl _)⟩

end Sudoku
